import Mathlib

/-!
Verification of the NodeLx AST mutation engine.

This file gives a shallow embedding of the engine's data model and
operations, translated from the JavaScript source:
the Babel-shaped JSX node model, the element locator
(`findByEditableId`), the mutation operations (remove, update, move,
insert, style), the template resolver (`parseJSX`, `getTemplate`,
`resolveElement`), and a markup parser/generator pair modelled from the
specification (the source delegates parsing and printing to the
third-party Babel library, which is not part of this repository).

Modelling conventions:
  - Trees are immutable values; the JavaScript code mutates shared node
    objects in place.  Each operation is embedded as a function from the
    old tree to a result record carrying the new tree, exactly mirroring
    the source's control flow.
  - JavaScript's `indexOf` on node objects compares by object identity.
    The locator here returns the target's position path directly, which
    coincides with identity-based `indexOf` on the parent's children.
  - JavaScript numbers are modelled as `Nat`/`Int` where they occur;
    the claims under study never exercise fractional values.
-/

/-- Characters that the JavaScript regular expression `^\s*$` treats as
whitespace (restricted to the ASCII whitespace that can occur in the
modelled sources). -/
def isJsWs (c : Char) : Bool :=
  c = ' ' || c = '\t' || c = '\n' || c = '\r'

/-- The left brace character. -/
def braceL : Char := Char.ofNat 123

/-- The right brace character. -/
def braceR : Char := Char.ofNat 125

/-- The double-quote character. -/
def chDq : Char := Char.ofNat 34

/-- The single-quote character. -/
def chSq : Char := Char.ofNat 39

/-- The backtick character. -/
def chBtick : Char := Char.ofNat 96

/-- Property values that occur inside a `style=` object expression.
Babel allows arbitrary expressions there; the engine itself only writes
string literals (`styleObjectToAST`) and only reads string literals and
identifiers (`getElementStyles` takes `prop.value.value || prop.value.name`),
so the embedding restricts object-property values to those two shapes. -/
inductive ObjVal where
  | str (value : String)
  | identName (name : String)
  deriving DecidableEq, Repr

/-- Expressions that can appear inside a JSX expression container, as used
by the engine: string/numeric/boolean literals, identifiers, member
accesses such as `content.title`, single-quasi template literals, and the
object expressions used for `style={...}` attributes. -/
inductive Expr where
  | stringLit (value : String)
  | numLit (value : Nat)
  | boolLit (value : Bool)
  | ident (name : String)
  | member (obj : Expr) (prop : String)
  | templateLit (quasis : List String)
  | objectExpr (props : List (String × ObjVal))
  deriving DecidableEq, Repr

/-- The value of a JSX attribute: a plain string literal, or an expression
container.  A value-less (boolean-true) attribute is `none` at the use
site (`JSXAttribute.value`). -/
inductive AttrValue where
  | str (value : String)
  | expr (e : Expr)
  deriving DecidableEq, Repr

/-- A JSX attribute `name=value` (Babel `JSXAttribute`). -/
structure JSXAttribute where
  name : String
  value : Option AttrValue
  deriving DecidableEq, Repr

mutual
/-- A Babel-shaped JSX node.  `element` flattens Babel's
`openingElement`/`closingElement` pair: `tagName`, `attributes` and
`selfClosing` live on the opening element, and `closing` holds the
closing element's tag name when a closing element is present. -/
inductive JSXNode where
  | element (tagName : String) (attributes : List JSXAttribute)
      (selfClosing : Bool) (closing : Option String) (children : JSXNodes)
  | text (value : String)
  | exprContainer (e : Expr)
  | fragment (children : JSXNodes)
  deriving DecidableEq, Repr
/-- A list of JSX children (a separate inductive so that all recursion
over the tree is structural). -/
inductive JSXNodes where
  | nil
  | cons (hd : JSXNode) (tl : JSXNodes)
  deriving DecidableEq, Repr
end

/-- Converts a children spine to an ordinary list. -/
def JSXNodes.toList : JSXNodes → List JSXNode
  | .nil => []
  | .cons c cs => c :: cs.toList

/-- Converts an ordinary list to a children spine. -/
def JSXNodes.ofList : List JSXNode → JSXNodes
  | [] => .nil
  | c :: cs => .cons c (JSXNodes.ofList cs)

/-- The children array of a node, when the node kind carries one
(elements and fragments; Babel stores `children` on both). -/
def JSXNode.childList : JSXNode → Option (List JSXNode)
  | .element _ _ _ _ cs => some cs.toList
  | .fragment cs => some cs.toList
  | _ => none

/-- Replaces the children array of an element or fragment; other node
kinds are returned unchanged. -/
def JSXNode.withChildren : JSXNode → List JSXNode → JSXNode
  | .element t as sc cl _, cs => .element t as sc cl (JSXNodes.ofList cs)
  | .fragment _, cs => .fragment (JSXNodes.ofList cs)
  | n, _ => n

/-- Inserts the block `xs` at position `i` of `l` (JavaScript
`l.splice(i, 0, ...xs)`). -/
def listInsertAt (l : List α) (i : Nat) (xs : List α) : List α :=
  l.take i ++ xs ++ l.drop i

/-- Removes `cnt` entries starting at position `i` (JavaScript
`l.splice(i, cnt)`). -/
def listRemoveAt (l : List α) (i cnt : Nat) : List α :=
  l.take i ++ l.drop (i + cnt)

/-- Replaces the entry at position `i` (JavaScript `l[i] = x`; every use
site has `i` in range). -/
def listSetAt (l : List α) (i : Nat) (x : α) : List α :=
  l.set i x

/-- Reads the node at a child-index path, `some root` at the empty path. -/
def getAt : JSXNode → List Nat → Option JSXNode
  | n, [] => some n
  | n, i :: p =>
    match n.childList with
    | some cs =>
      match cs.get? i with
      | some c => getAt c p
      | none => none
    | none => none

/-- Rebuilds the tree with `f` applied to the node at the given path;
the tree is unchanged when the path does not exist. -/
def modifyAt (n : JSXNode) (p : List Nat) (f : JSXNode → JSXNode) : JSXNode :=
  match p with
  | [] => f n
  | i :: p' =>
    match n.childList with
    | some cs =>
      match cs.get? i with
      | some c => n.withChildren (listSetAt cs i (modifyAt c p' f))
      | none => n
    | none => n

/-- Reads a JSX attribute's value the way `getAttributeValue` in the
locator does: string literal directly, expression container only when it
wraps a string literal, `null` (here `none`) otherwise — including for
value-less attributes. -/
def attrStringValue (a : JSXAttribute) : Option String :=
  match a.value with
  | some (.str s) => some s
  | some (.expr (.stringLit s)) => some s
  | _ => none

/-- The `data-editable` attribute of an element's attribute list, if
present (`getEditableAttribute`). -/
def editableAttr (attrs : List JSXAttribute) : Option JSXAttribute :=
  attrs.find? (fun a => a.name = "data-editable")

mutual
/-- Position path of the first element whose `data-editable` attribute
has string value `id`, in the depth-first pre-order used by Babel's
`traverse` (`findByEditableId`); `none` when absent. -/
def findPath (id : String) : JSXNode → Option (List Nat)
  | .element _ attrs _ _ cs =>
    match editableAttr attrs with
    | some a =>
      if attrStringValue a = some id then some []
      else findPathList id cs 0
    | none => findPathList id cs 0
  | .fragment cs => findPathList id cs 0
  | _ => none
/-- Searches a children spine left to right, prefixing the child index. -/
def findPathList (id : String) : JSXNodes → Nat → Option (List Nat)
  | .nil, _ => none
  | .cons c cs, i =>
    match findPath id c with
    | some p => some (i :: p)
    | none => findPathList id cs (i + 1)
end

/-- Checks whether a node is pure-whitespace JSX text (`isWhitespaceNode`:
a `JSXText` matching `^\s*$`). -/
def isWhitespaceNode : JSXNode → Bool
  | .text v => v.toList.all isJsWs
  | _ => false

mutual
/-- Translation of `isDescendant` from the move operation: walks
`ancestor`'s children recursively looking for `target`.  The JavaScript
version compares by object identity; structural equality coincides with
it on the inputs the claims quantify over (a node actually contained in
the tree). -/
def isDescendant (ancestor target : JSXNode) : Bool :=
  match ancestor with
  | .element _ _ _ _ cs => isDescendantList cs target
  | .fragment cs => isDescendantList cs target
  | _ => false
/-- Helper walking a children spine. -/
def isDescendantList (cs : JSXNodes) (target : JSXNode) : Bool :=
  match cs with
  | .nil => false
  | .cons c rest =>
    (c = target) || isDescendant c target || isDescendantList rest target
end

/-- The whole-file syntax tree.  The source operates on a full Babel
program; the embedding keeps the single function component's returned
JSX tree (`findComponentReturn` resolves to it), `none` once the root
has been removed.  A target found at path `[]` is the component root,
whose Babel parent is a `ReturnStatement` without a `children` array. -/
structure Ast where
  root : Option JSXNode
  deriving DecidableEq, Repr

/-- Locates the target in an `Ast` (`findByEditableId` at the tree level). -/
def Ast.find (ast : Ast) (id : String) : Option (List Nat) :=
  match ast.root with
  | some r => findPath id r
  | none => none

/-- Splits a path into the parent's path and the final child index;
`none` for the empty path (the component root, whose parent is not an
element and has no `children` array). -/
def splitLast : List Nat → Option (List Nat × Nat)
  | [] => none
  | [i] => some ([], i)
  | x :: y :: xs =>
    match splitLast (y :: xs) with
    | some (pp, i) => some (x :: pp, i)
    | none => none

/-- The not-found message shared by all operations. -/
def notFoundMsg (id : String) : String :=
  "Element with data-editable=\"" ++ id ++ "\" not found"

/-- Result of `removeElement`. -/
structure RemoveResult where
  success : Bool
  ast : Ast
  removedElement : Option JSXNode
  message : String
  deriving DecidableEq, Repr

/-- Translation of `removeElement` (operations/remove.js).  The
`index === -1` branch after `indexOf` is unreachable under identity
semantics (the located node is at its own index) and is not modelled;
the `path.remove()` fallback is taken exactly when the target is the
component root. -/
def removeElement (ast : Ast) (targetId : String) (preserveChildren : Bool) :
    RemoveResult :=
  match ast.root with
  | none => ⟨false, ast, none, notFoundMsg targetId⟩
  | some r =>
    match findPath targetId r with
    | none => ⟨false, ast, none, notFoundMsg targetId⟩
    | some p =>
      match splitLast p with
      | none =>
        ⟨true, ⟨none⟩, some r,
          "Element \"" ++ targetId ++ "\" removed successfully"⟩
      | some (pp, i) =>
        match (getAt r pp).bind JSXNode.childList with
        | none => ⟨false, ast, none, "Element not found in parent children"⟩
        | some cs =>
          match cs.get? i with
          | none => ⟨false, ast, none, "Element not found in parent children"⟩
          | some target =>
            let cs' :=
              if preserveChildren then
                match target.childList with
                | some tcs => cs.take i ++ tcs ++ cs.drop (i + 1)
                | none => listRemoveAt cs i 1
              else
                match i with
                | 0 => listRemoveAt cs 0 1
                | j + 1 =>
                  if isWhitespaceNode ((cs.get? j).getD (.fragment .nil)) then
                    listRemoveAt cs j 2
                  else
                    listRemoveAt cs (j + 1) 1
            ⟨true, ⟨some (modifyAt r pp (fun n => n.withChildren cs'))⟩,
              some target,
              "Element \"" ++ targetId ++ "\" removed successfully"⟩

/-- Result of `removeMultiple`.  `finalTargetIds` is the content of the
caller's `targetIds` array after the call: the source calls
`targetIds.reverse()`, which reverses that array in place. -/
structure RemoveMultipleResult where
  success : Bool
  ast : Ast
  removedCount : Nat
  errors : List (String × String)
  finalTargetIds : List String
  deriving DecidableEq, Repr

/-- The removal loop of `removeMultiple`, over the already-reversed id
list. -/
def removeMultipleGo : Ast → List String → Nat → List (String × String) →
    Ast × Nat × List (String × String)
  | ast, [], cnt, errs => (ast, cnt, errs)
  | ast, id :: rest, cnt, errs =>
    let r := removeElement ast id false
    if r.success then removeMultipleGo r.ast rest (cnt + 1) errs
    else removeMultipleGo r.ast rest cnt (errs ++ [(id, r.message)])

/-- Translation of `removeMultiple` (operations/remove.js): reverses the
id list in place, removes each id in that reversed order, and reports
success only when no removal failed. -/
def removeMultiple (ast : Ast) (targetIds : List String) : RemoveMultipleResult :=
  let rev := targetIds.reverse
  match removeMultipleGo ast rev 0 [] with
  | (ast', cnt, errs) => ⟨errs.isEmpty, ast', cnt, errs, rev⟩

/-- Result shared by the operations that report only success, tree and
message. -/
structure MutResult where
  success : Bool
  ast : Ast
  message : String
  deriving DecidableEq, Repr

/-- The tag names that `clearChildren` converts to self-closing form. -/
def voidElements : List String := ["img", "br", "hr", "input", "meta", "link"]

/-- Translation of `clearChildren` (operations/remove.js). -/
def clearChildren (ast : Ast) (targetId : String) : MutResult :=
  match ast.root with
  | none => ⟨false, ast, notFoundMsg targetId⟩
  | some r =>
    match findPath targetId r with
    | none => ⟨false, ast, notFoundMsg targetId⟩
    | some p =>
      let r' := modifyAt r p (fun n =>
        match n with
        | .element t as sc cl _ =>
          if voidElements.contains t.toLower then
            .element t as true none .nil
          else
            .element t as sc cl .nil
        | other => other)
      ⟨true, ⟨some r'⟩, "Children of \"" ++ targetId ++ "\" cleared"⟩

/-- Translation of `getExpressionString` (operations/update.js). -/
def getExpressionString : Expr → String
  | .ident n => n
  | .member obj prop => getExpressionString obj ++ "." ++ prop
  | _ => "expression"

/-- The text-bearing-child scan of `updateText`: walks the children in
order and rewrites the first match, returning the old text and the
updated children.  A `JSXText` child has its value replaced; an
expression container wrapping an identifier or member expression is
replaced wholesale by a literal text node; one wrapping a string literal
or a single-quasi template literal has the literal updated in place.
Returns `none` when no text-bearing child exists. -/
def updateTextScan (newText : String) : List JSXNode →
    Option (String × List JSXNode)
  | [] => none
  | c :: rest =>
    let skip := (updateTextScan newText rest).map
      (fun pr => (pr.1, c :: pr.2))
    match c with
    | .text v => some (v.trim, .text newText :: rest)
    | .exprContainer e =>
      match e with
      | .member _ _ =>
        some ("\x7b" ++ getExpressionString e ++ "\x7d",
          .text newText :: rest)
      | .ident _ =>
        some ("\x7b" ++ getExpressionString e ++ "\x7d",
          .text newText :: rest)
      | .stringLit s => some (s, .exprContainer (.stringLit newText) :: rest)
      | .templateLit [q] =>
        some (q, .exprContainer (.templateLit [newText]) :: rest)
      | _ => skip
    | _ => skip

/-- Result of `updateText`.  `oldText` is `none` on failure (JavaScript
`null`) and `some ""` when no text-bearing child was found (the
initialized empty string is returned unchanged). -/
structure UpdateTextResult where
  success : Bool
  ast : Ast
  oldText : Option String
  message : String
  deriving DecidableEq, Repr

/-- Translation of `updateText` (operations/update.js).  When no
text-bearing child exists, the children array is reassigned to a single
new text node (`target.node.children = [t.jsxText(newText)]`) and the
element is forced out of self-closing form. -/
def updateText (ast : Ast) (targetId newText : String) : UpdateTextResult :=
  match ast.root with
  | none => ⟨false, ast, none, notFoundMsg targetId⟩
  | some r =>
    match findPath targetId r with
    | none => ⟨false, ast, none, notFoundMsg targetId⟩
    | some p =>
      match getAt r p with
      | none => ⟨false, ast, none, notFoundMsg targetId⟩
      | some target =>
        let cs := target.childList.getD []
        match updateTextScan newText cs with
        | some (old, cs') =>
          ⟨true, ⟨some (modifyAt r p (fun n => n.withChildren cs'))⟩,
            some old, "Text updated for \"" ++ targetId ++ "\""⟩
        | none =>
          let r' := modifyAt r p (fun n =>
            match n with
            | .element t as _ cl _ =>
              .element t as false (some (cl.getD t))
                (.cons (.text newText) .nil)
            | other => other)
          ⟨true, ⟨some r'⟩, some "",
            "Text updated for \"" ++ targetId ++ "\""⟩

/-- A primitive JavaScript attribute value as accepted by
`updateAttribute`: string, number, boolean, `null`, or an
`{expression: name}` wrapper. -/
inductive AttrInput where
  | strV (s : String)
  | numV (n : Nat)
  | boolV (b : Bool)
  | nullV
  | exprV (name : String)
  deriving DecidableEq, Repr

/-- A primitive value as returned for undo support
(`getAttributeValueFromNode`). -/
inductive JsLit where
  | s (v : String)
  | n (v : Nat)
  | b (v : Bool)
  deriving DecidableEq, Repr

/-- Translation of `getAttributeValueFromNode` (operations/update.js):
value-less attributes read as boolean `true`; literal payloads are
unwrapped; anything else is `null`. -/
def getAttributeValueFromNode (a : JSXAttribute) : Option JsLit :=
  match a.value with
  | none => some (.b true)
  | some (.str s) => some (.s s)
  | some (.expr (.stringLit s)) => some (.s s)
  | some (.expr (.numLit n)) => some (.n n)
  | some (.expr (.boolLit b)) => some (.b b)
  | some (.expr _) => none

/-- Result of `updateAttribute`. -/
structure AttrResult where
  success : Bool
  ast : Ast
  oldValue : Option JsLit
  message : String
  deriving DecidableEq, Repr

/-- Translation of `updateAttribute` (operations/update.js). -/
def updateAttribute (ast : Ast) (targetId attrName : String)
    (attrValue : AttrInput) : AttrResult :=
  match ast.root with
  | none => ⟨false, ast, none, notFoundMsg targetId⟩
  | some r =>
    match findPath targetId r with
    | none => ⟨false, ast, none, notFoundMsg targetId⟩
    | some p =>
      match getAt r p with
      | none => ⟨false, ast, none, notFoundMsg targetId⟩
      | some target =>
        match target with
        | .element t attrs sc cl cs =>
          let existingIndex := attrs.findIdx? (fun a => a.name = attrName)
          let put : Option AttrValue → AttrResult := fun valueNode =>
            let newAttr : JSXAttribute := ⟨attrName, valueNode⟩
            let pr : List JSXAttribute × Option JsLit :=
              match existingIndex with
              | some i =>
                (listSetAt attrs i newAttr,
                  (attrs.get? i).bind getAttributeValueFromNode)
              | none => (attrs ++ [newAttr], none)
            ⟨true, ⟨some (modifyAt r p
                (fun _ => .element t pr.1 sc cl cs))⟩, pr.2,
              "Attribute \"" ++ attrName ++ "\" updated on \"" ++
                targetId ++ "\""⟩
          match attrValue with
          | .boolV true => put none
          | .boolV false =>
            let pr : List JSXAttribute × Option JsLit :=
              match existingIndex with
              | some i =>
                (listRemoveAt attrs i 1,
                  (attrs.get? i).bind getAttributeValueFromNode)
              | none => (attrs, none)
            ⟨true, ⟨some (modifyAt r p
                (fun _ => .element t pr.1 sc cl cs))⟩, pr.2,
              "Attribute \"" ++ attrName ++ "\" removed from \"" ++
                targetId ++ "\""⟩
          | .nullV =>
            let pr : List JSXAttribute × Option JsLit :=
              match existingIndex with
              | some i =>
                (listRemoveAt attrs i 1,
                  (attrs.get? i).bind getAttributeValueFromNode)
              | none => (attrs, none)
            ⟨true, ⟨some (modifyAt r p
                (fun _ => .element t pr.1 sc cl cs))⟩, pr.2,
              "Attribute \"" ++ attrName ++ "\" removed from \"" ++
                targetId ++ "\""⟩
          | .strV s => put (some (.str s))
          | .numV n => put (some (.expr (.numLit n)))
          | .exprV name => put (some (.expr (.ident name)))
        | _ => ⟨false, ast, none, notFoundMsg targetId⟩

/-- Result of `updateAttributes`. -/
structure MultiAttrResult where
  success : Bool
  ast : Ast
  updates : List (String × Bool)
  message : String
  deriving DecidableEq, Repr

/-- The per-attribute loop of `updateAttributes`, threading the tree. -/
def updateAttributesGo : Ast → String → List (String × AttrInput) →
    Ast × List (String × Bool)
  | ast, _, [] => (ast, [])
  | ast, id, (k, v) :: rest =>
    let r := updateAttribute ast id k v
    match updateAttributesGo r.ast id rest with
    | (ast', us) => (ast', (k, r.success) :: us)

/-- Translation of `updateAttributes` (operations/update.js): applies
`updateAttribute` per entry in order, reporting overall success only
when every single update succeeded.  Earlier successful updates are kept
even when a later one fails. -/
def updateAttributes (ast : Ast) (targetId : String)
    (attributes : List (String × AttrInput)) : MultiAttrResult :=
  match updateAttributesGo ast targetId attributes with
  | (ast', us) =>
    ⟨us.all (fun u => u.2), ast', us,
      "Updated " ++ toString (us.filter (fun u => u.2)).length ++ "/" ++
        toString us.length ++ " attributes on \"" ++ targetId ++ "\""⟩

/-- Result of `updateTagName`. -/
structure TagNameResult where
  success : Bool
  ast : Ast
  oldTagName : Option String
  message : String
  deriving DecidableEq, Repr

/-- Translation of `updateTagName` (operations/update.js): renames the
opening identifier and, when a closing element exists, the closing one. -/
def updateTagName (ast : Ast) (targetId newTagName : String) : TagNameResult :=
  match ast.root with
  | none => ⟨false, ast, none, notFoundMsg targetId⟩
  | some r =>
    match findPath targetId r with
    | none => ⟨false, ast, none, notFoundMsg targetId⟩
    | some p =>
      match getAt r p with
      | none => ⟨false, ast, none, notFoundMsg targetId⟩
      | some (.element t attrs sc cl cs) =>
        ⟨true,
          ⟨some (modifyAt r p (fun _ =>
            .element newTagName attrs sc (cl.map (fun _ => newTagName)) cs))⟩,
          some t,
          "Tag name changed from \"" ++ t ++ "\" to \"" ++ newTagName ++
            "\" on \"" ++ targetId ++ "\""⟩
      | some _ => ⟨false, ast, none, notFoundMsg targetId⟩

/-- Translation of `replaceChildren` (operations/update.js): children
are strings (turned into text nodes) or ready nodes; a non-empty
replacement forces open/close form. -/
def replaceChildren (ast : Ast) (targetId : String)
    (newChildren : List (String ⊕ JSXNode)) : MutResult :=
  match ast.root with
  | none => ⟨false, ast, notFoundMsg targetId⟩
  | some r =>
    match findPath targetId r with
    | none => ⟨false, ast, notFoundMsg targetId⟩
    | some p =>
      let childNodes : List JSXNode := newChildren.map (fun c =>
        match c with
        | .inl s => .text s
        | .inr n => n)
      let r' := modifyAt r p (fun n =>
        match n with
        | .element t as sc cl _ =>
          if childNodes.isEmpty then
            .element t as sc cl .nil
          else
            .element t as false (some (cl.getD t)) (JSXNodes.ofList childNodes)
        | other => other)
      ⟨true, ⟨some r'⟩, "Children replaced for \"" ++ targetId ++ "\""⟩

/-- Offset of the first non-whitespace node in a list, if any. -/
def firstNonWsOffset : List JSXNode → Option Nat
  | [] => none
  | c :: rest =>
    if isWhitespaceNode c then (firstNonWsOffset rest).map (fun k => k + 1)
    else some 0

/-- The previous non-whitespace sibling index: the `while` loop of
`moveUp` scanning from `index - 1` downward; `none` models the loop
running past index `0` (`prevIndex < 0`). -/
def prevNonWsIdx (cs : List JSXNode) (i : Nat) : Option Nat :=
  (firstNonWsOffset ((cs.take i).reverse)).map (fun off => i - 1 - off)

/-- The next non-whitespace sibling index: the `while` loop of
`moveDown` scanning from `index + 1` upward; `none` models the loop
reaching `children.length`. -/
def nextNonWsIdx (cs : List JSXNode) (i : Nat) : Option Nat :=
  (firstNonWsOffset (cs.drop (i + 1))).map (fun off => i + 1 + off)

/-- Swaps the entries at positions `a` and `b` (the three-line `temp`
swap in `moveUp`/`moveDown`). -/
def listSwap (cs : List JSXNode) (a b : Nat) : List JSXNode :=
  match cs.get? a, cs.get? b with
  | some x, some y => listSetAt (listSetAt cs a y) b x
  | _, _ => cs

/-- Translation of `moveUp` (operations/move.js). -/
def moveUp (ast : Ast) (targetId : String) : MutResult :=
  match ast.root with
  | none => ⟨false, ast, notFoundMsg targetId⟩
  | some r =>
    match findPath targetId r with
    | none => ⟨false, ast, notFoundMsg targetId⟩
    | some p =>
      match splitLast p with
      | none => ⟨false, ast, "Cannot move element: no siblings found"⟩
      | some (pp, i) =>
        match (getAt r pp).bind JSXNode.childList with
        | none => ⟨false, ast, "Cannot move element: no siblings found"⟩
        | some cs =>
          match prevNonWsIdx cs i with
          | none => ⟨false, ast, "Element is already at the top"⟩
          | some prev =>
            ⟨true,
              ⟨some (modifyAt r pp (fun n => n.withChildren (listSwap cs prev i)))⟩,
              "Element \"" ++ targetId ++ "\" moved up"⟩

/-- Translation of `moveDown` (operations/move.js). -/
def moveDown (ast : Ast) (targetId : String) : MutResult :=
  match ast.root with
  | none => ⟨false, ast, notFoundMsg targetId⟩
  | some r =>
    match findPath targetId r with
    | none => ⟨false, ast, notFoundMsg targetId⟩
    | some p =>
      match splitLast p with
      | none => ⟨false, ast, "Cannot move element: no siblings found"⟩
      | some (pp, i) =>
        match (getAt r pp).bind JSXNode.childList with
        | none => ⟨false, ast, "Cannot move element: no siblings found"⟩
        | some cs =>
          match nextNonWsIdx cs i with
          | none => ⟨false, ast, "Element is already at the bottom"⟩
          | some next =>
            ⟨true,
              ⟨some (modifyAt r pp (fun n => n.withChildren (listSwap cs next i)))⟩,
              "Element \"" ++ targetId ++ "\" moved down"⟩

/-- Position in the full children list of the `k`-th non-whitespace
entry (`elements[newIndex]` looked up by object identity). -/
def nthNonWsPos : List JSXNode → Nat → Option Nat
  | [], _ => none
  | c :: rest, k =>
    if isWhitespaceNode c then (nthNonWsPos rest k).map (fun j => j + 1)
    else
      match k with
      | 0 => some 0
      | k' + 1 => (nthNonWsPos rest k').map (fun j => j + 1)

/-- Translation of `moveToIndex` (operations/move.js).  The target is
spliced out first; `children.indexOf(targetElement)` then finds the new
slot by object identity, so when `targetElement` is the spliced-out
target itself the lookup yields `-1` and the code appends at the end of
the children array. -/
def moveToIndex (ast : Ast) (targetId : String) (newIndex : Int) : MutResult :=
  match ast.root with
  | none => ⟨false, ast, notFoundMsg targetId⟩
  | some r =>
    match findPath targetId r with
    | none => ⟨false, ast, notFoundMsg targetId⟩
    | some p =>
      match splitLast p with
      | none => ⟨false, ast, "Cannot move element: no siblings found"⟩
      | some (pp, i) =>
        match (getAt r pp).bind JSXNode.childList with
        | none => ⟨false, ast, "Cannot move element: no siblings found"⟩
        | some cs =>
          let elements := cs.filter (fun c => !isWhitespaceNode c)
          if newIndex < 0 || newIndex ≥ (elements.length : Int) then
            ⟨false, ast,
              "Invalid index: " ++ toString newIndex ++
                ". Must be between 0 and " ++
                toString ((elements.length : Int) - 1)⟩
          else
            match cs.get? i with
            | none => ⟨false, ast, "Cannot move element: no siblings found"⟩
            | some target =>
              let cs₁ := listRemoveAt cs i 1
              let insertIndex :=
                match nthNonWsPos cs newIndex.toNat with
                | some j =>
                  if j = i then cs₁.length
                  else if i < j then j - 1
                  else j
                | none => cs₁.length
              ⟨true,
                ⟨some (modifyAt r pp (fun n =>
                  n.withChildren (listInsertAt cs₁ insertIndex [target])))⟩,
                "Element \"" ++ targetId ++ "\" moved to index " ++
                  toString newIndex⟩

/-- Overwrites the node in the slot at a full node path. -/
def setSlot (r : JSXNode) (slot : List Nat) (x : JSXNode) : JSXNode :=
  modifyAt r slot (fun _ => x)

/-- Removal step of `moveInto`: splices the source (plus one preceding
whitespace sibling) out of its parent, or leaves the tree alone when the
source is the component root (its Babel parent has no `children`).
Also returns the first removed index and the removal count for path
adjustment. -/
def moveIntoRemove (r : JSXNode) (ps : List Nat) : JSXNode × Option (List Nat × Nat × Nat) :=
  match splitLast ps with
  | none => (r, none)
  | some (pp, i) =>
    match (getAt r pp).bind JSXNode.childList with
    | none => (r, none)
    | some cs =>
      let startCnt : Nat × Nat :=
        match i with
        | 0 => (0, 1)
        | j + 1 =>
          if isWhitespaceNode ((cs.get? j).getD (.fragment .nil)) then (j, 2)
          else (j + 1, 1)
      (modifyAt r pp (fun n =>
        n.withChildren (listRemoveAt cs startCnt.1 startCnt.2)),
        some (pp, startCnt.1, startCnt.2))

/-- Adjusts a node path for a removal of `cnt` entries at `start` inside
the children of the node at `pp`; paths through removed slots cannot
occur for the inputs `moveInto` feeds it (the destination is not a
descendant of the source). -/
def adjustPathAfterRemove (pd pp : List Nat) (start cnt : Nat) : List Nat :=
  if pp.isPrefixOf pd ∧ pd ≠ pp then
    match pd.drop pp.length with
    | j :: tail => pp ++ (if start + cnt ≤ j then j - cnt else j) :: tail
    | [] => pd
  else pd

/-- Translation of `moveInto` (operations/move.js).  The
destination-is-descendant-of-source containment check runs before any
splice.  On the success path the JavaScript code operates on live object
references; the embedding reproduces the visible tree: when source and
destination are the same node, or the destination sits inside the
removed source subtree, the pushes land in a detached object and the
visible tree is just the tree after removal. -/
def moveInto (ast : Ast) (sourceId destinationId : String) : MutResult :=
  match ast.root with
  | none =>
    ⟨false, ast,
      "Source element with data-editable=\"" ++ sourceId ++ "\" not found"⟩
  | some r =>
    match findPath sourceId r with
    | none =>
      ⟨false, ast,
        "Source element with data-editable=\"" ++ sourceId ++ "\" not found"⟩
    | some ps =>
      match findPath destinationId r with
      | none =>
        ⟨false, ast,
          "Destination element with data-editable=\"" ++ destinationId ++
            "\" not found"⟩
      | some pd =>
        match getAt r ps, getAt r pd with
        | some sourceNode, some _ =>
          if isDescendant sourceNode ((getAt r pd).getD (.fragment .nil)) then
            ⟨false, ast, "Cannot move element into its own descendant"⟩
          else
            let rm := moveIntoRemove r ps
            let okMsg :=
              "Element \"" ++ sourceId ++ "\" moved into \"" ++
                destinationId ++ "\""
            if ps = pd ∨ (ps.isPrefixOf pd ∧ ps ≠ pd) then
              ⟨true, ⟨some rm.1⟩, okMsg⟩
            else
              let pd' :=
                match rm.2 with
                | some (pp, start, cnt) => adjustPathAfterRemove pd pp start cnt
                | none => pd
              let r' := modifyAt rm.1 pd' (fun n =>
                match n with
                | .element t as _ cl cs =>
                  .element t as false (some (cl.getD t))
                    (JSXNodes.ofList (cs.toList ++
                      [.text "\n        ", sourceNode, .text "\n      "]))
                | other => other)
              ⟨true, ⟨some r'⟩, okMsg⟩
        | _, _ =>
          ⟨false, ast,
            "Source element with data-editable=\"" ++ sourceId ++
              "\" not found"⟩

/-- Translation of `swap` (operations/move.js).  Slot writes on live
object references are reproduced positionally; a write whose slot sits
inside the other, already-detached subtree is invisible in the remaining
tree and is dropped. -/
def swap (ast : Ast) (id1 id2 : String) : MutResult :=
  match ast.root with
  | none =>
    ⟨false, ast, "Element with data-editable=\"" ++ id1 ++ "\" not found"⟩
  | some r =>
    match findPath id1 r with
    | none =>
      ⟨false, ast, "Element with data-editable=\"" ++ id1 ++ "\" not found"⟩
    | some p1 =>
      match findPath id2 r with
      | none =>
        ⟨false, ast, "Element with data-editable=\"" ++ id2 ++ "\" not found"⟩
      | some p2 =>
        match splitLast p1, splitLast p2 with
        | some (pp1, i1), some (pp2, i2) =>
          match getAt r p1, getAt r p2 with
          | some e1, some e2 =>
            if pp1 = pp2 then
              match (getAt r pp1).bind JSXNode.childList with
              | none => ⟨false, ast, "Cannot swap: elements must have valid parents"⟩
              | some cs =>
                ⟨true,
                  ⟨some (modifyAt r pp1 (fun n =>
                    n.withChildren (listSetAt (listSetAt cs i1 e2) i2 e1)))⟩,
                  "Elements \"" ++ id1 ++ "\" and \"" ++ id2 ++ "\" swapped"⟩
            else
              let r' :=
                if p1.isPrefixOf p2 then setSlot r p1 e2
                else if p2.isPrefixOf p1 then setSlot r p2 e1
                else setSlot (setSlot r p1 e2) p2 e1
              ⟨true, ⟨some r'⟩,
                "Elements \"" ++ id1 ++ "\" and \"" ++ id2 ++ "\" swapped"⟩
          | _, _ => ⟨false, ast, "Cannot swap: elements must have valid parents"⟩
        | _, _ => ⟨false, ast, "Cannot swap: elements must have valid parents"⟩

/-- Sets key `k` to `v` in a JavaScript-object-like association list:
an existing binding is overwritten in place, a new key is appended. -/
def objInsert : List (String × α) → String → α → List (String × α)
  | [], k, v => [(k, v)]
  | (k', v') :: rest, k, v =>
    if k' = k then (k', v) :: rest else (k', v') :: objInsert rest k v

/-- Reads the value of an object property the way `getElementStyles`
does (`prop.value.value || prop.value.name`): a non-empty string literal
gives its text, an empty string literal is falsy and falls through to
the undefined `.name`; an identifier has no `.value` and gives its name. -/
def objValStr : ObjVal → Option String
  | .str s => if s = "" then none else some s
  | .identName n => some n

/-- Translation of `getElementStyles` (operations/style.js): reads the
`style` attribute when it is an expression container wrapping an object
expression; anything else gives the empty map.  Values are `none` when
the JavaScript read produced `undefined`. -/
def getElementStyles (target : JSXNode) : List (String × Option String) :=
  match target with
  | .element _ attrs _ _ _ =>
    match attrs.find? (fun a => a.name = "style") with
    | none => []
    | some a =>
      match a.value with
      | some (.expr (.objectExpr props)) =>
        props.foldl (fun m kv => objInsert m kv.1 (objValStr kv.2)) []
      | _ => []
  | _ => []

/-- Result of the style operations that report the merged style map. -/
structure StyleResult where
  success : Bool
  ast : Ast
  styles : List (String × String)
  message : String
  deriving DecidableEq, Repr

/-- Translation of `updateStyles` (operations/style.js): merges the
payload over the current styles with JavaScript object-spread semantics,
deletes keys whose merged value is `null`/`undefined`/empty, and
replaces (or appends) the `style` attribute with the rebuilt object
expression. -/
def updateStyles (ast : Ast) (targetId : String)
    (newStyles : List (String × Option String)) : StyleResult :=
  match ast.root with
  | none => ⟨false, ast, [], notFoundMsg targetId⟩
  | some r =>
    match findPath targetId r with
    | none => ⟨false, ast, [], notFoundMsg targetId⟩
    | some p =>
      match getAt r p with
      | none => ⟨false, ast, [], notFoundMsg targetId⟩
      | some target =>
        match target with
        | .element t attrs sc cl cs =>
          let current := getElementStyles target
          let merged₀ :=
            newStyles.foldl (fun m kv => objInsert m kv.1 kv.2) current
          let merged := merged₀.filterMap (fun kv =>
            match kv.2 with
            | some s => if s = "" then none else some (kv.1, s)
            | none => none)
          let newStyleAttr : JSXAttribute :=
            ⟨"style", some (.expr (.objectExpr
              (merged.map (fun kv => (kv.1, ObjVal.str kv.2)))))⟩
          let attrs' :=
            match attrs.findIdx? (fun a => a.name = "style") with
            | some i => listSetAt attrs i newStyleAttr
            | none => attrs ++ [newStyleAttr]
          ⟨true,
            ⟨some (modifyAt r p (fun _ => .element t attrs' sc cl cs))⟩,
            merged, "Styles updated on \"" ++ targetId ++ "\""⟩
        | _ => ⟨false, ast, [], notFoundMsg targetId⟩

/-- A spacing payload entry: a bare number or a string. -/
inductive SpacingVal where
  | num (n : Int)
  | str (s : String)
  deriving DecidableEq, Repr

/-- String interpolation of a spacing value (JavaScript template
literal): numbers print in decimal, strings pass through. -/
def spacingValText : SpacingVal → String
  | .num n => toString n
  | .str s => s

/-- The recognized spacing keys, in the order `setSpacing` scans them. -/
def spacingProps : List String :=
  ["marginTop", "marginBottom", "marginLeft", "marginRight", "margin",
   "paddingTop", "paddingBottom", "paddingLeft", "paddingRight", "padding"]

/-- Translation of the shorthand-normalization loop of `setSpacing`:
for each recognized key present in the payload, a bare number `n`
becomes the string `"npx"` and a string passes through unchanged. -/
def normalizeSpacing (spacing : List (String × SpacingVal)) :
    List (String × Option String) :=
  spacingProps.filterMap (fun prop =>
    (spacing.find? (fun kv => kv.1 = prop)).map (fun kv =>
      (prop,
        some (match kv.2 with
          | .num n => toString n ++ "px"
          | .str s => s))))

/-- Translation of `setSpacing` (operations/style.js): normalizes the
shorthand payload and delegates to `updateStyles`. -/
def setSpacing (ast : Ast) (targetId : String)
    (spacing : List (String × SpacingVal)) : StyleResult :=
  updateStyles ast targetId (normalizeSpacing spacing)

/-- Argument shape of `setMargin`/`setPadding`: a single number/string,
or a `{top, bottom, left, right}` record. -/
inductive SideArg where
  | single (v : SpacingVal)
  | sides (top bottom left right : Option SpacingVal)
  deriving DecidableEq, Repr

/-- Translation of `setMargin` (operations/style.js).  Note that the
per-side branch interpolates every defined side into `"...px"`, strings
included. -/
def setMargin (ast : Ast) (targetId : String) (margin : SideArg) : StyleResult :=
  match margin with
  | .single (.num n) =>
    updateStyles ast targetId [("margin", some (toString n ++ "px"))]
  | .single (.str s) => updateStyles ast targetId [("margin", some s)]
  | .sides t b l rr =>
    let styles :=
      (t.map (fun v => [("marginTop", some (spacingValText v ++ "px"))])).getD [] ++
      (b.map (fun v => [("marginBottom", some (spacingValText v ++ "px"))])).getD [] ++
      (l.map (fun v => [("marginLeft", some (spacingValText v ++ "px"))])).getD [] ++
      (rr.map (fun v => [("marginRight", some (spacingValText v ++ "px"))])).getD []
    updateStyles ast targetId styles

/-- Translation of `setPadding` (operations/style.js). -/
def setPadding (ast : Ast) (targetId : String) (padding : SideArg) : StyleResult :=
  match padding with
  | .single (.num n) =>
    updateStyles ast targetId [("padding", some (toString n ++ "px"))]
  | .single (.str s) => updateStyles ast targetId [("padding", some s)]
  | .sides t b l rr =>
    let styles :=
      (t.map (fun v => [("paddingTop", some (spacingValText v ++ "px"))])).getD [] ++
      (b.map (fun v => [("paddingBottom", some (spacingValText v ++ "px"))])).getD [] ++
      (l.map (fun v => [("paddingLeft", some (spacingValText v ++ "px"))])).getD [] ++
      (rr.map (fun v => [("paddingRight", some (spacingValText v ++ "px"))])).getD []
    updateStyles ast targetId styles

/-- Translation of `clearStyles` (operations/style.js): removes the
first `style` attribute when present. -/
def clearStyles (ast : Ast) (targetId : String) : MutResult :=
  match ast.root with
  | none => ⟨false, ast, notFoundMsg targetId⟩
  | some r =>
    match findPath targetId r with
    | none => ⟨false, ast, notFoundMsg targetId⟩
    | some p =>
      match getAt r p with
      | some (.element t attrs sc cl cs) =>
        let attrs' :=
          match attrs.findIdx? (fun a => a.name = "style") with
          | some i => listRemoveAt attrs i 1
          | none => attrs
        ⟨true, ⟨some (modifyAt r p (fun _ => .element t attrs' sc cl cs))⟩,
          "Styles cleared from \"" ++ targetId ++ "\""⟩
      | _ => ⟨false, ast, notFoundMsg targetId⟩

/-- Result of `getStyles`. -/
structure GetStylesResult where
  success : Bool
  styles : List (String × Option String)
  message : String
  deriving DecidableEq, Repr

/-- Translation of `getStyles` (operations/style.js): read-only. -/
def getStyles (ast : Ast) (targetId : String) : GetStylesResult :=
  match ast.root with
  | none => ⟨false, [], notFoundMsg targetId⟩
  | some r =>
    match findPath targetId r with
    | none => ⟨false, [], notFoundMsg targetId⟩
    | some p =>
      match getAt r p with
      | some target => ⟨true, getElementStyles target, "Styles retrieved"⟩
      | none => ⟨false, [], notFoundMsg targetId⟩

/-- Identifier-start characters of the modelled markup grammar. -/
def isIdentStart (c : Char) : Bool := c.isAlpha || c = '_'

/-- Identifier-continuation characters; JSX attribute names such as
`data-editable` contain hyphens. -/
def isIdentChar (c : Char) : Bool := c.isAlphanum || c = '_' || c = '-'

/-- Lexes one identifier with maximal munch. -/
def lexIdent : List Char → Option (String × List Char)
  | [] => none
  | c :: cs =>
    if isIdentStart c then
      some (String.mk (c :: cs.takeWhile isIdentChar), cs.dropWhile isIdentChar)
    else none

/-- Skips whitespace inside a tag. -/
def skipWs (input : List Char) : List Char := input.dropWhile isJsWs

/-- Lexes a quoted string after the opening quote `q` has been consumed;
no escape sequences (the engine never emits them for the modelled
sources). -/
def lexQuoted (q : Char) (input : List Char) : Option (String × List Char) :=
  match input.dropWhile (fun c => c ≠ q) with
  | c :: rest =>
    if c = q then some (String.mk (input.takeWhile (fun ch => ch ≠ q)), rest)
    else none
  | [] => none

/-- Decimal digit character for `n < 10`. -/
def digitChar (n : Nat) : Char := Char.ofNat (48 + n)

/-- Decimal digits of `n`, most significant first, computed with
structural fuel so that concrete evaluation reduces in the kernel. -/
def natCharsAux : Nat → Nat → List Char
  | 0, _ => []
  | fuel + 1, n =>
    if n < 10 then [digitChar n]
    else natCharsAux fuel (n / 10) ++ [digitChar (n % 10)]

/-- Decimal representation of a natural number. -/
def natChars (n : Nat) : List Char := natCharsAux (n + 1) n

/-- Numeric value of a digit run (the parsing side of `natChars`). -/
def charsVal (ds : List Char) : Nat :=
  ds.foldl (fun a c => 10 * a + (c.toNat - 48)) 0

/-- Lexes a nonempty digit run into a numeric literal. -/
def lexNat (input : List Char) : Option (Nat × List Char) :=
  match input.takeWhile Char.isDigit with
  | [] => none
  | ds => some (charsVal ds, input.dropWhile Char.isDigit)

/-- Member-chain continuation: after a base expression, consumes
`.ident` segments while they follow. -/
def parseMemberTail : Nat → Expr → List Char → Option (Expr × List Char)
  | 0, _, _ => none
  | fuel + 1, acc, input =>
    match input with
    | '.' :: r =>
      match lexIdent r with
      | some (name, r') => parseMemberTail fuel (.member acc name) r'
      | none => none
    | _ => some (acc, input)

/-- Parses one expression of the modelled slot grammar: single-quoted
string literal, decimal numeral, boolean keyword, or identifier/member
chain. -/
def parseExpr (fuel : Nat) (input : List Char) : Option (Expr × List Char) :=
  match input with
  | [] => none
  | c :: rest =>
    if c = chSq then
      (lexQuoted chSq rest).map (fun pr => (.stringLit pr.1, pr.2))
    else if c.isDigit then
      (lexNat input).map (fun pr => (.numLit pr.1, pr.2))
    else
      match lexIdent input with
      | some (name, r) =>
        if name = "true" then some (.boolLit true, r)
        else if name = "false" then some (.boolLit false, r)
        else parseMemberTail fuel (.ident name) r
      | none => none

/-- Parses one attribute value: `"text"` or `{expr}`. -/
def parseAttrValue (fuel : Nat) (input : List Char) :
    Option (AttrValue × List Char) :=
  match input with
  | c :: rest =>
    if c = chDq then
      (lexQuoted chDq rest).map (fun pr => (.str pr.1, pr.2))
    else if c = braceL then
      match parseExpr fuel rest with
      | some (e, r) =>
        match r with
        | c' :: r' => if c' = braceR then some (.expr e, r') else none
        | [] => none
      | none => none
    else none
  | [] => none

mutual
/-- Parses one node of the modelled markup grammar: an element or
fragment (after `<`), an expression slot (after a left brace), or a
maximal nonempty text run. -/
def parseNode : Nat → List Char → Option (JSXNode × List Char)
  | 0, _ => none
  | fuel + 1, input =>
    match input with
    | [] => none
    | c :: rest =>
      if c = '<' then parseTag fuel rest
      else if c = braceL then
        match parseExpr fuel rest with
        | some (e, r) =>
          match r with
          | c' :: r' =>
            if c' = braceR then some (.exprContainer e, r') else none
          | [] => none
        | none => none
      else
        some (.text (String.mk
            (input.takeWhile (fun ch => ch ≠ '<' && ch ≠ braceL))),
          input.dropWhile (fun ch => ch ≠ '<' && ch ≠ braceL))
/-- Parses the remainder of a tag after the opening `<`: a fragment
`<>…</>` or an element with attributes, either self-closing or with
children and a matching closing tag. -/
def parseTag : Nat → List Char → Option (JSXNode × List Char)
  | 0, _ => none
  | fuel + 1, input =>
    match input with
    | '>' :: rest =>
      match parseChildren fuel rest with
      | some (cs, r) =>
        match r with
        | '<' :: '/' :: '>' :: r' => some (.fragment (JSXNodes.ofList cs), r')
        | _ => none
      | none => none
    | _ =>
      match lexIdent input with
      | none => none
      | some (name, r1) =>
        match parseAttrs fuel r1 with
        | none => none
        | some (attrs, r2) =>
          match r2 with
          | '/' :: '>' :: r3 => some (.element name attrs true none .nil, r3)
          | '>' :: r3 =>
            match parseChildren fuel r3 with
            | none => none
            | some (cs, r4) =>
              match r4 with
              | '<' :: '/' :: r5 =>
                match lexIdent r5 with
                | some (cname, r6) =>
                  match r6 with
                  | '>' :: r7 =>
                    if cname = name then
                      some (.element name attrs false (some cname)
                        (JSXNodes.ofList cs), r7)
                    else none
                  | _ => none
                | none => none
              | _ => none
          | _ => none
/-- Parses a run of children, stopping (without consuming) at a
closing-tag opener `</`. -/
def parseChildren : Nat → List Char → Option (List JSXNode × List Char)
  | 0, _ => none
  | fuel + 1, input =>
    match input with
    | [] => none
    | '<' :: '/' :: _ => some ([], input)
    | _ =>
      match parseNode fuel input with
      | none => none
      | some (n, r) =>
        match parseChildren fuel r with
        | some (ns, r') => some (n :: ns, r')
        | none => none
/-- Parses a whitespace-separated attribute list, stopping at `/` or
`>`. -/
def parseAttrs : Nat → List Char → Option (List JSXAttribute × List Char)
  | 0, _ => none
  | fuel + 1, input =>
    match skipWs input with
    | [] => none
    | c :: rest =>
      if c = '/' || c = '>' then some ([], c :: rest)
      else
        match lexIdent (c :: rest) with
        | none => none
        | some (name, r1) =>
          match r1 with
          | '=' :: r2 =>
            match parseAttrValue fuel r2 with
            | some (v, r3) =>
              match parseAttrs fuel r3 with
              | some (attrs, r4) => some (⟨name, some v⟩ :: attrs, r4)
              | none => none
            | none => none
          | _ =>
            match parseAttrs fuel r1 with
            | some (attrs, r4) => some (⟨name, none⟩ :: attrs, r4)
            | none => none
end

/-- Markup parser modelled from the specification (§4.1): the source
delegates to the third-party Babel parser, which is not part of this
repository.  Accepts exactly one node spanning the whole input. -/
def parse (src : String) : Option JSXNode :=
  match parseNode (src.length + 1) src.data with
  | some (n, []) => some n
  | _ => none

/-- Decimal string of a natural number via `natChars`. -/
def natStr (n : Nat) : String := String.mk (natChars n)

/-- Serialization of an object-expression property value. -/
def genObjVal : ObjVal → String
  | .str s => String.mk [chSq] ++ s ++ String.mk [chSq]
  | .identName n => n

/-- Serialization of expressions: single-quoted strings, decimal
numerals, keywords, member chains, template literals and object
expressions (the last two never occur in parser output). -/
def genExpr : Expr → String
  | .stringLit s => String.mk [chSq] ++ s ++ String.mk [chSq]
  | .numLit n => natStr n
  | .boolLit b => if b then "true" else "false"
  | .ident n => n
  | .member obj prop => genExpr obj ++ "." ++ prop
  | .templateLit qs => String.mk [chBtick] ++ String.join qs ++ String.mk [chBtick]
  | .objectExpr props =>
    String.mk [braceL] ++
      String.intercalate ", "
        (props.map (fun kv => kv.1 ++ ": " ++ genObjVal kv.2)) ++
      String.mk [braceR]

/-- Serialization of one attribute, with its leading separator space. -/
def genAttr (a : JSXAttribute) : String :=
  " " ++ a.name ++
    (match a.value with
     | none => ""
     | some (.str s) => "=" ++ String.mk [chDq] ++ s ++ String.mk [chDq]
     | some (.expr e) =>
       "=" ++ String.mk [braceL] ++ genExpr e ++ String.mk [braceR])

mutual
/-- Code generator modelled from the specification (§4.5): deterministic
serialization of a tree; the source delegates to the third-party Babel
generator, which is not part of this repository. -/
def genNode : JSXNode → String
  | .text s => s
  | .exprContainer e => String.mk [braceL] ++ genExpr e ++ String.mk [braceR]
  | .fragment cs => "<>" ++ genList cs ++ "</>"
  | .element t attrs sc cl cs =>
    if sc then "<" ++ t ++ String.join (attrs.map genAttr) ++ "/>"
    else
      "<" ++ t ++ String.join (attrs.map genAttr) ++ ">" ++ genList cs ++
        "</" ++ cl.getD t ++ ">"
/-- Serialization of a children spine. -/
def genList : JSXNodes → String
  | .nil => ""
  | .cons c cs => genNode c ++ genList cs
end

/-- Code generation at the tree level (`generateCode`); a tree whose
root has been removed prints nothing. -/
def generateCode (ast : Ast) : String :=
  match ast.root with
  | some r => genNode r
  | none => ""

/-- Translation of `parseJSX` (utils/templates.js): wraps the snippet in
an implicit fragment, parses, and extracts the fragment's first child —
`fragment.children[0]`, which is `undefined` (here `none`) for an empty
snippet and silently ignores any further roots. -/
def parseJSX (jsx : String) : Option JSXNode :=
  match parse ("<>" ++ jsx ++ "</>") with
  | some (.fragment cs) => cs.toList.head?
  | _ => none

/-- The options record passed to the template resolver (a JavaScript
object whose absent fields are `undefined`).  The source field
`editablePrefix` is named `editablePfx` here. -/
structure TemplateOptions where
  text : Option String
  title : Option String
  subtitle : Option String
  href : Option String
  src : Option String
  editableId : Option String
  editablePfx : Option String
  className : Option String
  position : Option String
  componentName : Option String
  deriving DecidableEq, Repr

/-- The all-absent options record. -/
def noOptions : TemplateOptions :=
  ⟨none, none, none, none, none, none, none, none, none, none⟩

/-- JavaScript truthiness of an optional string (`undefined` and the
empty string are falsy). -/
def jsTruthy : Option String → Bool
  | some s => s ≠ ""
  | none => false

/-- JavaScript `a || b` on optional strings. -/
def jsOr (a b : Option String) : Option String :=
  if jsTruthy a then a else b

/-- Translation of `createElement` (utils/templates.js) for the
property shapes the templates use (string-valued properties only; the
boolean and expression branches are not exercised by them). -/
def createElement (tagName : String) (props : List (String × String))
    (children : List (String ⊕ JSXNode)) : JSXNode :=
  let attrs : List JSXAttribute :=
    props.map (fun kv => ⟨kv.1, some (.str kv.2)⟩)
  let jsxChildren : List JSXNode := children.map (fun c =>
    match c with
    | .inl s => .text s
    | .inr n => n)
  .element tagName attrs jsxChildren.isEmpty
    (if jsxChildren.isEmpty then none else some tagName)
    (JSXNodes.ofList jsxChildren)

/-- The markup string interpolated by the `heroSection` template, after
`.trim()`. -/
def heroMarkup (title sub pfx : String) : String :=
  "<section className=\"hero\" data-editable=\"" ++ pfx ++ "Section\">" ++
    "\n        <h1 data-editable=\"" ++ pfx ++ "Title\">" ++ title ++
    "</h1>\n        <p data-editable=\"" ++ pfx ++ "Subtitle\">" ++ sub ++
    "</p>\n        <button data-editable=\"" ++ pfx ++
    "CTA\">Get Started</button>\n      </section>"

/-- The markup string interpolated by the `card` template, after
`.trim()`. -/
def cardMarkup (title desc pfx : String) : String :=
  "<div className=\"card\" data-editable=\"" ++ pfx ++ "\">" ++
    "\n        <h3 data-editable=\"" ++ pfx ++ "Title\">" ++ title ++
    "</h3>\n        <p data-editable=\"" ++ pfx ++ "Description\">" ++ desc ++
    "</p>\n      </div>"

/-- The markup string interpolated by the `featureItem` template, after
`.trim()`. -/
def featureMarkup (title desc pfx : String) : String :=
  "<div className=\"feature-item\" data-editable=\"" ++ pfx ++ "\">" ++
    "\n        <h4 data-editable=\"" ++ pfx ++ "Title\">" ++ title ++
    "</h4>\n        <p data-editable=\"" ++ pfx ++ "Description\">" ++ desc ++
    "</p>\n      </div>"

/-- The `TEMPLATES` table applied to the four positional arguments that
`getTemplate` wires from the options record.  Each arm follows its
template function, including the positional quirks (for example
`paragraph` reads its editable id from the second slot) and the `h${level}`
interpolation of `heading`.  A `div`/`section` call with a string in the
children slot throws in JavaScript (`String.prototype.map` is not a
function); a hero/card/feature interpolation that does not parse throws
inside `parseJSX`; both surface as `none`, the thrown-error outcome. -/
def applyTemplate (name : String) (a1 a2 a3 _a4 : Option String) :
    Option JSXNode :=
  match name with
  | "heading" =>
    let tag := "h" ++ a1.getD "1"
    let txt := a2.getD "Heading"
    let props := if jsTruthy a3 then [("data-editable", a3.getD "")] else []
    some (createElement tag props [.inl txt])
  | "paragraph" =>
    let txt := a1.getD "Paragraph text"
    let props := if jsTruthy a2 then [("data-editable", a2.getD "")] else []
    some (createElement "p" props [.inl txt])
  | "span" =>
    let txt := a1.getD "Span text"
    let props := if jsTruthy a2 then [("data-editable", a2.getD "")] else []
    some (createElement "span" props [.inl txt])
  | "button" =>
    let txt := a1.getD "Click me"
    let props :=
      (if jsTruthy a2 then [("data-editable", a2.getD "")] else []) ++
      (if jsTruthy a3 then [("className", a3.getD "")] else [])
    some (createElement "button" props [.inl txt])
  | "link" =>
    let txt := a1.getD "Link text"
    let props :=
      [("href", a2.getD "#")] ++
      (if jsTruthy a3 then [("data-editable", a3.getD "")] else [])
    some (createElement "a" props [.inl txt])
  | "image" =>
    let props :=
      [("src", a1.getD "/placeholder.jpg"), ("alt", a2.getD "Image")] ++
      (if jsTruthy a3 then [("data-editable", a3.getD "")] else [])
    some (createElement "img" props [])
  | "div" =>
    match a3 with
    | some _ => none
    | none =>
      let props :=
        (if jsTruthy a1 then [("className", a1.getD "")] else []) ++
        (if jsTruthy a2 then [("data-editable", a2.getD "")] else [])
      some (createElement "div" props [])
  | "section" =>
    match a3 with
    | some _ => none
    | none =>
      let props :=
        (if jsTruthy a1 then [("className", a1.getD "")] else []) ++
        (if jsTruthy a2 then [("data-editable", a2.getD "")] else [])
      some (createElement "section" props [])
  | "heroSection" =>
    parseJSX (heroMarkup (a1.getD "Hero Title") (a2.getD "Hero subtitle")
      (a3.getD "hero"))
  | "card" =>
    parseJSX (cardMarkup (a1.getD "Card Title") (a2.getD "Card description")
      (a3.getD "card"))
  | "featureItem" =>
    parseJSX (featureMarkup (a1.getD "Feature") (a2.getD "Feature description")
      (a3.getD "feature"))
  | _ => none

/-- Translation of `getTemplate` (utils/templates.js): looks up the
template and calls it with the positional argument wiring
`(text || title, subtitle || href || src, editableId || editablePrefix,
className)`; `none` models the thrown `Unknown template` error. -/
def getTemplate (templateName : String) (options : TemplateOptions) :
    Option JSXNode :=
  applyTemplate templateName
    (jsOr options.text options.title)
    (jsOr (jsOr options.subtitle options.href) options.src)
    (jsOr options.editableId options.editablePfx)
    options.className

/-- The element argument of the insert operations: an already-built node
or a string. -/
inductive ElementSpec where
  | node (n : JSXNode)
  | str (s : String)
  deriving DecidableEq, Repr

/-- Translation of `resolveElement` (operations/insert.js): a node
passes through; a string is tried as a template name, and on a thrown
template error as raw markup via `parseJSX`; `none` models the `null`
fallthrough that the insert operations report as an invalid element. -/
def resolveElement (element : ElementSpec) (options : TemplateOptions) :
    Option JSXNode :=
  match element with
  | .node n => some n
  | .str s =>
    match getTemplate s options with
    | some n => some n
    | none => parseJSX s

/-- Translation of `insertAfter` (operations/insert.js): locate, resolve,
then splice a formatting text node and the new element after the target
in its parent's children. -/
def insertAfter (ast : Ast) (targetId : String) (newElement : ElementSpec)
    (options : TemplateOptions) : MutResult :=
  match ast.root with
  | none => ⟨false, ast, notFoundMsg targetId⟩
  | some r =>
    match findPath targetId r with
    | none => ⟨false, ast, notFoundMsg targetId⟩
    | some p =>
      match resolveElement newElement options with
      | none => ⟨false, ast, "Invalid element to insert"⟩
      | some elem =>
        match splitLast p with
        | none => ⟨false, ast, "Could not find insertion point"⟩
        | some (pp, i) =>
          match (getAt r pp).bind JSXNode.childList with
          | none => ⟨false, ast, "Could not find insertion point"⟩
          | some cs =>
            ⟨true,
              ⟨some (modifyAt r pp (fun n => n.withChildren
                (listInsertAt cs (i + 1) [.text "\n      ", elem])))⟩,
              "Element inserted after \"" ++ targetId ++ "\""⟩

/-- Translation of `insertBefore` (operations/insert.js). -/
def insertBefore (ast : Ast) (targetId : String) (newElement : ElementSpec)
    (options : TemplateOptions) : MutResult :=
  match ast.root with
  | none => ⟨false, ast, notFoundMsg targetId⟩
  | some r =>
    match findPath targetId r with
    | none => ⟨false, ast, notFoundMsg targetId⟩
    | some p =>
      match resolveElement newElement options with
      | none => ⟨false, ast, "Invalid element to insert"⟩
      | some elem =>
        match splitLast p with
        | none => ⟨false, ast, "Could not find insertion point"⟩
        | some (pp, i) =>
          match (getAt r pp).bind JSXNode.childList with
          | none => ⟨false, ast, "Could not find insertion point"⟩
          | some cs =>
            ⟨true,
              ⟨some (modifyAt r pp (fun n => n.withChildren
                (listInsertAt cs i [elem, .text "\n      "])))⟩,
              "Element inserted before \"" ++ targetId ++ "\""⟩

/-- Translation of `insertAsFirstChild` (operations/insert.js): unshifts
a formatting text node and the new element, forcing open/close form. -/
def insertAsFirstChild (ast : Ast) (targetId : String)
    (newElement : ElementSpec) (options : TemplateOptions) : MutResult :=
  match ast.root with
  | none => ⟨false, ast, notFoundMsg targetId⟩
  | some r =>
    match findPath targetId r with
    | none => ⟨false, ast, notFoundMsg targetId⟩
    | some p =>
      match resolveElement newElement options with
      | none => ⟨false, ast, "Invalid element to insert"⟩
      | some elem =>
        let r' := modifyAt r p (fun n =>
          match n with
          | .element t as _ cl cs =>
            .element t as false (some (cl.getD t))
              (.cons (.text "\n        ") (.cons elem cs))
          | other => other)
        ⟨true, ⟨some r'⟩,
          "Element inserted as first child of \"" ++ targetId ++ "\""⟩

/-- Translation of `insertAsLastChild` (operations/insert.js). -/
def insertAsLastChild (ast : Ast) (targetId : String)
    (newElement : ElementSpec) (options : TemplateOptions) : MutResult :=
  match ast.root with
  | none => ⟨false, ast, notFoundMsg targetId⟩
  | some r =>
    match findPath targetId r with
    | none => ⟨false, ast, notFoundMsg targetId⟩
    | some p =>
      match resolveElement newElement options with
      | none => ⟨false, ast, "Invalid element to insert"⟩
      | some elem =>
        let r' := modifyAt r p (fun n =>
          match n with
          | .element t as _ cl cs =>
            .element t as false (some (cl.getD t))
              (JSXNodes.ofList (cs.toList ++
                [.text "\n        ", elem, .text "\n      "]))
          | other => other)
        ⟨true, ⟨some r'⟩,
          "Element inserted as last child of \"" ++ targetId ++ "\""⟩

/-- Translation of `insertAtRoot` (operations/insert.js).  The embedded
`Ast` keeps the single component's returned tree as its root, so
`findComponentReturn` resolves to it; a missing root models a file with
no component return. -/
def insertAtRoot (ast : Ast) (newElement : ElementSpec)
    (options : TemplateOptions) : MutResult :=
  match ast.root with
  | none => ⟨false, ast, "Could not find component return statement"⟩
  | some r =>
    match resolveElement newElement options with
    | none => ⟨false, ast, "Invalid element to insert"⟩
    | some elem =>
      let posFirst := options.position = some "first"
      let r' :=
        match r with
        | .element t as sc cl cs =>
          if posFirst then
            .element t as sc cl (.cons (.text "\n      ") (.cons elem cs))
          else
            .element t as sc cl (JSXNodes.ofList
              (cs.toList ++ [.text "\n      ", elem, .text "\n    "]))
        | .fragment cs =>
          if posFirst then
            .fragment (.cons (.text "\n      ") (.cons elem cs))
          else
            .fragment (JSXNodes.ofList
              (cs.toList ++ [.text "\n      ", elem, .text "\n    "]))
        | other => other
      ⟨true, ⟨some r'⟩,
        "Element inserted at " ++ (options.position.getD "last") ++
          " of component root"⟩

/-- Splits a character run into maximal space-free tokens (accumulator
holds the current token reversed). -/
def tokensAux : List Char → List Char → List String
  | [], cur => if cur.isEmpty then [] else [String.mk cur.reverse]
  | c :: rest, cur =>
    if c = ' ' then
      if cur.isEmpty then tokensAux rest []
      else String.mk cur.reverse :: tokensAux rest []
    else tokensAux rest (c :: cur)

/-- The space-delimited tokens of a class string. -/
def classTokens (s : String) : List String := tokensAux s.data []

/-- Joins class tokens with single spaces. -/
def joinTokens : List String → String
  | [] => ""
  | [t] => t
  | t :: rest => t ++ " " ++ joinTokens rest

/-- The current `className` string of an element (absent or non-string
values read as empty). -/
def classNameOf (target : JSXNode) : String :=
  match target with
  | .element _ attrs _ _ _ =>
    match attrs.find? (fun a => a.name = "className") with
    | some a =>
      match a.value with
      | some (.str s) => s
      | _ => ""
    | none => ""
  | _ => ""

/-- Replaces the first `className` attribute's value, or appends a new
`className` attribute when none exists. -/
def setClassAttr : List JSXAttribute → String → List JSXAttribute
  | [], v => [⟨"className", some (.str v)⟩]
  | a :: rest, v =>
    if a.name = "className" then ⟨"className", some (.str v)⟩ :: rest
    else a :: setClassAttr rest v

/-- Writes a `className` string attribute back onto an element,
replacing the first existing `className` attribute or appending one. -/
def setClassName (target : JSXNode) (value : String) : JSXNode :=
  match target with
  | .element t attrs sc cl cs => .element t (setClassAttr attrs value) sc cl cs
  | other => other

/-- Modelled from the spec: `addClassName` is exported by the AST module
and routed from the server, but its implementation file is not among the
sources; per the specification, `addClassName`/`removeClassName`
"maintain a space-delimited token set on a `className`-equivalent
attribute, idempotent in both directions".  Adds the class token unless
already present and writes the tokens back space-delimited. -/
def addClassName (ast : Ast) (targetId className : String) : MutResult :=
  match ast.root with
  | none => ⟨false, ast, notFoundMsg targetId⟩
  | some r =>
    match findPath targetId r with
    | none => ⟨false, ast, notFoundMsg targetId⟩
    | some p =>
      match getAt r p with
      | none => ⟨false, ast, notFoundMsg targetId⟩
      | some target =>
        let tokens := classTokens (classNameOf target)
        let tokens' :=
          if className ∈ tokens then tokens else tokens ++ [className]
        ⟨true,
          ⟨some (modifyAt r p (fun n =>
            setClassName n (joinTokens tokens')))⟩,
          "Class \"" ++ className ++ "\" added to \"" ++ targetId ++ "\""⟩

/-- Modelled from the spec: `removeClassName` (see `addClassName`).
Filters the class token out of the space-delimited token set. -/
def removeClassName (ast : Ast) (targetId className : String) : MutResult :=
  match ast.root with
  | none => ⟨false, ast, notFoundMsg targetId⟩
  | some r =>
    match findPath targetId r with
    | none => ⟨false, ast, notFoundMsg targetId⟩
    | some p =>
      match getAt r p with
      | none => ⟨false, ast, notFoundMsg targetId⟩
      | some target =>
        let tokens := classTokens (classNameOf target)
        let tokens' := tokens.filter (fun t => t ≠ className)
        ⟨true,
          ⟨some (modifyAt r p (fun n =>
            setClassName n (joinTokens tokens')))⟩,
          "Class \"" ++ className ++ "\" removed from \"" ++ targetId ++ "\""⟩

/-- Valid identifier of the modelled grammar. -/
def validIdent (s : String) : Bool :=
  match s.data with
  | [] => false
  | c :: cs => isIdentStart c && cs.all isIdentChar

/-- Well-formed member-chain base: identifiers (not keywords) chained by
member accesses. -/
def wfMemberBase : Expr → Bool
  | .ident n => validIdent n && !(n = "true") && !(n = "false")
  | .member o p => wfMemberBase o && validIdent p
  | _ => false

/-- Expressions inside the image of the modelled parser: the quote
character cannot occur inside a single-quoted literal, identifiers are
valid non-keywords, and template/object literals never come from the
parser. -/
def wfExprB : Expr → Bool
  | .stringLit s => s.data.all (fun c => c ≠ chSq)
  | .numLit _ => true
  | .boolLit _ => true
  | .ident n => wfMemberBase (.ident n)
  | .member o p => wfMemberBase (.member o p)
  | .templateLit _ => false
  | .objectExpr _ => false

/-- Well-formed attribute: valid name; a string value cannot contain the
double quote; an expression value is well-formed. -/
def wfAttrB (a : JSXAttribute) : Bool :=
  validIdent a.name &&
    (match a.value with
     | none => true
     | some (.str s) => s.data.all (fun c => c ≠ chDq)
     | some (.expr e) => wfExprB e)

/-- Nonempty text free of the markup delimiters. -/
def textOkB (s : String) : Bool :=
  !s.data.isEmpty && s.data.all (fun c => c ≠ '<' && c ≠ braceL)

/-- Whether a node is a text node. -/
def isTextNode : JSXNode → Bool
  | .text _ => true
  | _ => false

/-- No two adjacent text children (adjacent text merges on reparse). -/
def noAdjTextB : JSXNodes → Bool
  | .nil => true
  | .cons _ .nil => true
  | .cons a (.cons b rest) =>
    !(isTextNode a && isTextNode b) && noAdjTextB (.cons b rest)

mutual
/-- Well-formed tree: the invariant satisfied by every tree the modelled
parser produces, and sufficient for the generator's output to reparse to
the same tree. -/
def wfNodeB : JSXNode → Bool
  | .text s => textOkB s
  | .exprContainer e => wfExprB e
  | .fragment cs => wfListB cs && noAdjTextB cs
  | .element t attrs sc cl cs =>
    validIdent t && attrs.all wfAttrB &&
      (if sc then decide (cl = none) && decide (cs = .nil)
       else decide (cl = some t)) &&
      wfListB cs && noAdjTextB cs
/-- Well-formedness of each node of a children spine. -/
def wfListB : JSXNodes → Bool
  | .nil => true
  | .cons c cs => wfNodeB c && wfListB cs
end

/-- Fuel needed by `parseExpr` (one unit per member-chain segment). -/
def exprFuel : Expr → Nat
  | .ident _ => 1
  | .member o _ => exprFuel o + 1
  | _ => 0

/-- Fuel needed by `parseAttrValue` for one attribute. -/
def attrFuel (a : JSXAttribute) : Nat :=
  1 + (match a.value with
       | some (.expr e) => exprFuel e
       | _ => 0)

/-- Fuel needed by `parseAttrs` for an attribute list. -/
def attrsFuel : List JSXAttribute → Nat
  | [] => 1
  | a :: as => attrFuel a + attrsFuel as

mutual
/-- Fuel needed by `parseNode` to parse the generated text of a node. -/
def nodeFuel : JSXNode → Nat
  | .text _ => 1
  | .exprContainer e => 1 + exprFuel e
  | .fragment cs => 2 + listFuel cs
  | .element _ attrs _ _ cs => 2 + attrsFuel attrs + listFuel cs
/-- Fuel needed by `parseChildren` for a children spine. -/
def listFuel : JSXNodes → Nat
  | .nil => 1
  | .cons c cs => nodeFuel c + listFuel cs
end

/-- The `data-editable` identity attribute with a string value. -/
def edAttr (id : String) : JSXAttribute := ⟨"data-editable", some (.str id)⟩

/-- Fixture for the C1 counterexample: a container with one editable
child. -/
def c1Tree : Ast :=
  ⟨some (.element "div" [] false (some "div")
    (.cons (.element "p" [edAttr "a"] false (some "p")
      (.cons (.text "A") .nil)) .nil))⟩

/-- Fixture for the C1 counterexample on `updateAttributes`: one element
whose identity attribute the payload removes mid-loop. -/
def c1AttrTree : Ast :=
  ⟨some (.element "div" [edAttr "x"] false (some "div") .nil)⟩

/-- Fixture for the C2 claim: the target's only child is an element, so
no text-bearing child exists. -/
def c2Tree : Ast :=
  ⟨some (.element "div" [edAttr "x"] false (some "div")
    (.cons (.element "span" [] true none .nil) .nil))⟩

/-- Fixture for C5: destination nested inside the source element. -/
def c5Tree : Ast :=
  ⟨some (.element "main" [] false (some "main")
    (.cons (.element "div" [edAttr "s"] false (some "div")
      (.cons (.element "span" [edAttr "d"] false (some "span") .nil) .nil))
      .nil))⟩

/-- Fixture for C7: two editable paragraphs with formatting whitespace
around them. -/
def c7Tree : Ast :=
  ⟨some (.element "section" [] false (some "section")
    (.cons (.text "\n  ")
      (.cons (.element "p" [edAttr "a"] false (some "p")
        (.cons (.text "A") .nil))
        (.cons (.text "\n  ")
          (.cons (.element "p" [edAttr "b"] false (some "p")
            (.cons (.text "B") .nil))
            (.cons (.text "\n") .nil))))))⟩

/-- Fixture for C8: an editable box without a style attribute. -/
def c8Tree : Ast :=
  ⟨some (.element "div" [edAttr "box"] false (some "div")
    (.cons (.text "body") .nil))⟩

/-- Fixture for C9: target first, a whitespace filler, then a sibling;
the target is not the last entry of the children array. -/
def c9Tree : Ast :=
  ⟨some (.element "section" [] false (some "section")
    (.cons (.element "p" [edAttr "a"] false (some "p") .nil)
      (.cons (.text "\n  ")
        (.cons (.element "p" [edAttr "b"] false (some "p") .nil) .nil))))⟩

/-- Fixture for C4: an editable element carrying one class token. -/
def c4Tree : Ast :=
  ⟨some (.element "div"
    [edAttr "x", ⟨"className", some (.str "base")⟩]
    false (some "div") .nil)⟩

/-- Fixture for C10: an empty tree, so that every removal fails and the
error order is observable. -/
def c10Tree : Ast := ⟨some (.element "div" [] false (some "div") .nil)⟩

/-- Whether the locator's match condition holds at a node: an element
whose `data-editable` attribute reads as the given id. -/
def matchesId (id : String) (n : JSXNode) : Bool :=
  match n with
  | .element _ attrs _ _ _ =>
    match editableAttr attrs with
    | some a => decide (attrStringValue a = some id)
    | none => false
  | _ => false

/-- The text-bearing-child condition exactly as the claim under study
words it: a text node, or an expression slot wrapping a string literal,
template literal, identifier or member expression. -/
def claimTextBearing : JSXNode → Bool
  | .text _ => true
  | .exprContainer (.stringLit _) => true
  | .exprContainer (.templateLit _) => true
  | .exprContainer (.ident _) => true
  | .exprContainer (.member _ _) => true
  | _ => false

/-- First-occurrence lookup in an association list (JavaScript property
read on the objects the style operations build). -/
def lookupA (m : List (String × α)) (k : String) : Option α :=
  (m.find? (fun kv => kv.1 = k)).map (fun kv => kv.2)

/-- Source text used to instantiate the round-trip claim. -/
def c6Src : String := "<div data-editable=\"t\">Hi<span id=\"s\"/></div>"

/-! Basic lemmas about the children-spine conversions and path access. -/

theorem JSXNodes.toList_ofList (l : List JSXNode) :
    (JSXNodes.ofList l).toList = l := by
  induction l with
  | nil => rfl
  | cons c cs ih => simp [JSXNodes.ofList, JSXNodes.toList, ih]

theorem JSXNodes.ofList_toList : ∀ (cs : JSXNodes),
    JSXNodes.ofList cs.toList = cs
  | .nil => rfl
  | .cons c cs => by
    simp [JSXNodes.toList, JSXNodes.ofList, JSXNodes.ofList_toList cs]

theorem removeElement_notFound (ast : Ast) (id : String) (pc : Bool)
    (h : ast.find id = none) :
    removeElement ast id pc = ⟨false, ast, none, notFoundMsg id⟩ := by
  unfold removeElement
  cases hr : ast.root with
  | none => rfl
  | some r =>
    unfold Ast.find at h
    rw [hr] at h
    simp only [] at h
    simp [h]

/-- The removal loop leaves an absent-everywhere id list untouched and
records each id's failure in iteration order. -/
theorem removeMultipleGo_allAbsent (ast : Ast) (l : List String)
    (cnt : Nat) (errs : List (String × String))
    (h : ∀ id ∈ l, ast.find id = none) :
    removeMultipleGo ast l cnt errs =
      (ast, cnt, errs ++ l.map (fun id => (id, notFoundMsg id))) := by
  induction l generalizing errs with
  | nil => simp [removeMultipleGo]
  | cons id rest ih =>
    have h1 : ast.find id = none := h id (by simp)
    have hre := removeElement_notFound ast id false h1
    simp only [removeMultipleGo, hre]
    rw [ih (errs ++ [(id, notFoundMsg id)])
      (fun i hi => h i (List.mem_cons_of_mem id hi))]
    simp

/-- Each error's id comes from the processed list, in order. -/
theorem removeMultipleGo_errors_sublist (l : List String) :
    ∀ (ast : Ast) (cnt : Nat) (errs : List (String × String)),
      ∃ tail, (removeMultipleGo ast l cnt errs).2.2 = errs ++ tail ∧
        List.Sublist (tail.map Prod.fst) l := by
  induction l with
  | nil => intro ast cnt errs; exact ⟨[], by simp [removeMultipleGo], by simp⟩
  | cons id rest ih =>
    intro ast cnt errs
    simp only [removeMultipleGo]
    by_cases hs : (removeElement ast id false).success = true
    · rw [if_pos hs]
      obtain ⟨tail, ht, hsub⟩ := ih (removeElement ast id false).ast (cnt + 1) errs
      exact ⟨tail, ht, hsub.cons id⟩
    · rw [if_neg hs]
      obtain ⟨tail, ht, hsub⟩ := ih (removeElement ast id false).ast cnt
        (errs ++ [(id, (removeElement ast id false).message)])
      refine ⟨(id, (removeElement ast id false).message) :: tail, ?_, ?_⟩
      · rw [ht]; simp
      · simpa using hsub.cons₂ id

/-- Claim C10: `removeMultiple` reverses the caller's `targetIds` array
in place (`finalTargetIds` is the array content after the call), and the
removals run in reverse order of the list as supplied: every reported
error stems from the reversed list in order, and when every id is absent
the error ids are exactly the reversed input and the tree is untouched. -/
theorem c10_removeMultiple_reverses (ast : Ast) (ids : List String) :
    (removeMultiple ast ids).finalTargetIds = ids.reverse ∧
    List.Sublist ((removeMultiple ast ids).errors.map Prod.fst) ids.reverse ∧
    ((∀ id ∈ ids, ast.find id = none) →
      (removeMultiple ast ids).errors.map Prod.fst = ids.reverse ∧
      (removeMultiple ast ids).ast = ast) := by
  refine ⟨?_, ?_, ?_⟩
  · simp [removeMultiple]
  · obtain ⟨tail, ht, hsub⟩ := removeMultipleGo_errors_sublist ids.reverse ast 0 []
    simp only [removeMultiple]
    rw [ht]
    simpa using hsub
  · intro h
    have h' : ∀ id ∈ ids.reverse, ast.find id = none := by
      intro id hid; exact h id (List.mem_reverse.mp hid)
    have hgo := removeMultipleGo_allAbsent ast ids.reverse 0 [] h'
    have hfun : (Prod.fst ∘ fun id : String => (id, notFoundMsg id)) =
        fun id => id := by
      funext x; rfl
    simp [removeMultiple, hgo, hfun]

/-- Witness for C10 at a concrete tree and id list. -/
theorem c10_witness :
    (removeMultiple c10Tree ["a", "b"]).finalTargetIds = ["b", "a"] ∧
    (removeMultiple c10Tree ["a", "b"]).errors.map Prod.fst = ["b", "a"] ∧
    (removeMultiple c10Tree ["a", "b"]).ast = c10Tree := by
  have h := c10_removeMultiple_reverses c10Tree ["a", "b"]
  have h3 := h.2.2 (by decide)
  exact ⟨h.1, h3.1, h3.2⟩

/-- Claim C5: `moveInto` rejects a destination that is a descendant of
the source, before any mutation: the result is failure with the
cycle-prevention message and the input tree unchanged. -/
theorem c5_moveInto_cycle_rejection (ast : Ast) (sId dId : String)
    (r : JSXNode) (ps pd : List Nat) (s d : JSXNode)
    (hr : ast.root = some r)
    (hs : findPath sId r = some ps) (hd : findPath dId r = some pd)
    (hsn : getAt r ps = some s) (hdn : getAt r pd = some d)
    (hdesc : isDescendant s d = true) :
    moveInto ast sId dId = ⟨false, ast, "Cannot move element into its own descendant"⟩ := by
  unfold moveInto
  simp [hr, hs, hd, hsn, hdn, hdesc]

/-- Witness for C5: the destination element is nested inside the source. -/
theorem c5_witness :
    moveInto c5Tree "s" "d" =
      ⟨false, c5Tree, "Cannot move element into its own descendant"⟩ :=
  c5_moveInto_cycle_rejection c5Tree "s" "d"
    (.element "main" [] false (some "main")
      (.cons (.element "div" [edAttr "s"] false (some "div")
        (.cons (.element "span" [edAttr "d"] false (some "span") .nil) .nil))
        .nil))
    [0] [0, 0]
    (.element "div" [edAttr "s"] false (some "div")
      (.cons (.element "span" [edAttr "d"] false (some "span") .nil) .nil))
    (.element "span" [edAttr "d"] false (some "span") .nil)
    (by decide) (by decide) (by decide) (by decide) (by decide) (by decide)

theorem firstNonWsOffset_none (l : List JSXNode)
    (h : ∀ c ∈ l, isWhitespaceNode c = true) : firstNonWsOffset l = none := by
  induction l with
  | nil => rfl
  | cons c rest ih =>
    have hc := h c (by simp)
    simp [firstNonWsOffset, hc, ih (fun x hx => h x (by simp [hx]))]

/-- Claim C7: `moveUp` on the first non-whitespace child fails with the
already-at-top message and leaves the tree unchanged, and symmetrically
`moveDown` on the last non-whitespace child fails with the
already-at-bottom message and leaves the tree unchanged. -/
theorem c7_move_boundary (ast : Ast) (id : String) (r : JSXNode)
    (p pp : List Nat) (i : Nat) (cs : List JSXNode)
    (hr : ast.root = some r) (hp : findPath id r = some p)
    (hsp : splitLast p = some (pp, i))
    (hcs : (getAt r pp).bind JSXNode.childList = some cs) :
    ((∀ c ∈ cs.take i, isWhitespaceNode c = true) →
      moveUp ast id = ⟨false, ast, "Element is already at the top"⟩) ∧
    ((∀ c ∈ cs.drop (i + 1), isWhitespaceNode c = true) →
      moveDown ast id = ⟨false, ast, "Element is already at the bottom"⟩) := by
  constructor
  · intro h
    have hnone : prevNonWsIdx cs i = none := by
      unfold prevNonWsIdx
      rw [firstNonWsOffset_none _ (fun c hc => h c (List.mem_reverse.mp hc))]
      rfl
    unfold moveUp
    simp [hr, hp, hsp, hcs, hnone]
  · intro h
    have hnone : nextNonWsIdx cs i = none := by
      unfold nextNonWsIdx
      rw [firstNonWsOffset_none _ h]
      rfl
    unfold moveDown
    simp [hr, hp, hsp, hcs, hnone]

/-- Witness for C7 on a concrete section with whitespace fillers. -/
theorem c7_witness :
    moveUp c7Tree "a" = ⟨false, c7Tree, "Element is already at the top"⟩ ∧
    moveDown c7Tree "b" = ⟨false, c7Tree, "Element is already at the bottom"⟩ := by
  constructor
  · exact (c7_move_boundary c7Tree "a"
      (.element "section" [] false (some "section")
        (.cons (.text "\n  ")
          (.cons (.element "p" [edAttr "a"] false (some "p")
            (.cons (.text "A") .nil))
            (.cons (.text "\n  ")
              (.cons (.element "p" [edAttr "b"] false (some "p")
                (.cons (.text "B") .nil))
                (.cons (.text "\n") .nil))))))
      [1] [] 1
      [.text "\n  ",
       .element "p" [edAttr "a"] false (some "p") (.cons (.text "A") .nil),
       .text "\n  ",
       .element "p" [edAttr "b"] false (some "p") (.cons (.text "B") .nil),
       .text "\n"]
      (by decide) (by decide) (by decide) (by decide)).1 (by decide)
  · exact (c7_move_boundary c7Tree "b"
      (.element "section" [] false (some "section")
        (.cons (.text "\n  ")
          (.cons (.element "p" [edAttr "a"] false (some "p")
            (.cons (.text "A") .nil))
            (.cons (.text "\n  ")
              (.cons (.element "p" [edAttr "b"] false (some "p")
                (.cons (.text "B") .nil))
                (.cons (.text "\n") .nil))))))
      [3] [] 3
      [.text "\n  ",
       .element "p" [edAttr "a"] false (some "p") (.cons (.text "A") .nil),
       .text "\n  ",
       .element "p" [edAttr "b"] false (some "p") (.cons (.text "B") .nil),
       .text "\n"]
      (by decide) (by decide) (by decide) (by decide)).2 (by decide)

theorem nthNonWsPos_append (l₁ : List JSXNode) (x : JSXNode)
    (l₂ : List JSXNode) (hx : isWhitespaceNode x = false) :
    nthNonWsPos (l₁ ++ x :: l₂)
      (l₁.countP (fun c => !isWhitespaceNode c)) = some l₁.length := by
  induction l₁ with
  | nil => simp [nthNonWsPos, hx]
  | cons c rest ih =>
    cases hc : isWhitespaceNode c with
    | true => simp [nthNonWsPos, hc, List.countP_cons, ih]
    | false => simp [nthNonWsPos, hc, List.countP_cons, ih]

/-- Claim C9 (amended wording of the implicit claim): `moveToIndex` with
`newIndex` equal to the target's current position among its
non-whitespace siblings succeeds and relocates the target to the end of
the parent's children array — the target is spliced out first, the
identity lookup for its own slot then fails and the insertion index
falls back to the end. -/
theorem c9_moveToIndex_self_appends (ast : Ast) (id : String) (r : JSXNode)
    (p pp : List Nat) (i : Nat) (cs : List JSXNode) (target : JSXNode)
    (newIndex : Int)
    (hr : ast.root = some r) (hp : findPath id r = some p)
    (hsp : splitLast p = some (pp, i))
    (hcs : (getAt r pp).bind JSXNode.childList = some cs)
    (ht : cs.get? i = some target)
    (hws : isWhitespaceNode target = false)
    (hni : newIndex = ((cs.take i).countP (fun c => !isWhitespaceNode c) : Int))
    (hlast : i + 1 < cs.length) :
    moveToIndex ast id newIndex =
      ⟨true,
        ⟨some (modifyAt r pp (fun n =>
          n.withChildren (listRemoveAt cs i 1 ++ [target])))⟩,
        "Element \"" ++ id ++ "\" moved to index " ++ toString newIndex⟩ := by
  have hi : i < cs.length := by
    have := List.get?_eq_some.mp ht
    exact this.1
  have hdecomp : cs = cs.take i ++ target :: cs.drop (i + 1) := by
    have h2 : cs.drop i = target :: cs.drop (i + 1) := by
      rw [List.drop_eq_getElem_cons hi]
      have hx : cs[i] = target := by
        obtain ⟨hlt, hget⟩ := List.get?_eq_some.mp ht
        simp [← hget]
      rw [hx]
    calc cs = cs.take i ++ cs.drop i := (List.take_append_drop i cs).symm
    _ = cs.take i ++ target :: cs.drop (i + 1) := by rw [h2]
  set k := (cs.take i).countP (fun c => !isWhitespaceNode c) with hk
  have htakelen : (cs.take i).length = i := by
    simp [List.length_take, Nat.min_eq_left (Nat.le_of_lt hi)]
  have hnth : nthNonWsPos cs k = some i := by
    conv_lhs => rw [hdecomp]
    rw [nthNonWsPos_append _ _ _ hws, htakelen]
  have hklt : k < (cs.filter (fun c => !isWhitespaceNode c)).length := by
    conv_rhs => rw [hdecomp]
    rw [List.filter_append]
    have htf : (fun c => !isWhitespaceNode c) target = true := by simp [hws]
    simp only [List.filter_cons, htf, if_true, List.length_append,
      List.length_cons]
    have : k = ((cs.take i).filter (fun c => !isWhitespaceNode c)).length := by
      rw [hk, List.countP_eq_length_filter]
    omega
  unfold moveToIndex
  simp only [hr, hp, hsp, hcs]
  have hnonneg : ¬(newIndex < 0) := by rw [hni]; omega
  have hrange : ¬(newIndex ≥ ((cs.filter (fun c => !isWhitespaceNode c)).length : Int)) := by
    rw [hni]
    omega
  have hcond : (decide (newIndex < 0) ||
      decide (newIndex ≥ ((cs.filter (fun c => !isWhitespaceNode c)).length : Int))) = false := by
    rw [decide_eq_false hnonneg, decide_eq_false hrange]
    rfl
  simp only [hcond, Bool.false_eq_true, if_false, ht]
  have hkn : newIndex.toNat = k := by rw [hni]; simp
  rw [hkn, hnth]
  simp [listInsertAt]

/-- Witness for C9: the target is the first of two non-whitespace
siblings; asking for its own index 0 relocates it to the end. -/
theorem c9_witness :
    moveToIndex c9Tree "a" 0 =
      ⟨true,
        ⟨some (.element "section" [] false (some "section")
          (.cons (.text "\n  ")
            (.cons (.element "p" [edAttr "b"] false (some "p") .nil)
              (.cons (.element "p" [edAttr "a"] false (some "p") .nil) .nil))))⟩,
        "Element \"a\" moved to index 0"⟩ := by
  have h := c9_moveToIndex_self_appends c9Tree "a"
    (.element "section" [] false (some "section")
      (.cons (.element "p" [edAttr "a"] false (some "p") .nil)
        (.cons (.text "\n  ")
          (.cons (.element "p" [edAttr "b"] false (some "p") .nil) .nil))))
    [0] [] 0
    [.element "p" [edAttr "a"] false (some "p") .nil,
     .text "\n  ",
     .element "p" [edAttr "b"] false (some "p") .nil]
    (.element "p" [edAttr "a"] false (some "p") .nil) 0
    (by decide) (by decide) (by decide) (by decide) (by decide) (by decide)
    (by decide) (by decide)
  exact h.trans (by decide)

theorem childList_withChildren (r : JSXNode) (cs : List JSXNode)
    (h : (JSXNode.childList r).isSome = true) :
    (r.withChildren cs).childList = some cs := by
  cases r <;>
    simp [JSXNode.childList, JSXNode.withChildren,
      JSXNodes.toList_ofList] at h ⊢

theorem getAt_modifyAt (f : JSXNode → JSXNode) :
    ∀ (p : List Nat) (r x : JSXNode), getAt r p = some x →
      getAt (modifyAt r p f) p = some (f x) := by
  intro p
  induction p with
  | nil =>
    intro r x h
    simp [getAt] at h
    subst h
    simp [getAt, modifyAt]
  | cons i p' ih =>
    intro r x h
    unfold getAt at h
    cases hcl : r.childList with
    | none => rw [hcl] at h; exact absurd h (by simp)
    | some cs =>
      rw [hcl] at h
      simp only [] at h
      cases hci : cs.get? i with
      | none => rw [hci] at h; exact absurd h (by simp)
      | some c =>
        rw [hci] at h
        simp only [] at h
        unfold modifyAt
        rw [hcl]
        simp only []
        rw [hci]
        simp only []
        unfold getAt
        rw [childList_withChildren r _ (by simp [hcl])]
        have hset : (listSetAt cs i (modifyAt c p' f)).get? i =
            some (modifyAt c p' f) := by
          unfold listSetAt
          rw [List.get?_set_eq, hci]
          rfl
        simp only []
        rw [hset]
        exact ih c x h

theorem updateTextScan_none (txt : String) (l : List JSXNode)
    (h : ∀ c ∈ l, claimTextBearing c = false) : updateTextScan txt l = none := by
  induction l with
  | nil => rfl
  | cons c rest ih =>
    have hc := h c (by simp)
    have hrest := ih (fun x hx => h x (by simp [hx]))
    cases c with
    | text v => simp [claimTextBearing] at hc
    | exprContainer e =>
      cases e with
      | stringLit s => simp [claimTextBearing] at hc
      | ident n => simp [claimTextBearing] at hc
      | member o pr => simp [claimTextBearing] at hc
      | templateLit qs => simp [claimTextBearing] at hc
      | numLit n => simp [updateTextScan, hrest]
      | boolLit b => simp [updateTextScan, hrest]
      | objectExpr props => simp [updateTextScan, hrest]
    | element t as sc cl cs => simp [updateTextScan, hrest]
    | fragment cs => simp [updateTextScan, hrest]

/-- Claim C2 (amended): when the target element has no text-bearing
child — no text node and no expression slot wrapping a string literal,
template literal, identifier or member expression — `updateText`
replaces the element's entire children array with a single new text node
(the existing children are discarded, not kept) and forces the element
out of self-closing form. -/
theorem c2_updateText_no_text_child (ast : Ast) (id txt : String)
    (r : JSXNode) (p : List Nat) (t : String) (attrs : List JSXAttribute)
    (sc : Bool) (cl : Option String) (cs : JSXNodes)
    (hr : ast.root = some r) (hp : findPath id r = some p)
    (hn : getAt r p = some (.element t attrs sc cl cs))
    (h : ∀ c ∈ cs.toList, claimTextBearing c = false) :
    (updateText ast id txt).success = true ∧
    (updateText ast id txt).oldText = some "" ∧
    ∃ r', (updateText ast id txt).ast.root = some r' ∧
      getAt r' p = some (.element t attrs false (some (cl.getD t))
        (.cons (.text txt) .nil)) := by
  have hscan : updateTextScan txt
      ((JSXNode.childList (.element t attrs sc cl cs)).getD []) = none := by
    simp only [JSXNode.childList, Option.getD]
    exact updateTextScan_none txt cs.toList h
  unfold updateText
  simp only [hr, hp, hn, hscan]
  refine ⟨trivial, trivial, ?_⟩
  refine ⟨_, rfl, ?_⟩
  have := getAt_modifyAt (fun n =>
    match n with
    | .element t' as' _ cl' _ =>
      .element t' as' false (some (cl'.getD t')) (.cons (.text txt) .nil)
    | other => other) p r _ hn
  exact this

/-- Counterexample for C2 as stated: on an element whose only child is a
non-text-bearing `span`, `updateText` does not append a text child to
the existing children — the `span` child is gone and the children array
is exactly the single new text node. -/
theorem c2_counterexample :
    (updateText c2Tree "x" "New").ast =
      ⟨some (.element "div" [edAttr "x"] false (some "div")
        (.cons (.text "New") .nil))⟩ ∧
    (updateText c2Tree "x" "New").ast ≠
      ⟨some (.element "div" [edAttr "x"] false (some "div")
        (.cons (.element "span" [] true none .nil)
          (.cons (.text "New") .nil)))⟩ := by
  decide

/-- Witness for C2's amended theorem at a concrete tree. -/
theorem c2_witness :
    (updateText c2Tree "x" "New").success = true ∧
    (updateText c2Tree "x" "New").oldText = some "" ∧
    ∃ r', (updateText c2Tree "x" "New").ast.root = some r' ∧
      getAt r' [] = some (.element "div" [edAttr "x"] false (some "div")
        (.cons (.text "New") .nil)) := by
  exact c2_updateText_no_text_child c2Tree "x" "New"
    (.element "div" [edAttr "x"] false (some "div")
      (.cons (.element "span" [] true none .nil) .nil))
    [] "div" [edAttr "x"] false (some "div")
    (.cons (.element "span" [] true none .nil) .nil)
    (by decide) (by decide) (by decide) (by decide)

theorem removeElement_fail (ast : Ast) (id : String) (pc : Bool) :
    (removeElement ast id pc).success = false →
      (removeElement ast id pc).ast = ast := by
  unfold removeElement
  (repeat' split) <;> try simp
  all_goals ((repeat' split) <;> simp_all)

theorem clearChildren_fail (ast : Ast) (id : String) :
    (clearChildren ast id).success = false → (clearChildren ast id).ast = ast := by
  unfold clearChildren
  (repeat' split) <;> try simp
  all_goals ((repeat' split) <;> simp_all)

theorem updateText_fail (ast : Ast) (id txt : String) :
    (updateText ast id txt).success = false → (updateText ast id txt).ast = ast := by
  unfold updateText
  (repeat' split) <;> try simp
  all_goals ((repeat' split) <;> simp_all)

theorem updateAttribute_fail (ast : Ast) (id an : String) (v : AttrInput) :
    (updateAttribute ast id an v).success = false →
      (updateAttribute ast id an v).ast = ast := by
  unfold updateAttribute
  (repeat' split) <;> try simp
  all_goals ((repeat' split) <;> simp_all)

theorem updateTagName_fail (ast : Ast) (id tn : String) :
    (updateTagName ast id tn).success = false →
      (updateTagName ast id tn).ast = ast := by
  unfold updateTagName
  (repeat' split) <;> try simp
  all_goals ((repeat' split) <;> simp_all)

theorem replaceChildren_fail (ast : Ast) (id : String)
    (nc : List (String ⊕ JSXNode)) :
    (replaceChildren ast id nc).success = false →
      (replaceChildren ast id nc).ast = ast := by
  unfold replaceChildren
  (repeat' split) <;> try simp
  all_goals ((repeat' split) <;> simp_all)

theorem moveUp_fail (ast : Ast) (id : String) :
    (moveUp ast id).success = false → (moveUp ast id).ast = ast := by
  unfold moveUp
  (repeat' split) <;> try simp
  all_goals ((repeat' split) <;> simp_all)

theorem moveDown_fail (ast : Ast) (id : String) :
    (moveDown ast id).success = false → (moveDown ast id).ast = ast := by
  unfold moveDown
  (repeat' split) <;> try simp
  all_goals ((repeat' split) <;> simp_all)

theorem moveToIndex_fail (ast : Ast) (id : String) (ni : Int) :
    (moveToIndex ast id ni).success = false → (moveToIndex ast id ni).ast = ast := by
  unfold moveToIndex
  (repeat' split) <;> try simp
  all_goals ((repeat' split) <;> simp_all)

theorem moveInto_fail (ast : Ast) (sId dId : String) :
    (moveInto ast sId dId).success = false → (moveInto ast sId dId).ast = ast := by
  unfold moveInto
  (repeat' split) <;> try simp
  all_goals ((repeat' split) <;> simp_all)

theorem swap_fail (ast : Ast) (id1 id2 : String) :
    (swap ast id1 id2).success = false → (swap ast id1 id2).ast = ast := by
  unfold swap
  (repeat' split) <;> try simp
  all_goals ((repeat' split) <;> simp_all)

theorem insertAfter_fail (ast : Ast) (id : String) (ne : ElementSpec)
    (opts : TemplateOptions) :
    (insertAfter ast id ne opts).success = false →
      (insertAfter ast id ne opts).ast = ast := by
  unfold insertAfter
  (repeat' split) <;> try simp
  all_goals ((repeat' split) <;> simp_all)

theorem insertBefore_fail (ast : Ast) (id : String) (ne : ElementSpec)
    (opts : TemplateOptions) :
    (insertBefore ast id ne opts).success = false →
      (insertBefore ast id ne opts).ast = ast := by
  unfold insertBefore
  (repeat' split) <;> try simp
  all_goals ((repeat' split) <;> simp_all)

theorem insertAsFirstChild_fail (ast : Ast) (id : String) (ne : ElementSpec)
    (opts : TemplateOptions) :
    (insertAsFirstChild ast id ne opts).success = false →
      (insertAsFirstChild ast id ne opts).ast = ast := by
  unfold insertAsFirstChild
  (repeat' split) <;> try simp
  all_goals ((repeat' split) <;> simp_all)

theorem insertAsLastChild_fail (ast : Ast) (id : String) (ne : ElementSpec)
    (opts : TemplateOptions) :
    (insertAsLastChild ast id ne opts).success = false →
      (insertAsLastChild ast id ne opts).ast = ast := by
  unfold insertAsLastChild
  (repeat' split) <;> try simp
  all_goals ((repeat' split) <;> simp_all)

theorem insertAtRoot_fail (ast : Ast) (ne : ElementSpec)
    (opts : TemplateOptions) :
    (insertAtRoot ast ne opts).success = false →
      (insertAtRoot ast ne opts).ast = ast := by
  unfold insertAtRoot
  cases hr : ast.root with
  | none => intro _; rfl
  | some r =>
    cases hres : resolveElement ne opts with
    | none => intro _; rfl
    | some elem =>
      intro h
      exfalso
      revert h
      cases r with
      | element t as sc cl cs =>
        by_cases hpos : opts.position = some "first" <;> simp [hpos]
      | fragment cs =>
        by_cases hpos : opts.position = some "first" <;> simp [hpos]
      | text v => simp
      | exprContainer e => simp

theorem updateStyles_fail (ast : Ast) (id : String)
    (ns : List (String × Option String)) :
    (updateStyles ast id ns).success = false → (updateStyles ast id ns).ast = ast := by
  unfold updateStyles
  (repeat' split) <;> try simp
  all_goals ((repeat' split) <;> simp_all)

theorem setSpacing_fail (ast : Ast) (id : String)
    (sp : List (String × SpacingVal)) :
    (setSpacing ast id sp).success = false → (setSpacing ast id sp).ast = ast := by
  unfold setSpacing
  exact updateStyles_fail ast id (normalizeSpacing sp)

theorem setMargin_fail (ast : Ast) (id : String) (m : SideArg) :
    (setMargin ast id m).success = false → (setMargin ast id m).ast = ast := by
  unfold setMargin
  cases m with
  | single v => cases v <;> exact updateStyles_fail ast id _
  | sides t b l rr => exact updateStyles_fail ast id _

theorem setPadding_fail (ast : Ast) (id : String) (m : SideArg) :
    (setPadding ast id m).success = false → (setPadding ast id m).ast = ast := by
  unfold setPadding
  cases m with
  | single v => cases v <;> exact updateStyles_fail ast id _
  | sides t b l rr => exact updateStyles_fail ast id _

theorem clearStyles_fail (ast : Ast) (id : String) :
    (clearStyles ast id).success = false → (clearStyles ast id).ast = ast := by
  unfold clearStyles
  (repeat' split) <;> try simp
  all_goals ((repeat' split) <;> simp_all)

/-- Claim C1 (amended): every exported single-target mutation operation
is atomic on failure — a `success: false` result carries the input tree
unchanged — for removeElement, clearChildren, updateText,
updateAttribute, updateTagName, replaceChildren, the five move
operations, the five insert operations and the style operations; and
after `removeElement` on an absent id, generating code yields text
identical to generating before the call.  The two exceptions forced by
the counterexample are `removeMultiple` (a mixed batch reports failure
with the successful removals applied) and `updateAttributes` (a payload
that removes the identity attribute mutates, then the remaining updates
fail). -/
theorem c1_mutation_atomicity :
    (∀ ast id pc, (removeElement ast id pc).success = false →
      (removeElement ast id pc).ast = ast) ∧
    (∀ ast id, (clearChildren ast id).success = false →
      (clearChildren ast id).ast = ast) ∧
    (∀ ast id txt, (updateText ast id txt).success = false →
      (updateText ast id txt).ast = ast) ∧
    (∀ ast id an v, (updateAttribute ast id an v).success = false →
      (updateAttribute ast id an v).ast = ast) ∧
    (∀ ast id tn, (updateTagName ast id tn).success = false →
      (updateTagName ast id tn).ast = ast) ∧
    (∀ ast id nc, (replaceChildren ast id nc).success = false →
      (replaceChildren ast id nc).ast = ast) ∧
    (∀ ast id, (moveUp ast id).success = false → (moveUp ast id).ast = ast) ∧
    (∀ ast id, (moveDown ast id).success = false → (moveDown ast id).ast = ast) ∧
    (∀ ast id ni, (moveToIndex ast id ni).success = false →
      (moveToIndex ast id ni).ast = ast) ∧
    (∀ ast s d, (moveInto ast s d).success = false → (moveInto ast s d).ast = ast) ∧
    (∀ ast i1 i2, (swap ast i1 i2).success = false → (swap ast i1 i2).ast = ast) ∧
    (∀ ast id ne opts, (insertAfter ast id ne opts).success = false →
      (insertAfter ast id ne opts).ast = ast) ∧
    (∀ ast id ne opts, (insertBefore ast id ne opts).success = false →
      (insertBefore ast id ne opts).ast = ast) ∧
    (∀ ast id ne opts, (insertAsFirstChild ast id ne opts).success = false →
      (insertAsFirstChild ast id ne opts).ast = ast) ∧
    (∀ ast id ne opts, (insertAsLastChild ast id ne opts).success = false →
      (insertAsLastChild ast id ne opts).ast = ast) ∧
    (∀ ast ne opts, (insertAtRoot ast ne opts).success = false →
      (insertAtRoot ast ne opts).ast = ast) ∧
    (∀ ast id ns, (updateStyles ast id ns).success = false →
      (updateStyles ast id ns).ast = ast) ∧
    (∀ ast id sp, (setSpacing ast id sp).success = false →
      (setSpacing ast id sp).ast = ast) ∧
    (∀ ast id m, (setMargin ast id m).success = false →
      (setMargin ast id m).ast = ast) ∧
    (∀ ast id m, (setPadding ast id m).success = false →
      (setPadding ast id m).ast = ast) ∧
    (∀ ast id, (clearStyles ast id).success = false →
      (clearStyles ast id).ast = ast) ∧
    (∀ ast id, ast.find id = none →
      (removeElement ast id false).success = false ∧
      generateCode (removeElement ast id false).ast = generateCode ast) :=
  ⟨removeElement_fail, clearChildren_fail, updateText_fail,
   updateAttribute_fail, updateTagName_fail, replaceChildren_fail,
   moveUp_fail, moveDown_fail, moveToIndex_fail, moveInto_fail, swap_fail,
   insertAfter_fail, insertBefore_fail, insertAsFirstChild_fail,
   insertAsLastChild_fail, insertAtRoot_fail, updateStyles_fail,
   setSpacing_fail, setMargin_fail, setPadding_fail, clearStyles_fail,
   fun ast id h => by rw [removeElement_notFound ast id false h]; exact ⟨rfl, rfl⟩⟩

/-- Counterexample for C1 as stated: `removeMultiple` over one present
and one absent id reports `success: false` with the present element
already removed, and `updateAttributes` whose payload first removes the
identity attribute reports `success: false` with the attribute removal
applied — both listed operations violate fail-means-unchanged. -/
theorem c1_counterexample :
    (removeMultiple c1Tree ["a", "missing"]).success = false ∧
    (removeMultiple c1Tree ["a", "missing"]).ast ≠ c1Tree ∧
    (updateAttributes c1AttrTree "x"
      [("data-editable", .nullV), ("foo", .strV "bar")]).success = false ∧
    (updateAttributes c1AttrTree "x"
      [("data-editable", .nullV), ("foo", .strV "bar")]).ast ≠ c1AttrTree := by
  refine ⟨by decide, by decide, by decide, by decide⟩

/-- Witness for C1's amended theorem: a failing removal on an absent id
leaves the empty tree unchanged, and code generation is unaffected. -/
theorem c1_witness :
    (removeElement (Ast.mk none) "zzz" false).success = false ∧
    (removeElement (Ast.mk none) "zzz" false).ast = Ast.mk none ∧
    generateCode (removeElement (Ast.mk none) "zzz" false).ast =
      generateCode (Ast.mk none) := by
  refine ⟨by decide, ?_, ?_⟩
  · exact c1_mutation_atomicity.1 (Ast.mk none) "zzz" false (by decide)
  · exact (c1_mutation_atomicity.2.2.2.2.2.2.2.2.2.2.2.2.2.2.2.2.2.2.2.2.2
      (Ast.mk none) "zzz" (by decide)).2

/-- Claim C3 (amended): the Node Builder parses a raw snippet wrapped in
an implicit fragment, but a multi-root snippet is not rejected — the
fragment's first root is returned and the remaining roots are silently
dropped, both by `parseJSX` and through `resolveElement` when the string
is not a registered template name; no `TemplateError` reaches the
caller (resolution failure surfaces as a `null`/invalid-element result). -/
theorem c3_parseJSX_first_root (s : String) (n : JSXNode) (ns : List JSXNode)
    (h : parse ("<>" ++ s ++ "</>") =
      some (.fragment (JSXNodes.ofList (n :: ns)))) :
    parseJSX s = some n ∧
    ∀ opts, getTemplate s opts = none →
      resolveElement (.str s) opts = some n := by
  have hp : parseJSX s = some n := by
    unfold parseJSX
    rw [h]
    simp [JSXNodes.toList_ofList]
  refine ⟨hp, fun opts hgt => ?_⟩
  unfold resolveElement
  simp only []
  rw [hgt]
  exact hp

/-- Counterexample for C3 as stated: a two-root snippet parses (wrapped
in the implicit fragment) to a two-child fragment, yet `parseJSX`
produces the first root element — and resolution hands that node to the
insert operations — instead of rejecting the snippet with an error. -/
theorem c3_counterexample :
    parse ("<>" ++ "<a></a><b></b>" ++ "</>") =
      some (.fragment (JSXNodes.ofList
        [.element "a" [] false (some "a") .nil,
         .element "b" [] false (some "b") .nil])) ∧
    parseJSX "<a></a><b></b>" = some (.element "a" [] false (some "a") .nil) ∧
    resolveElement (.str "<a></a><b></b>") noOptions =
      some (.element "a" [] false (some "a") .nil) := by
  refine ⟨by decide, by decide, by decide⟩

/-- Witness for C3's amended theorem at a concrete two-root snippet. -/
theorem c3_witness :
    parseJSX "<p>Hi</p><br/>" =
      some (.element "p" [] false (some "p") (.cons (.text "Hi") .nil)) := by
  exact (c3_parseJSX_first_root "<p>Hi</p><br/>"
    (.element "p" [] false (some "p") (.cons (.text "Hi") .nil))
    [.element "br" [] true none .nil]
    (by decide)).1

theorem lookupA_objInsert (m : List (String × α)) (k : String) (v : α) :
    lookupA (objInsert m k v) k = some v := by
  induction m with
  | nil => simp [objInsert, lookupA]
  | cons kv rest ih =>
    by_cases hk : kv.1 = k
    · simp [objInsert, lookupA, hk]
    · obtain ⟨k', v'⟩ := kv
      simp only at hk
      simp [objInsert, lookupA, hk, List.find?] at ih ⊢
      exact ih

theorem lookupA_cleanup (merged : List (String × Option String)) (k v : String)
    (h : lookupA merged k = some (some v)) (hv : v ≠ "") :
    lookupA (merged.filterMap (fun kv =>
      match kv.2 with
      | some s => if s = "" then none else some (kv.1, s)
      | none => none)) k = some v := by
  induction merged with
  | nil => simp [lookupA] at h
  | cons kv rest ih =>
    obtain ⟨k', w⟩ := kv
    by_cases hk : k' = k
    · subst hk
      simp [lookupA, List.find?] at h
      subst h
      simp [lookupA, List.find?, hv]
    · have h' : lookupA rest k = some (some v) := by
        simpa [lookupA, List.find?, hk] using h
      have := ih h'
      cases w with
      | none => simpa [lookupA, List.find?, hk] using this
      | some s =>
        by_cases hs : s = ""
        · simpa [hs, lookupA, List.find?, hk] using this
        · simpa [hs, lookupA, List.find?, hk] using this

theorem normalizeSpacing_spec (sp : List (String × SpacingVal)) (prop : String)
    (hp : prop ∈ spacingProps) :
    match lookupA sp prop with
    | some (.num n) => (prop, some (toString n ++ "px")) ∈ normalizeSpacing sp
    | some (.str s) => (prop, some s) ∈ normalizeSpacing sp
    | none => ∀ v, (prop, v) ∉ normalizeSpacing sp := by
  cases hl : lookupA sp prop with
  | some sv =>
    have hfind : sp.find? (fun kv => kv.1 = prop) = some (prop, sv) := by
      unfold lookupA at hl
      cases hf : sp.find? (fun kv => kv.1 = prop) with
      | none => rw [hf] at hl; simp at hl
      | some kv =>
        rw [hf] at hl
        simp at hl
        have hfst : kv.1 = prop := by
          have := List.find?_some hf
          simpa using this
        obtain ⟨k0, v0⟩ := kv
        simp only at hfst hl
        rw [hfst, hl]
    cases sv with
    | num n =>
      simp only []
      unfold normalizeSpacing
      refine List.mem_filterMap.mpr ⟨prop, hp, ?_⟩
      rw [hfind]
      rfl
    | str s =>
      simp only []
      unfold normalizeSpacing
      refine List.mem_filterMap.mpr ⟨prop, hp, ?_⟩
      rw [hfind]
      rfl
  | none =>
    simp only []
    intro v hv
    unfold normalizeSpacing at hv
    obtain ⟨p', hp', hf⟩ := List.mem_filterMap.mp hv
    cases hfind : sp.find? (fun kv => kv.1 = p') with
    | none => rw [hfind] at hf; simp at hf
    | some kv =>
      rw [hfind] at hf
      simp at hf
      have : p' = prop := hf.1.symm ▸ rfl
      subst this
      unfold lookupA at hl
      rw [hfind] at hl
      simp at hl

/-- Claim C8: `setSpacing` translates each recognized spacing key whose
value is a bare number `n` into the pixel string `"npx"` and passes
string values through, then delegates the translated map to
`updateStyles`; in particular `setSpacing` with `marginTop: 10` on a
located element produces a merged style map — the object written into
the element's `style` attribute — whose `marginTop` entry is `'10px'`. -/
theorem c8_setSpacing_normalizes :
    (∀ ast id sp, setSpacing ast id sp = updateStyles ast id (normalizeSpacing sp)) ∧
    (∀ (sp : List (String × SpacingVal)) (prop : String),
      prop ∈ spacingProps →
      match lookupA sp prop with
      | some (.num n) => (prop, some (toString n ++ "px")) ∈ normalizeSpacing sp
      | some (.str s) => (prop, some s) ∈ normalizeSpacing sp
      | none => ∀ v, (prop, v) ∉ normalizeSpacing sp) ∧
    (∀ (ast : Ast) (id : String) (n : Int) (r : JSXNode) (p : List Nat)
        (t : String) (attrs : List JSXAttribute) (sc : Bool)
        (cl : Option String) (cs : JSXNodes),
      ast.root = some r → findPath id r = some p →
      getAt r p = some (.element t attrs sc cl cs) →
      (setSpacing ast id [("marginTop", .num n)]).success = true ∧
      lookupA (setSpacing ast id [("marginTop", .num n)]).styles "marginTop" =
        some (toString n ++ "px")) := by
  refine ⟨fun ast id sp => rfl, normalizeSpacing_spec, ?_⟩
  intro ast id n r p t attrs sc cl cs hr hp hn
  have hnorm : normalizeSpacing [("marginTop", SpacingVal.num n)] =
      [("marginTop", some (toString n ++ "px"))] := by rfl
  have hne : toString n ++ "px" ≠ "" := by
    intro hc
    have hd := congrArg String.data hc
    rw [String.data_append] at hd
    have hpx : "px".data = ['p', 'x'] := rfl
    have h0 : ("" : String).data = [] := rfl
    rw [hpx, h0] at hd
    simp at hd
  unfold setSpacing
  rw [hnorm]
  unfold updateStyles
  simp only [hr, hp, hn]
  refine ⟨trivial, ?_⟩
  · have hmerge : lookupA
        (List.foldl (fun m kv => objInsert m kv.1 kv.2)
          (getElementStyles (.element t attrs sc cl cs))
          [("marginTop", some (toString n ++ "px"))]) "marginTop" =
        some (some (toString n ++ "px")) := by
      simp only [List.foldl]
      exact lookupA_objInsert _ _ _
    exact lookupA_cleanup _ _ _ hmerge hne

/-- Witness for C8 at a concrete tree: `marginTop: 10` yields a style
map carrying `marginTop: '10px'`. -/
theorem c8_witness :
    (setSpacing c8Tree "box" [("marginTop", .num 10)]).success = true ∧
    lookupA (setSpacing c8Tree "box" [("marginTop", .num 10)]).styles
      "marginTop" = some "10px" := by
  exact c8_setSpacing_normalizes.2.2 c8Tree "box" 10
    (.element "div" [edAttr "box"] false (some "div")
      (.cons (.text "body") .nil))
    [] "div" [edAttr "box"] false (some "div") (.cons (.text "body") .nil)
    (by decide) (by decide) (by decide)

theorem matchesId_findPath_nil (id : String) (n : JSXNode)
    (h : matchesId id n = true) : findPath id n = some [] := by
  cases n with
  | element t attrs sc cl cs =>
    unfold matchesId at h
    simp only [] at h
    unfold findPath
    cases ha : editableAttr attrs with
    | none => rw [ha] at h; simp at h
    | some a =>
      rw [ha] at h
      simp at h
      simp [h]
  | text v => simp [matchesId] at h
  | exprContainer e => simp [matchesId] at h
  | fragment cs => simp [matchesId] at h

theorem withChildren_withChildren (r : JSXNode) (a b : List JSXNode) :
    (r.withChildren a).withChildren b = r.withChildren b := by
  cases r <;> simp [JSXNode.withChildren]

theorem modifyAt_cons (r : JSXNode) (cs : List JSXNode) (i : Nat)
    (c : JSXNode) (p' : List Nat) (f : JSXNode → JSXNode)
    (hcl : r.childList = some cs) (hci : cs.get? i = some c) :
    modifyAt r (i :: p') f =
      r.withChildren (listSetAt cs i (modifyAt c p' f)) := by
  conv_lhs => unfold modifyAt
  rw [hcl]
  simp only []
  rw [hci]

theorem modifyAt_modifyAt (f g : JSXNode → JSXNode) :
    ∀ (p : List Nat) (r x : JSXNode), getAt r p = some x →
      modifyAt (modifyAt r p f) p g = modifyAt r p (fun n => g (f n)) := by
  intro p
  induction p with
  | nil => intro r x _; rfl
  | cons i p' ih =>
    intro r x h
    unfold getAt at h
    cases hcl : r.childList with
    | none => rw [hcl] at h; exact absurd h (by simp)
    | some cs =>
      rw [hcl] at h
      simp only [] at h
      cases hci : cs.get? i with
      | none => rw [hci] at h; exact absurd h (by simp)
      | some c =>
        rw [hci] at h
        simp only [] at h
        have hset : (listSetAt cs i (modifyAt c p' f)).get? i =
            some (modifyAt c p' f) := by
          unfold listSetAt
          rw [List.get?_set_eq, hci]
          rfl
        rw [modifyAt_cons r cs i c p' f hcl hci]
        rw [modifyAt_cons (r.withChildren (listSetAt cs i (modifyAt c p' f)))
          (listSetAt cs i (modifyAt c p' f)) i (modifyAt c p' f) p' g
          (childList_withChildren r _ (by simp [hcl])) hset]
        rw [withChildren_withChildren]
        have hss : listSetAt (listSetAt cs i (modifyAt c p' f)) i
            (modifyAt (modifyAt c p' f) p' g) =
            listSetAt cs i (modifyAt (modifyAt c p' f) p' g) := by
          unfold listSetAt
          exact List.set_set ..
        rw [hss, ih c x h]
        rw [modifyAt_cons r cs i c p' (fun n => g (f n)) hcl hci]

theorem modifyAt_congr (f g : JSXNode → JSXNode) :
    ∀ (p : List Nat) (r x : JSXNode), getAt r p = some x → f x = g x →
      modifyAt r p f = modifyAt r p g := by
  intro p
  induction p with
  | nil =>
    intro r x h hfg
    simp [getAt] at h
    subst h
    simp [modifyAt, hfg]
  | cons i p' ih =>
    intro r x h hfg
    unfold getAt at h
    cases hcl : r.childList with
    | none => rw [hcl] at h; exact absurd h (by simp)
    | some cs =>
      rw [hcl] at h
      simp only [] at h
      cases hci : cs.get? i with
      | none => rw [hci] at h; exact absurd h (by simp)
      | some c =>
        rw [hci] at h
        simp only [] at h
        unfold modifyAt
        rw [hcl]
        simp only []
        rw [hci]
        simp only []
        rw [ih c x h hfg]

mutual
theorem findPath_matches (id : String) :
    ∀ (n : JSXNode) (p : List Nat), findPath id n = some p →
      ∃ el, getAt n p = some el ∧ matchesId id el = true
  | .element t attrs sc cl cs, p, h => by
    unfold findPath at h
    cases ha : editableAttr attrs with
    | some a =>
      rw [ha] at h
      simp only [] at h
      by_cases hv : attrStringValue a = some id
      · rw [if_pos hv] at h
        have hp : p = [] := by injection h with h'; exact h'.symm
        subst hp
        refine ⟨.element t attrs sc cl cs, rfl, ?_⟩
        unfold matchesId
        simp only []
        rw [ha]
        simp [hv]
      · rw [if_neg hv] at h
        obtain ⟨i, p', hq, _, c, hc, hfp, el, hel, hm⟩ :=
          findPathList_matches id cs 0 p h
        subst hq
        refine ⟨el, ?_, hm⟩
        unfold getAt
        simp only [JSXNode.childList, List.get?_eq_getElem?]
        simp at hc
        rw [hc]
        simp only []
        exact hel
    | none =>
      rw [ha] at h
      simp only [] at h
      obtain ⟨i, p', hq, _, c, hc, hfp, el, hel, hm⟩ :=
        findPathList_matches id cs 0 p h
      subst hq
      refine ⟨el, ?_, hm⟩
      unfold getAt
      simp only [JSXNode.childList, List.get?_eq_getElem?]
      simp at hc
      rw [hc]
      simp only []
      exact hel
  | .fragment cs, p, h => by
    unfold findPath at h
    obtain ⟨i, p', hq, _, c, hc, hfp, el, hel, hm⟩ :=
      findPathList_matches id cs 0 p h
    subst hq
    refine ⟨el, ?_, hm⟩
    unfold getAt
    simp only [JSXNode.childList, List.get?_eq_getElem?]
    simp at hc
    rw [hc]
    simp only []
    exact hel
  | .text v, p, h => by simp [findPath] at h
  | .exprContainer e, p, h => by simp [findPath] at h
theorem findPathList_matches (id : String) :
    ∀ (cs : JSXNodes) (k : Nat) (q : List Nat), findPathList id cs k = some q →
      ∃ i p', q = i :: p' ∧ k ≤ i ∧
        ∃ c, cs.toList.get? (i - k) = some c ∧ findPath id c = some p' ∧
          ∃ el, getAt c p' = some el ∧ matchesId id el = true
  | .nil, k, q, h => by simp [findPathList] at h
  | .cons c cs', k, q, h => by
    unfold findPathList at h
    cases hfp : findPath id c with
    | some p =>
      rw [hfp] at h
      simp only [] at h
      obtain ⟨el, hel, hm⟩ := findPath_matches id c p hfp
      refine ⟨k, p, by injection h with h'; exact h'.symm, le_refl k, c, ?_,
        hfp, el, hel, hm⟩
      simp [JSXNodes.toList]
    | none =>
      rw [hfp] at h
      simp only [] at h
      obtain ⟨i, p', hq, hk, c', hc', hfp', el, hel, hm⟩ :=
        findPathList_matches id cs' (k + 1) q h
      refine ⟨i, p', hq, by omega, c', ?_, hfp', el, hel, hm⟩
      simp only [JSXNodes.toList]
      have : i - k = (i - (k + 1)) + 1 := by omega
      rw [this]
      simpa using hc'
end

mutual
theorem findPath_modifyAt (id : String) (f : JSXNode → JSXNode)
    (hf : ∀ m, matchesId id (f m) = matchesId id m) :
    ∀ (n : JSXNode) (p : List Nat), findPath id n = some p →
      findPath id (modifyAt n p f) = some p
  | .element t attrs sc cl cs, p, h => by
    unfold findPath at h
    cases ha : editableAttr attrs with
    | some a =>
      rw [ha] at h
      simp only [] at h
      by_cases hv : attrStringValue a = some id
      · rw [if_pos hv] at h
        have hp : p = [] := by injection h with h'; exact h'.symm
        subst hp
        have hm : matchesId id (.element t attrs sc cl cs) = true := by
          unfold matchesId
          simp only []
          rw [ha]
          simp [hv]
        have hm' : matchesId id (f (.element t attrs sc cl cs)) = true := by
          rw [hf]; exact hm
        unfold modifyAt
        exact matchesId_findPath_nil id _ hm'
      · rw [if_neg hv] at h
        obtain ⟨i, p', hq⟩ : ∃ i p', p = i :: p' := by
          obtain ⟨i, p', hq, _⟩ := findPathList_matches id cs 0 p h
          exact ⟨i, p', hq⟩
        subst hq
        obtain ⟨hk, c, hc, hfp, hstable⟩ :=
          findPathList_modifyAt id f hf cs 0 i p' h
        simp only [Nat.sub_zero] at hc hstable
        have hcons : modifyAt (.element t attrs sc cl cs) (i :: p') f =
            JSXNode.withChildren (.element t attrs sc cl cs)
              (listSetAt cs.toList i (modifyAt c p' f)) :=
          modifyAt_cons _ cs.toList i c p' f (by simp [JSXNode.childList]) hc
        rw [hcons]
        unfold JSXNode.withChildren
        unfold findPath
        rw [ha]
        simp only []
        rw [if_neg hv]
        exact hstable
    | none =>
      rw [ha] at h
      simp only [] at h
      obtain ⟨i, p', hq⟩ : ∃ i p', p = i :: p' := by
        obtain ⟨i, p', hq, _⟩ := findPathList_matches id cs 0 p h
        exact ⟨i, p', hq⟩
      subst hq
      obtain ⟨hk, c, hc, hfp, hstable⟩ :=
        findPathList_modifyAt id f hf cs 0 i p' h
      simp only [Nat.sub_zero] at hc hstable
      have hcons : modifyAt (.element t attrs sc cl cs) (i :: p') f =
          JSXNode.withChildren (.element t attrs sc cl cs)
            (listSetAt cs.toList i (modifyAt c p' f)) :=
        modifyAt_cons _ cs.toList i c p' f (by simp [JSXNode.childList]) hc
      rw [hcons]
      unfold JSXNode.withChildren
      unfold findPath
      rw [ha]
      simp only []
      exact hstable
  | .fragment cs, p, h => by
    unfold findPath at h
    obtain ⟨i, p', hq⟩ : ∃ i p', p = i :: p' := by
      obtain ⟨i, p', hq, _⟩ := findPathList_matches id cs 0 p h
      exact ⟨i, p', hq⟩
    subst hq
    obtain ⟨hk, c, hc, hfp, hstable⟩ :=
      findPathList_modifyAt id f hf cs 0 i p' h
    simp only [Nat.sub_zero] at hc hstable
    have hcons : modifyAt (.fragment cs) (i :: p') f =
        JSXNode.withChildren (.fragment cs)
          (listSetAt cs.toList i (modifyAt c p' f)) :=
      modifyAt_cons _ cs.toList i c p' f (by simp [JSXNode.childList]) hc
    rw [hcons]
    unfold JSXNode.withChildren
    unfold findPath
    exact hstable
  | .text v, p, h => by simp [findPath] at h
  | .exprContainer e, p, h => by simp [findPath] at h
theorem findPathList_modifyAt (id : String) (f : JSXNode → JSXNode)
    (hf : ∀ m, matchesId id (f m) = matchesId id m) :
    ∀ (cs : JSXNodes) (k i : Nat) (p' : List Nat),
      findPathList id cs k = some (i :: p') →
      k ≤ i ∧ ∃ c, cs.toList.get? (i - k) = some c ∧ findPath id c = some p' ∧
        findPathList id
          (JSXNodes.ofList (listSetAt cs.toList (i - k) (modifyAt c p' f)))
          k = some (i :: p')
  | .nil, k, i, p', h => by simp [findPathList] at h
  | .cons c cs', k, i, p', h => by
    unfold findPathList at h
    cases hfp : findPath id c with
    | some q =>
      rw [hfp] at h
      simp only [] at h
      have hik : i = k ∧ p' = q := by
        injection h with h'
        exact ⟨by injection h' with h1 _; exact h1.symm,
          by injection h' with _ h2; exact h2.symm⟩
      obtain ⟨hik1, hik2⟩ := hik
      subst hik1
      subst hik2
      refine ⟨le_refl i, c, by simp [JSXNodes.toList], hfp, ?_⟩
      have hstable := findPath_modifyAt id f hf c p' hfp
      simp only [JSXNodes.toList, Nat.sub_self, listSetAt, List.set]
      unfold JSXNodes.ofList
      unfold findPathList
      try rw [hstable]
      try simp [JSXNodes.ofList_toList]
    | none =>
      rw [hfp] at h
      simp only [] at h
      obtain ⟨hk, c', hc', hfp', hstable⟩ :=
        findPathList_modifyAt id f hf cs' (k + 1) i p' h
      have hki : k + 1 ≤ i := hk
      refine ⟨by omega, c', ?_, hfp', ?_⟩
      · simp only [JSXNodes.toList]
        have : i - k = (i - (k + 1)) + 1 := by omega
        rw [this]
        simpa using hc'
      · have : i - k = (i - (k + 1)) + 1 := by omega
        rw [this]
        simp only [JSXNodes.toList, listSetAt, List.set]
        unfold JSXNodes.ofList
        unfold findPathList
        rw [hfp]
        simp only []
        have hofl : JSXNodes.ofList (List.set cs'.toList (i - (k + 1))
            (modifyAt c' p' f)) =
            JSXNodes.ofList (listSetAt cs'.toList (i - (k + 1))
              (modifyAt c' p' f)) := rfl
        rw [hofl]
        exact hstable
end

theorem tokensAux_ok : ∀ (l cur : List Char), (∀ c ∈ cur, c ≠ ' ') →
    ∀ t ∈ tokensAux l cur, t.data ≠ [] ∧ ∀ c ∈ t.data, c ≠ ' ' := by
  intro l
  induction l with
  | nil =>
    intro cur hcur t ht
    unfold tokensAux at ht
    by_cases hc : cur.isEmpty
    · simp [hc] at ht
    · have hcur_ne : cur ≠ [] := by
        intro hcontra
        subst hcontra
        simp at hc
      simp [hc] at ht
      subst ht
      refine ⟨?_, ?_⟩
      · show cur.reverse ≠ []
        simp [hcur_ne]
      · intro x hx
        exact hcur x (by simpa using hx)
  | cons c rest ih =>
    intro cur hcur t ht
    unfold tokensAux at ht
    by_cases hc : c = ' '
    · simp only [hc, if_true] at ht
      by_cases hcc : cur.isEmpty
      · simp [hcc] at ht
        exact ih [] (by simp) t ht
      · have hcur_ne : cur ≠ [] := by
          intro hcontra
          subst hcontra
          simp at hcc
        simp [hcc] at ht
        cases ht with
        | inl h =>
          subst h
          refine ⟨?_, ?_⟩
          · show cur.reverse ≠ []
            simp [hcur_ne]
          · intro x hx
            exact hcur x (by simpa using hx)
        | inr h => exact ih [] (by simp) t h
    · simp only [hc, if_false] at ht
      refine ih (c :: cur) ?_ t ht
      intro x hx
      cases hx with
      | head => exact hc
      | tail _ hx' => exact hcur x hx'

theorem tokensAux_append_run (w : List Char) (hw : ∀ c ∈ w, c ≠ ' ') :
    ∀ (l cur : List Char), tokensAux (w ++ l) cur = tokensAux l (w.reverse ++ cur) := by
  induction w with
  | nil => intro l cur; simp
  | cons c w' ih =>
    intro l cur
    have hc : c ≠ ' ' := hw c (by simp)
    have hstep : tokensAux ((c :: w') ++ l) cur =
        tokensAux (w' ++ l) (c :: cur) := by
      conv_lhs => unfold tokensAux
      simp [hc]
    rw [hstep, ih (fun x hx => hw x (by simp [hx])) l (c :: cur)]
    congr 1
    simp

theorem classTokens_joinTokens : ∀ (ts : List String),
    (∀ t ∈ ts, t.data ≠ [] ∧ ∀ c ∈ t.data, c ≠ ' ') →
    classTokens (joinTokens ts) = ts := by
  intro ts
  induction ts with
  | nil => intro _; rfl
  | cons t rest ih =>
    intro h
    obtain ⟨hne, hsp⟩ := h t (by simp)
    cases rest with
    | nil =>
      unfold classTokens joinTokens
      have : t.data = t.data ++ [] := by simp
      rw [this, tokensAux_append_run t.data hsp [] []]
      unfold tokensAux
      have hc : (t.data.reverse ++ []).isEmpty = false := by
        simp [List.isEmpty_iff, hne]
      simp only [hc, if_false]
      simp
    | cons t2 rest2 =>
      have hjoin : joinTokens (t :: t2 :: rest2) =
          t ++ " " ++ joinTokens (t2 :: rest2) := rfl
      unfold classTokens
      rw [hjoin]
      have hdata : (t ++ " " ++ joinTokens (t2 :: rest2)).data =
          t.data ++ (' ' :: (joinTokens (t2 :: rest2)).data) := by
        rw [String.data_append, String.data_append]
        simp [show (" " : String).data = [' '] from rfl]
      rw [hdata, tokensAux_append_run t.data hsp _ []]
      unfold tokensAux
      have hc : (t.data.reverse ++ []).isEmpty = false := by
        simp [List.isEmpty_iff, hne]
      simp only [if_pos rfl, hc, if_false]
      have := ih (fun x hx => h x (by simp [hx]))
      unfold classTokens at this
      rw [this]
      simp

theorem setClassAttr_set (attrs : List JSXAttribute) (v w : String) :
    setClassAttr (setClassAttr attrs v) w = setClassAttr attrs w := by
  induction attrs with
  | nil => simp [setClassAttr]
  | cons a rest ih =>
    by_cases ha : a.name = "className"
    · simp [setClassAttr, ha]
    · simp [setClassAttr, ha, ih]

theorem editableAttr_setClassAttr (attrs : List JSXAttribute) (v : String) :
    editableAttr (setClassAttr attrs v) = editableAttr attrs := by
  induction attrs with
  | nil => simp [setClassAttr, editableAttr]
  | cons a rest ih =>
    by_cases ha : a.name = "className"
    · simp [setClassAttr, ha, editableAttr, List.find?]
    · unfold editableAttr at ih ⊢
      simp [setClassAttr, ha, List.find?, ih]

theorem find?_setClassAttr (attrs : List JSXAttribute) (v : String) :
    (setClassAttr attrs v).find? (fun a => a.name = "className") =
      some ⟨"className", some (.str v)⟩ := by
  induction attrs with
  | nil => simp [setClassAttr, List.find?]
  | cons a rest ih =>
    by_cases ha : a.name = "className"
    · simp [setClassAttr, ha, List.find?]
    · simp [setClassAttr, ha, List.find?, ih]

theorem matchesId_setClassName (id : String) (m : JSXNode) (v : String) :
    matchesId id (setClassName m v) = matchesId id m := by
  cases m with
  | element t attrs sc cl cs =>
    unfold setClassName matchesId
    simp only []
    rw [editableAttr_setClassAttr]
  | text s => rfl
  | exprContainer e => rfl
  | fragment cs => rfl

theorem classNameOf_setClassName (t : String) (attrs : List JSXAttribute)
    (sc : Bool) (cl : Option String) (cs : JSXNodes) (v : String) :
    classNameOf (setClassName (.element t attrs sc cl cs) v) = v := by
  unfold setClassName classNameOf
  simp only []
  rw [find?_setClassAttr]

theorem setClassName_setClassName (m : JSXNode) (v w : String) :
    setClassName (setClassName m v) w = setClassName m w := by
  cases m with
  | element t attrs sc cl cs =>
    unfold setClassName
    simp only []
    rw [setClassAttr_set]
  | text s => rfl
  | exprContainer e => rfl
  | fragment cs => rfl

theorem addClassName_found (ast : Ast) (id cls : String) (r : JSXNode)
    (p : List Nat) (target : JSXNode)
    (hr : ast.root = some r) (hp : findPath id r = some p)
    (hn : getAt r p = some target) :
    addClassName ast id cls =
      ⟨true, ⟨some (modifyAt r p (fun n => setClassName n (joinTokens
        (if cls ∈ classTokens (classNameOf target)
         then classTokens (classNameOf target)
         else classTokens (classNameOf target) ++ [cls]))))⟩,
        "Class \"" ++ cls ++ "\" added to \"" ++ id ++ "\""⟩ := by
  unfold addClassName
  rw [hr]
  simp only []
  rw [hp]
  simp only []
  rw [hn]

theorem removeClassName_found (ast : Ast) (id cls : String) (r : JSXNode)
    (p : List Nat) (target : JSXNode)
    (hr : ast.root = some r) (hp : findPath id r = some p)
    (hn : getAt r p = some target) :
    removeClassName ast id cls =
      ⟨true, ⟨some (modifyAt r p (fun n => setClassName n (joinTokens
        ((classTokens (classNameOf target)).filter (fun t => t ≠ cls)))))⟩,
        "Class \"" ++ cls ++ "\" removed from \"" ++ id ++ "\""⟩ := by
  unfold removeClassName
  rw [hr]
  simp only []
  rw [hp]
  simp only []
  rw [hn]

/-- Claim C4: the spec-modelled `addClassName` and `removeClassName`
maintain a space-delimited class token set on the `className` attribute
and are idempotent in both directions: a second application with the
same (space-free, nonempty) class name leaves the tree exactly as after
the first. -/
theorem c4_className_token_idempotent (ast : Ast) (id cls : String)
    (hcls1 : cls.data ≠ []) (hcls2 : ∀ c ∈ cls.data, c ≠ ' ') :
    (addClassName (addClassName ast id cls).ast id cls).ast =
      (addClassName ast id cls).ast ∧
    (removeClassName (removeClassName ast id cls).ast id cls).ast =
      (removeClassName ast id cls).ast := by
  constructor
  · cases hr : ast.root with
    | none => simp [addClassName, hr]
    | some r =>
      cases hp : findPath id r with
      | none => simp [addClassName, hr, hp]
      | some p =>
        cases hn : getAt r p with
        | none => simp [addClassName, hr, hp, hn]
        | some target =>
          obtain ⟨el, hel, hm⟩ := findPath_matches id r p hp
          rw [hn] at hel
          injection hel with hel'
          subst hel'
          cases target with
          | text v0 => simp [matchesId] at hm
          | exprContainer e0 => simp [matchesId] at hm
          | fragment cs0 => simp [matchesId] at hm
          | element t attrs sc cl cs =>
            rw [addClassName_found ast id cls r p _ hr hp hn]
            simp only []
            set tk0 := classTokens (classNameOf
              (JSXNode.element t attrs sc cl cs)) with htk0
            set tks := if cls ∈ tk0 then tk0 else tk0 ++ [cls] with htks
            have hok0 : ∀ x ∈ tk0, x.data ≠ [] ∧ ∀ c ∈ x.data, c ≠ ' ' := by
              intro x hx
              exact tokensAux_ok _ [] (by simp) x hx
            have hoks : ∀ x ∈ tks, x.data ≠ [] ∧ ∀ c ∈ x.data, c ≠ ' ' := by
              intro x hx
              rw [htks] at hx
              by_cases h0 : cls ∈ tk0
              · rw [if_pos h0] at hx
                exact hok0 x hx
              · rw [if_neg h0] at hx
                cases List.mem_append.mp hx with
                | inl h1 => exact hok0 x h1
                | inr h1 =>
                  have : x = cls := by simpa using h1
                  subst this
                  exact ⟨hcls1, hcls2⟩
            have hmem : cls ∈ tks := by
              rw [htks]
              by_cases h0 : cls ∈ tk0
              · rw [if_pos h0]; exact h0
              · rw [if_neg h0]; simp
            have hp2 : findPath id (modifyAt r p
                (fun n => setClassName n (joinTokens tks))) = some p :=
              findPath_modifyAt id _
                (fun m => matchesId_setClassName id m _) r p hp
            have hn2 : getAt (modifyAt r p
                (fun n => setClassName n (joinTokens tks))) p =
                some (setClassName (.element t attrs sc cl cs)
                  (joinTokens tks)) :=
              getAt_modifyAt _ p r _ hn
            rw [addClassName_found _ id cls _ p _ rfl hp2 hn2]
            simp only []
            have hcn : classNameOf (setClassName (.element t attrs sc cl cs)
                (joinTokens tks)) = joinTokens tks :=
              classNameOf_setClassName t attrs sc cl cs _
            rw [hcn, classTokens_joinTokens tks hoks, if_pos hmem]
            have hmm := modifyAt_modifyAt
              (fun n => setClassName n (joinTokens tks))
              (fun n => setClassName n (joinTokens tks)) p r _ hn
            rw [hmm]
            have hcg := modifyAt_congr
              (fun n => setClassName (setClassName n (joinTokens tks))
                (joinTokens tks))
              (fun n => setClassName n (joinTokens tks)) p r _ hn
              (setClassName_setClassName _ _ _)
            rw [hcg]
  · cases hr : ast.root with
    | none => simp [removeClassName, hr]
    | some r =>
      cases hp : findPath id r with
      | none => simp [removeClassName, hr, hp]
      | some p =>
        cases hn : getAt r p with
        | none => simp [removeClassName, hr, hp, hn]
        | some target =>
          obtain ⟨el, hel, hm⟩ := findPath_matches id r p hp
          rw [hn] at hel
          injection hel with hel'
          subst hel'
          cases target with
          | text v0 => simp [matchesId] at hm
          | exprContainer e0 => simp [matchesId] at hm
          | fragment cs0 => simp [matchesId] at hm
          | element t attrs sc cl cs =>
            rw [removeClassName_found ast id cls r p _ hr hp hn]
            simp only []
            set tks := (classTokens (classNameOf
              (JSXNode.element t attrs sc cl cs))).filter
                (fun x => x ≠ cls) with htks
            have hoks : ∀ x ∈ tks, x.data ≠ [] ∧ ∀ c ∈ x.data, c ≠ ' ' := by
              intro x hx
              rw [htks] at hx
              exact tokensAux_ok _ [] (by simp) x (List.mem_of_mem_filter hx)
            have hp2 : findPath id (modifyAt r p
                (fun n => setClassName n (joinTokens tks))) = some p :=
              findPath_modifyAt id _
                (fun m => matchesId_setClassName id m _) r p hp
            have hn2 : getAt (modifyAt r p
                (fun n => setClassName n (joinTokens tks))) p =
                some (setClassName (.element t attrs sc cl cs)
                  (joinTokens tks)) :=
              getAt_modifyAt _ p r _ hn
            rw [removeClassName_found _ id cls _ p _ rfl hp2 hn2]
            simp only []
            have hcn : classNameOf (setClassName (.element t attrs sc cl cs)
                (joinTokens tks)) = joinTokens tks :=
              classNameOf_setClassName t attrs sc cl cs _
            rw [hcn, classTokens_joinTokens tks hoks]
            have hfix : tks.filter (fun x => x ≠ cls) = tks := by
              rw [htks]
              rw [List.filter_filter]
              apply List.filter_congr
              intro x hx
              simp
            rw [hfix]
            have hmm := modifyAt_modifyAt
              (fun n => setClassName n (joinTokens tks))
              (fun n => setClassName n (joinTokens tks)) p r _ hn
            rw [hmm]
            have hcg := modifyAt_congr
              (fun n => setClassName (setClassName n (joinTokens tks))
                (joinTokens tks))
              (fun n => setClassName n (joinTokens tks)) p r _ hn
              (setClassName_setClassName _ _ _)
            rw [hcg]

/-- Witness for C4 at a concrete tree and class token. -/
theorem c4_witness :
    (addClassName (addClassName c4Tree "x" "extra").ast "x" "extra").ast =
      (addClassName c4Tree "x" "extra").ast ∧
    (removeClassName (removeClassName c4Tree "x" "extra").ast "x" "extra").ast =
      (removeClassName c4Tree "x" "extra").ast :=
  c4_className_token_idempotent c4Tree "x" "extra" (by decide) (by decide)

/-! Round-trip development for the parse/generate claim: list-scanning
helpers, lexer round-trip lemmas, fuel bounds, and the mutual
generator/parser agreement theorems. -/

/-- Taking while a predicate holds passes over a prefix on which it
holds everywhere. -/
theorem takeWhile_append_all (p : Char → Bool) (l1 l2 : List Char)
    (h : ∀ a ∈ l1, p a = true) :
    (l1 ++ l2).takeWhile p = l1 ++ l2.takeWhile p := by
  induction l1 with
  | nil => simp
  | cons c cs ih =>
    simp only [List.cons_append, List.takeWhile_cons]
    rw [h c (by simp), ih (fun a ha => h a (by simp [ha]))]
    simp

/-- Dropping while a predicate holds consumes a prefix on which it holds
everywhere. -/
theorem dropWhile_append_all (p : Char → Bool) (l1 l2 : List Char)
    (h : ∀ a ∈ l1, p a = true) :
    (l1 ++ l2).dropWhile p = l2.dropWhile p := by
  induction l1 with
  | nil => simp
  | cons c cs ih =>
    simp only [List.cons_append, List.dropWhile_cons]
    rw [h c (by simp)]
    simp only [if_pos rfl]
    exact ih (fun a ha => h a (by simp [ha]))

/-- A list whose head refutes the predicate yields an empty take. -/
theorem takeWhile_head_not (p : Char → Bool) (l : List Char)
    (h : ∀ c, l.head? = some c → p c = false) : l.takeWhile p = [] := by
  cases l with
  | nil => rfl
  | cons c cs => simp [List.takeWhile_cons, h c rfl]

/-- A list whose head refutes the predicate is untouched by drop. -/
theorem dropWhile_head_not (p : Char → Bool) (l : List Char)
    (h : ∀ c, l.head? = some c → p c = false) : l.dropWhile p = l := by
  cases l with
  | nil => rfl
  | cons c cs => simp [List.dropWhile_cons, h c rfl]

/-- Two characters on which a Boolean character class disagrees are
distinct. -/
theorem charNe (p : Char → Bool) (c d : Char) (h : p c = true)
    (hd : p d = false) : c ≠ d := by
  intro he
  rw [he, hd] at h
  exact Bool.false_ne_true h

/-- Numeric range of an identifier-start character. -/
theorem isIdentStart_toNat (c : Char) (h : isIdentStart c = true) :
    (65 ≤ c.toNat ∧ c.toNat ≤ 90) ∨ (97 ≤ c.toNat ∧ c.toNat ≤ 122) ∨
      c.toNat = 95 := by
  unfold isIdentStart at h
  simp [Char.isAlpha, Char.isUpper, Char.isLower] at h
  rcases h with (⟨h1, h2⟩ | ⟨h1, h2⟩) | h1
  · exact Or.inl ⟨h1, h2⟩
  · exact Or.inr (Or.inl ⟨h1, h2⟩)
  · subst h1
    exact Or.inr (Or.inr rfl)

/-- Numeric range of a decimal digit character. -/
theorem isDigit_toNat (c : Char) (h : c.isDigit = true) :
    48 ≤ c.toNat ∧ c.toNat ≤ 57 := by
  simp [Char.isDigit] at h
  exact h

/-- An identifier-start character is not a digit. -/
theorem isIdentStart_not_digit (c : Char) (h : isIdentStart c = true) :
    c.isDigit = false := by
  by_contra hc
  have h2 := isDigit_toNat c (by simpa using hc)
  rcases isIdentStart_toNat c h with ⟨a, b⟩ | ⟨a, b⟩ | a <;> omega

/-- An identifier-start character is not tag-grammar whitespace. -/
theorem isIdentStart_not_ws (c : Char) (h : isIdentStart c = true) :
    isJsWs c = false := by
  by_contra hc
  have hw : isJsWs c = true := by simpa using hc
  simp [isJsWs] at hw
  rcases hw with ((rfl | rfl) | rfl) | rfl <;> exact absurd h (by decide)

/-- Lexing an identifier from its own characters followed by a
non-identifier boundary recovers the identifier exactly. -/
theorem lexIdent_gen (name : String) (rest : List Char)
    (hv : validIdent name = true)
    (hb : ∀ c, rest.head? = some c → isIdentChar c = false) :
    lexIdent (name.data ++ rest) = some (name, rest) := by
  unfold validIdent at hv
  cases hd : name.data with
  | nil => rw [hd] at hv; simp at hv
  | cons c cs =>
    rw [hd] at hv
    simp only [Bool.and_eq_true, List.all_eq_true] at hv
    obtain ⟨h1, h2⟩ := hv
    simp only [List.cons_append]
    unfold lexIdent
    simp only []
    rw [if_pos h1]
    rw [takeWhile_append_all _ _ _ (fun a ha => h2 a ha),
        dropWhile_append_all _ _ _ (fun a ha => h2 a ha),
        takeWhile_head_not _ _ hb, dropWhile_head_not _ _ hb]
    simp only [List.append_nil]
    rw [← hd]

/-- Lexing a quoted run whose body avoids the quote recovers the body
and stops right after the closing quote. -/
theorem lexQuoted_gen (q : Char) (s : String) (rest : List Char)
    (h : ∀ c ∈ s.data, c ≠ q) :
    lexQuoted q (s.data ++ q :: rest) = some (s, rest) := by
  unfold lexQuoted
  rw [dropWhile_append_all _ _ _ (fun a ha => by simp [h a ha]),
      takeWhile_append_all _ _ _ (fun a ha => by simp [h a ha])]
  simp only [List.dropWhile_cons, List.takeWhile_cons]
  simp

/-- Digit characters are digits. -/
theorem digitChar_isDigit (n : Nat) (h : n < 10) :
    (digitChar n).isDigit = true := by
  interval_cases n <;> decide

/-- Numeric value of a digit character. -/
theorem digitChar_toNat (n : Nat) (h : n < 10) :
    (digitChar n).toNat = 48 + n := by
  interval_cases n <;> decide

/-- Appending one digit multiplies the accumulated value by ten. -/
theorem charsVal_append_digit (ds : List Char) (d : Char) :
    charsVal (ds ++ [d]) = 10 * charsVal ds + (d.toNat - 48) := by
  unfold charsVal
  rw [List.foldl_append]
  rfl

/-- Folding the digit-value accumulator from an arbitrary seed. -/
theorem charsVal_go (ds : List Char) (a : Nat) :
    ds.foldl (fun a c => 10 * a + (c.toNat - 48)) a =
      a * 10 ^ ds.length + charsVal ds := by
  induction ds generalizing a with
  | nil => simp [charsVal]
  | cons d ds ih =>
    simp only [List.foldl_cons, List.length_cons]
    rw [ih]
    have h2 : charsVal (d :: ds) =
        (d.toNat - 48) * 10 ^ ds.length + charsVal ds := by
      conv_lhs => unfold charsVal
      simp only [List.foldl_cons]
      rw [ih]
      ring_nf
    rw [h2]
    ring

/-- Decimal digit strings are nonempty all-digit runs whose value is the
encoded number. -/
theorem natCharsAux_spec : ∀ fuel n, n < fuel →
    natCharsAux fuel n ≠ [] ∧ (∀ c ∈ natCharsAux fuel n, c.isDigit = true) ∧
      charsVal (natCharsAux fuel n) = n := by
  intro fuel
  induction fuel with
  | zero => intro n h; omega
  | succ f ih =>
    intro n h
    unfold natCharsAux
    by_cases h10 : n < 10
    · rw [if_pos h10]
      refine ⟨by simp, ?_, ?_⟩
      · intro c hc
        simp at hc
        rw [hc]
        exact digitChar_isDigit n h10
      · unfold charsVal
        simp [digitChar_toNat n h10]
    · rw [if_neg h10]
      have hlt : n / 10 < f := by omega
      obtain ⟨hne, hdig, hval⟩ := ih (n / 10) hlt
      refine ⟨by simp, ?_, ?_⟩
      · intro c hc
        simp at hc
        rcases hc with hc | hc
        · exact hdig c hc
        · rw [hc]
          exact digitChar_isDigit _ (Nat.mod_lt _ (by omega))
      · rw [charsVal_append_digit, hval,
            digitChar_toNat _ (Nat.mod_lt _ (by omega))]
        omega

/-- Lexing a numeral from its own digits followed by a non-digit
boundary recovers the number exactly. -/
theorem lexNat_gen (n : Nat) (rest : List Char)
    (hb : ∀ c, rest.head? = some c → c.isDigit = false) :
    lexNat (natChars n ++ rest) = some (n, rest) := by
  obtain ⟨hne, hdig, hval⟩ := natCharsAux_spec (n + 1) n (by omega)
  unfold lexNat natChars
  rw [takeWhile_append_all _ _ _ (fun a ha => hdig a ha),
      dropWhile_append_all _ _ _ (fun a ha => hdig a ha),
      takeWhile_head_not _ _ hb, dropWhile_head_not _ _ hb]
  simp only [List.append_nil]
  cases hcs : natCharsAux (n + 1) n with
  | nil => exact absurd hcs hne
  | cons c cs =>
    rw [← hcs, hval]

/-- Member-tail parsing stops on any character other than a dot. -/
theorem parseMemberTail_stop (fuel : Nat) (acc : Expr) (c : Char)
    (rest : List Char) (hc : c ≠ '.') :
    parseMemberTail (fuel + 1) acc (c :: rest) = some (acc, c :: rest) := by
  unfold parseMemberTail
  (repeat' split) <;> simp_all

/-- Member-tail parsing consumes exactly the generated `.prop` segments
and folds them onto the accumulator from the left. -/
theorem parseMemberTail_chain (props : List String) :
    (∀ p ∈ props, validIdent p = true) →
    ∀ (acc : Expr) (fuel : Nat) (rest : List Char),
      props.length + 1 ≤ fuel →
      parseMemberTail fuel acc
        ((props.map (fun p => '.' :: p.data)).join ++ braceR :: rest) =
        some (props.foldl Expr.member acc, braceR :: rest) := by
  induction props with
  | nil =>
    intro _ acc fuel rest hf
    cases fuel with
    | zero => omega
    | succ f =>
      simp only [List.map_nil, List.join_nil, List.nil_append, List.foldl_nil]
      exact parseMemberTail_stop f acc braceR rest (by decide)
  | cons p props ih =>
    intro hp acc fuel rest hf
    cases fuel with
    | zero => omega
    | succ f =>
      simp only [List.map_cons, List.join_cons, List.append_assoc,
        List.cons_append, List.foldl_cons]
      have hbound : ∀ c,
          ((props.map (fun p => '.' :: p.data)).join ++
            braceR :: rest).head? = some c → isIdentChar c = false := by
        intro c hc
        cases hps : props with
        | nil =>
          rw [hps] at hc
          simp only [List.map_nil, List.join_nil, List.nil_append,
            List.head?_cons, Option.some.injEq] at hc
          subst hc
          decide
        | cons q qs =>
          rw [hps] at hc
          simp only [List.map_cons, List.join_cons, List.cons_append,
            List.append_assoc, List.head?_cons, Option.some.injEq] at hc
          subst hc
          decide
      have hlex := lexIdent_gen p
        ((props.map (fun p => '.' :: p.data)).join ++ braceR :: rest)
        (hp p (by simp)) hbound
      unfold parseMemberTail
      simp only []
      rw [hlex]
      exact ih (fun q hq => hp q (by simp [hq])) (.member acc p) f rest
        (by simpa using hf)

/-- Fuel of a member chain folded from the left: one unit per segment. -/
theorem exprFuel_foldl (props : List String) :
    ∀ a : Expr, exprFuel (props.foldl Expr.member a) =
      exprFuel a + props.length := by
  induction props with
  | nil => intro a; simp
  | cons p props ih =>
    intro a
    simp only [List.foldl_cons, List.length_cons]
    rw [ih]
    simp only [exprFuel]
    omega

/-- Every well-formed member chain is a left fold of valid property
names over a valid non-keyword base identifier, and its generated text
is the base followed by the dotted segments. -/
theorem wfMemberBase_decomp (e : Expr) (h : wfMemberBase e = true) :
    ∃ (base : String) (props : List String),
      e = props.foldl Expr.member (Expr.ident base) ∧
      (genExpr e).data =
        base.data ++ (props.map (fun p => '.' :: p.data)).join ∧
      validIdent base = true ∧ base ≠ "true" ∧ base ≠ "false" ∧
      ∀ p ∈ props, validIdent p = true := by
  induction e with
  | ident n =>
    refine ⟨n, [], rfl, by simp [genExpr], ?_, ?_, ?_, by simp⟩ <;>
      (simp only [wfMemberBase, Bool.and_eq_true, Bool.not_eq_true',
        decide_eq_false_iff_not] at h)
    · exact h.1.1
    · exact h.1.2
    · exact h.2
  | member o p iho =>
    simp only [wfMemberBase, Bool.and_eq_true] at h
    obtain ⟨base, props, he, hg, hv, ht, hf, hps⟩ := iho h.1
    refine ⟨base, props ++ [p], ?_, ?_, hv, ht, hf, ?_⟩
    · rw [List.foldl_append, ← he]
      rfl
    · simp only [genExpr, String.data_append, hg, List.map_append,
        List.join_append, List.map_cons, List.join_cons, List.map_nil,
        List.join_nil, List.append_assoc, List.append_nil]
      rfl
    · intro q hq
      simp only [List.mem_append, List.mem_singleton] at hq
      rcases hq with hq | hq
      · exact hps q hq
      · rw [hq]; exact h.2
  | stringLit s => simp [wfMemberBase] at h
  | numLit n => simp [wfMemberBase] at h
  | boolLit b => simp [wfMemberBase] at h
  | templateLit qs => simp [wfMemberBase] at h
  | objectExpr ps => simp [wfMemberBase] at h

/-- The text after an identifier inside a member chain — further dotted
segments and then the closing brace — never begins with an identifier
character. -/
theorem joinSegs_head_not_ident (props : List String) (rest : List Char) :
    ∀ c, ((props.map (fun p => '.' :: p.data)).join ++
        braceR :: rest).head? = some c → isIdentChar c = false := by
  intro c hc
  cases hps : props with
  | nil =>
    rw [hps] at hc
    simp only [List.map_nil, List.join_nil, List.nil_append,
      List.head?_cons, Option.some.injEq] at hc
    subst hc
    decide
  | cons q qs =>
    rw [hps] at hc
    simp only [List.map_cons, List.join_cons, List.cons_append,
      List.append_assoc, List.head?_cons, Option.some.injEq] at hc
    subst hc
    decide

/-- Parsing the generated text of a well-formed member chain (with the
closing brace following) recovers the chain exactly. -/
theorem parseExpr_gen_member (e : Expr) (hmb : wfMemberBase e = true)
    (fuel : Nat) (rest : List Char) (hf : exprFuel e ≤ fuel) :
    parseExpr fuel ((genExpr e).data ++ braceR :: rest) =
      some (e, braceR :: rest) := by
  obtain ⟨base, props, he, hg, hv, ht, hfse, hps⟩ := wfMemberBase_decomp e hmb
  have hvd := hv
  unfold validIdent at hvd
  cases hbd : base.data with
  | nil => rw [hbd] at hvd; simp at hvd
  | cons c cs =>
    rw [hbd] at hvd
    simp only [Bool.and_eq_true, List.all_eq_true] at hvd
    obtain ⟨hstart, hcs⟩ := hvd
    have hlex := lexIdent_gen base
      ((props.map (fun p => '.' :: p.data)).join ++ braceR :: rest) hv
      (joinSegs_head_not_ident props rest)
    rw [hbd] at hlex
    simp only [List.cons_append, List.append_assoc] at hlex
    rw [hg, hbd]
    simp only [List.cons_append, List.append_assoc]
    unfold parseExpr
    simp only []
    rw [if_neg (charNe isIdentStart c chSq hstart (by decide)),
      isIdentStart_not_digit c hstart]
    simp only [Bool.false_eq_true, if_false]
    rw [hlex]
    simp only []
    rw [if_neg (by simpa using ht), if_neg (by simpa using hfse)]
    rw [parseMemberTail_chain props hps (.ident base) fuel rest
      (by rw [he, exprFuel_foldl] at hf; simp [exprFuel] at hf; omega)]
    rw [← he]

/-- Parsing the generated text of any well-formed slot expression (with
the closing brace following) recovers the expression exactly. -/
theorem parseExpr_gen (e : Expr) (he : wfExprB e = true) (fuel : Nat)
    (rest : List Char) (hf : exprFuel e ≤ fuel) :
    parseExpr fuel ((genExpr e).data ++ braceR :: rest) =
      some (e, braceR :: rest) := by
  cases e with
  | stringLit s =>
    simp only [wfExprB, List.all_eq_true, decide_eq_true_eq] at he
    have hd : (genExpr (.stringLit s)).data = chSq :: (s.data ++ [chSq]) := by
      simp [genExpr, String.data_append]
    rw [hd]
    simp only [List.cons_append, List.append_assoc, List.singleton_append]
    unfold parseExpr
    simp only []
    simp only [if_true, List.nil_append]
    rw [lexQuoted_gen chSq s (braceR :: rest) (fun c hc => he c hc)]
    rfl
  | numLit n =>
    have hd : (genExpr (.numLit n)).data = natChars n := rfl
    rw [hd]
    obtain ⟨hne, hdig, _⟩ := natCharsAux_spec (n + 1) n (by omega)
    cases hnc : natChars n with
    | nil => exact absurd hnc hne
    | cons c cs =>
      have hcdig : c.isDigit = true := by
        apply hdig
        rw [show natCharsAux (n + 1) n = natChars n from rfl, hnc]
        simp
      simp only [List.cons_append]
      unfold parseExpr
      simp only []
      rw [if_neg (charNe Char.isDigit c chSq hcdig (by decide)),
        if_pos hcdig, ← List.cons_append, ← hnc,
        lexNat_gen n (braceR :: rest)
          (fun c' hc' => by simp at hc'; subst hc'; decide)]
      rfl
  | boolLit b =>
    cases b with
    | true =>
      have hd : (genExpr (.boolLit true)).data =
          't' :: 'r' :: 'u' :: 'e' :: [] := rfl
      rw [hd]
      simp only [List.cons_append, List.nil_append]
      unfold parseExpr
      simp only []
      rw [if_neg (show ¬('t' = chSq) by decide),
        (show ('t'.isDigit) = false by decide)]
      simp only [Bool.false_eq_true, if_false]
      have hlex := lexIdent_gen "true" (braceR :: rest) (by decide)
        (fun c hc => by simp at hc; subst hc; decide)
      rw [show ("true" : String).data ++ braceR :: rest =
        't' :: 'r' :: 'u' :: 'e' :: braceR :: rest from rfl] at hlex
      rw [hlex]
      simp only []
      simp
    | false =>
      have hd : (genExpr (.boolLit false)).data =
          'f' :: 'a' :: 'l' :: 's' :: 'e' :: [] := rfl
      rw [hd]
      simp only [List.cons_append, List.nil_append]
      unfold parseExpr
      simp only []
      rw [if_neg (show ¬('f' = chSq) by decide),
        (show ('f'.isDigit) = false by decide)]
      simp only [Bool.false_eq_true, if_false]
      have hlex := lexIdent_gen "false" (braceR :: rest) (by decide)
        (fun c hc => by simp at hc; subst hc; decide)
      rw [show ("false" : String).data ++ braceR :: rest =
        'f' :: 'a' :: 'l' :: 's' :: 'e' :: braceR :: rest from rfl] at hlex
      rw [hlex]
      simp only []
      simp
  | ident n =>
    exact parseExpr_gen_member _ (by simpa [wfExprB] using he) fuel rest hf
  | member o p =>
    exact parseExpr_gen_member _ (by simpa [wfExprB] using he) fuel rest hf
  | templateLit qs => simp [wfExprB] at he
  | objectExpr ps => simp [wfExprB] at he

/-- Folding string concatenation from any seed splits off the seed. -/
theorem join_foldl_go (l : List String) : ∀ acc : String,
    l.foldl (· ++ ·) acc = acc ++ l.foldl (· ++ ·) "" := by
  induction l with
  | nil => intro acc; simp
  | cons s l ih =>
    intro acc
    simp only [List.foldl_cons]
    rw [ih (acc ++ s), ih ("" ++ s)]
    have h0 : ("" : String) ++ s = s := rfl
    rw [h0, String.append_assoc]

/-- Joining a nonempty list of strings peels the head. -/
theorem joinCons (s : String) (l : List String) :
    String.join (s :: l) = s ++ String.join l := by
  unfold String.join
  simp only [List.foldl_cons]
  rw [join_foldl_go]
  have h0 : ("" : String) ++ s = s := rfl
  rw [h0]

/-- Character-level shape of one serialized attribute: leading space,
name, and the serialized value. -/
theorem genAttr_data (x : JSXAttribute) :
    (genAttr x).data = ' ' :: (x.name.data ++
      (match x.value with
       | none => []
       | some (.str s) => '=' :: chDq :: (s.data ++ [chDq])
       | some (.expr e) => '=' :: braceL :: ((genExpr e).data ++ [braceR]))) := by
  match hv : x.value with
  | none => simp [genAttr, hv, String.data_append]
  | some (.str s) => simp [genAttr, hv, String.data_append]
  | some (.expr e) => simp [genAttr, hv, String.data_append]

/-- The text after an attribute name with no serialized value — the next
serialized attribute or the tag terminator — begins with a space, a
slash or a closing angle, never an identifier character or equals
sign. -/
theorem joinAttrs_head (as : List JSXAttribute) (c : Char)
    (rest : List Char) (hc : c = '/' ∨ c = '>') :
    ∀ ch, ((String.join (as.map genAttr)).data ++ c :: rest).head? =
        some ch → isIdentChar ch = false ∧ ch ≠ '=' := by
  intro ch hch
  cases has : as with
  | nil =>
    rw [has] at hch
    simp only [List.map_nil] at hch
    rw [show (String.join []).data = [] from rfl] at hch
    simp only [List.nil_append, List.head?_cons, Option.some.injEq] at hch
    subst hch
    rcases hc with rfl | rfl <;> exact ⟨by decide, by decide⟩
  | cons a' as' =>
    rw [has] at hch
    simp only [List.map_cons] at hch
    rw [joinCons, String.data_append, genAttr_data] at hch
    simp only [List.cons_append, List.head?_cons, Option.some.injEq] at hch
    subst hch
    exact ⟨by decide, by decide⟩

/-- Attribute-list fuel is positive. -/
theorem attrsFuel_pos (as : List JSXAttribute) : 1 ≤ attrsFuel as := by
  cases as with
  | nil => simp [attrsFuel]
  | cons a as =>
    unfold attrsFuel attrFuel
    omega

/-- Tag-internal whitespace skipping consumes exactly the single
separator space before an attribute name. -/
theorem skipWs_space_ident (name : String) (hv : validIdent name = true)
    (tail : List Char) :
    skipWs (' ' :: (name.data ++ tail)) = name.data ++ tail := by
  unfold skipWs
  rw [List.dropWhile_cons]
  simp only [show isJsWs ' ' = true from by decide, if_true]
  apply dropWhile_head_not
  intro ch hch
  unfold validIdent at hv
  cases hnd : name.data with
  | nil => rw [hnd] at hv; simp at hv
  | cons c0 cs0 =>
    rw [hnd] at hv
    simp only [Bool.and_eq_true] at hv
    rw [hnd] at hch
    simp only [List.cons_append, List.head?_cons, Option.some.injEq] at hch
    subst hch
    exact isIdentStart_not_ws c0 hv.1

/-- Parsing the serialized attribute list followed by the tag terminator
(`/` or `>`) recovers the attribute list exactly. -/
theorem parseAttrs_gen (attrs : List JSXAttribute) :
    (∀ a ∈ attrs, wfAttrB a = true) →
    ∀ (fuel : Nat) (c : Char) (rest : List Char),
      attrsFuel attrs ≤ fuel → (c = '/' ∨ c = '>') →
      parseAttrs fuel
        ((String.join (attrs.map genAttr)).data ++ c :: rest) =
        some (attrs, c :: rest) := by
  induction attrs with
  | nil =>
    intro _ fuel c rest hf hc
    cases fuel with
    | zero => simp [attrsFuel] at hf
    | succ f =>
      simp only [List.map_nil]
      rw [show (String.join []).data = [] from rfl]
      simp only [List.nil_append]
      unfold parseAttrs
      rcases hc with rfl | rfl <;>
        simp [skipWs, List.dropWhile_cons,
          show isJsWs '/' = false from by decide,
          show isJsWs '>' = false from by decide]
  | cons a as ih =>
    intro hwf fuel c rest hf hc
    cases fuel with
    | zero =>
      unfold attrsFuel attrFuel at hf
      omega
    | succ f =>
      have hwa := hwf a (by simp)
      unfold wfAttrB at hwa
      simp only [Bool.and_eq_true] at hwa
      obtain ⟨hvn, hvv⟩ := hwa
      have hfas : attrsFuel as ≤ f := by
        unfold attrsFuel attrFuel at hf
        have := attrsFuel_pos as
        omega
      have hih := ih (fun x hx => hwf x (by simp [hx])) f c rest hfas hc
      have hvd := hvn
      unfold validIdent at hvd
      simp only [List.map_cons]
      rw [joinCons, String.data_append, genAttr_data]
      cases hval : a.value with
      | none =>
        simp only [List.cons_append, List.append_assoc, List.nil_append]
        unfold parseAttrs
        rw [skipWs_space_ident a.name hvn]
        cases hnd : a.name.data with
        | nil => rw [hnd] at hvd; simp at hvd
        | cons c0 cs0 =>
          rw [hnd] at hvd
          simp only [Bool.and_eq_true, List.all_eq_true] at hvd
          obtain ⟨hstart, _⟩ := hvd
          have hcond : (decide (c0 = '/') || decide (c0 = '>')) = false := by
            simp only [Bool.or_eq_false_iff, decide_eq_false_iff_not]
            exact ⟨charNe isIdentStart c0 '/' hstart (by decide),
              charNe isIdentStart c0 '>' hstart (by decide)⟩
          simp only [List.cons_append]
          rw [hcond]
          simp only [Bool.false_eq_true, if_false]
          rw [← List.cons_append, ← hnd,
            lexIdent_gen a.name _ hvn
              (fun ch hch => (joinAttrs_head as c rest hc ch hch).1)]
          simp only []
          cases hX : (String.join (as.map genAttr)).data ++ c :: rest with
          | nil => exact absurd hX (by simp)
          | cons d r' =>
            have hd2 : d ≠ '=' :=
              (joinAttrs_head as c rest hc d (by rw [hX]; rfl)).2
            split
            · next heq =>
              rw [List.cons.injEq] at heq
              exact absurd heq.1 hd2
            · rw [← hX, hih]
              simp only []
              have ha : a = ⟨a.name, none⟩ := by
                cases a
                simp_all
              rw [← ha]
      | some v =>
        cases v with
        | str s =>
          simp only [hval] at hvv
          simp only [List.all_eq_true, decide_eq_true_eq] at hvv
          simp only [List.cons_append, List.append_assoc,
            List.singleton_append]
          unfold parseAttrs
          rw [skipWs_space_ident a.name hvn]
          cases hnd : a.name.data with
          | nil => rw [hnd] at hvd; simp at hvd
          | cons c0 cs0 =>
            rw [hnd] at hvd
            simp only [Bool.and_eq_true, List.all_eq_true] at hvd
            obtain ⟨hstart, _⟩ := hvd
            have hcond : (decide (c0 = '/') || decide (c0 = '>')) = false := by
              simp only [Bool.or_eq_false_iff, decide_eq_false_iff_not]
              exact ⟨charNe isIdentStart c0 '/' hstart (by decide),
                charNe isIdentStart c0 '>' hstart (by decide)⟩
            simp only [List.cons_append]
            rw [hcond]
            simp only [Bool.false_eq_true, if_false]
            rw [← List.cons_append, ← hnd,
              lexIdent_gen a.name _ hvn
                (fun ch hch => by
                  simp only [List.head?_cons, Option.some.injEq] at hch
                  subst hch
                  decide)]
            simp only []
            unfold parseAttrValue
            simp only []
            simp only [if_true]
            rw [lexQuoted_gen chDq s _ (fun ch hch => hvv ch hch)]
            simp only [Option.map_some', List.nil_append]
            rw [hih]
            simp only []
            have ha : a = ⟨a.name, some (.str s)⟩ := by
              cases a
              simp_all
            rw [← ha]
        | expr e =>
          simp only [hval] at hvv
          have hfe : exprFuel e ≤ f := by
            unfold attrsFuel attrFuel at hf
            simp only [hval] at hf
            have := attrsFuel_pos as
            omega
          simp only [List.cons_append, List.append_assoc,
            List.singleton_append]
          unfold parseAttrs
          rw [skipWs_space_ident a.name hvn]
          cases hnd : a.name.data with
          | nil => rw [hnd] at hvd; simp at hvd
          | cons c0 cs0 =>
            rw [hnd] at hvd
            simp only [Bool.and_eq_true, List.all_eq_true] at hvd
            obtain ⟨hstart, _⟩ := hvd
            have hcond : (decide (c0 = '/') || decide (c0 = '>')) = false := by
              simp only [Bool.or_eq_false_iff, decide_eq_false_iff_not]
              exact ⟨charNe isIdentStart c0 '/' hstart (by decide),
                charNe isIdentStart c0 '>' hstart (by decide)⟩
            simp only [List.cons_append]
            rw [hcond]
            simp only [Bool.false_eq_true, if_false]
            rw [← List.cons_append, ← hnd,
              lexIdent_gen a.name _ hvn
                (fun ch hch => by
                  simp only [List.head?_cons, Option.some.injEq] at hch
                  subst hch
                  decide)]
            simp only []
            unfold parseAttrValue
            simp only []
            rw [if_neg (show ¬(braceL = chDq) by decide)]
            simp only [if_true]
            rw [parseExpr_gen e hvv f _ hfe]
            simp only [if_true, List.nil_append]
            rw [hih]
            simp only []
            have ha : a = ⟨a.name, some (.expr e)⟩ := by
              cases a
              simp_all
            rw [← ha]

/-- Node fuel is positive. -/
theorem nodeFuel_pos (n : JSXNode) : 1 ≤ nodeFuel n := by
  cases n <;> simp [nodeFuel] <;> omega

/-- Children fuel is positive. -/
theorem listFuel_pos (cs : JSXNodes) : 1 ≤ listFuel cs := by
  cases cs with
  | nil => simp [listFuel]
  | cons c cs =>
    have := nodeFuel_pos c
    unfold listFuel
    omega

/-- Character-level shape of a serialized expression slot. -/
theorem genNode_expr_data (e : Expr) :
    (genNode (.exprContainer e)).data =
      braceL :: ((genExpr e).data ++ [braceR]) := by
  simp [genNode, String.data_append]

/-- Character-level shape of a serialized fragment. -/
theorem genNode_frag_data (cs : JSXNodes) :
    (genNode (.fragment cs)).data =
      '<' :: '>' :: ((genList cs).data ++ ['<', '/', '>']) := by
  simp [genNode, String.data_append]

/-- Character-level shape of a serialized self-closing element. -/
theorem genNode_elem_sc_data (t : String) (attrs : List JSXAttribute)
    (cl : Option String) (cs : JSXNodes) :
    (genNode (.element t attrs true cl cs)).data =
      '<' :: (t.data ++ ((String.join (attrs.map genAttr)).data ++
        ['/', '>'])) := by
  simp [genNode, String.data_append]

/-- Character-level shape of a serialized open element. -/
theorem genNode_elem_open_data (t : String) (attrs : List JSXAttribute)
    (cl : Option String) (cs : JSXNodes) :
    (genNode (.element t attrs false cl cs)).data =
      '<' :: (t.data ++ ((String.join (attrs.map genAttr)).data ++
        '>' :: ((genList cs).data ++
          '<' :: '/' :: ((cl.getD t).data ++ ['>'])))) := by
  simp [genNode, String.data_append]

/-- A serialized well-formed node never begins like a closing tag. -/
theorem genNode_no_close (n : JSXNode) (hwf : wfNodeB n = true)
    (X t0 : List Char)
    (heq : (genNode n).data ++ X = '<' :: '/' :: t0) : False := by
  cases n with
  | text s =>
    unfold wfNodeB textOkB at hwf
    simp only [Bool.and_eq_true, Bool.not_eq_true', List.all_eq_true] at hwf
    obtain ⟨hne, hall⟩ := hwf
    cases hsd : s.data with
    | nil => rw [hsd] at hne; simp at hne
    | cons c cs =>
      rw [show genNode (.text s) = s from rfl, hsd] at heq
      simp only [List.cons_append, List.cons.injEq] at heq
      have hc := hall c (by rw [hsd]; simp)
      rw [heq.1] at hc
      simp at hc
  | exprContainer e =>
    rw [genNode_expr_data] at heq
    simp only [List.cons_append, List.cons.injEq] at heq
    exact absurd heq.1 (by decide)
  | fragment cs =>
    rw [genNode_frag_data] at heq
    simp only [List.cons_append, List.cons.injEq] at heq
    exact absurd heq.2.1 (by decide)
  | element tg attrs sc cl cs =>
    unfold wfNodeB at hwf
    simp only [Bool.and_eq_true] at hwf
    have hvt : validIdent tg = true := hwf.1.1.1.1
    unfold validIdent at hvt
    cases htd : tg.data with
    | nil => rw [htd] at hvt; simp at hvt
    | cons c0 cs0 =>
      rw [htd] at hvt
      simp only [Bool.and_eq_true] at hvt
      cases sc with
      | true =>
        rw [genNode_elem_sc_data, htd] at heq
        simp only [List.cons_append, List.cons.injEq] at heq
        rw [heq.2.1] at hvt
        exact absurd hvt.1 (by decide)
      | false =>
        rw [genNode_elem_open_data, htd] at heq
        simp only [List.cons_append, List.cons.injEq] at heq
        rw [heq.2.1] at hvt
        exact absurd hvt.1 (by decide)

/-- A serialized well-formed node is nonempty. -/
theorem genNode_ne_nil (n : JSXNode) (hwf : wfNodeB n = true) :
    (genNode n).data ≠ [] := by
  cases n with
  | text s =>
    unfold wfNodeB textOkB at hwf
    simp only [Bool.and_eq_true, Bool.not_eq_true', List.all_eq_true] at hwf
    obtain ⟨hne, _⟩ := hwf
    intro hcon
    rw [show genNode (.text s) = s from rfl] at hcon
    rw [hcon] at hne
    simp at hne
  | exprContainer e => rw [genNode_expr_data]; simp
  | fragment cs => rw [genNode_frag_data]; simp
  | element tg attrs sc cl cs =>
    cases sc with
    | true => rw [genNode_elem_sc_data]; simp
    | false => rw [genNode_elem_open_data]; simp

/-- A serialized well-formed non-text node begins with an opening angle
or a left brace. -/
theorem genNode_head_nontext (n : JSXNode) (hnt : isTextNode n = false)
    (X : List Char) :
    ((genNode n).data ++ X).head? = some '<' ∨
      ((genNode n).data ++ X).head? = some braceL := by
  cases n with
  | text s => simp [isTextNode] at hnt
  | exprContainer e =>
    rw [genNode_expr_data]
    simp
  | fragment cs =>
    rw [genNode_frag_data]
    simp
  | element tg attrs sc cl cs =>
    cases sc with
    | true => rw [genNode_elem_sc_data]; simp
    | false => rw [genNode_elem_open_data]; simp

/-- A valid identifier starts with an identifier-start character. -/
theorem validIdent_head (t : String) (hv : validIdent t = true) :
    ∃ c0 cs0, t.data = c0 :: cs0 ∧ isIdentStart c0 = true := by
  unfold validIdent at hv
  cases htd : t.data with
  | nil => rw [htd] at hv; simp at hv
  | cons c0 cs0 =>
    rw [htd] at hv
    simp only [Bool.and_eq_true] at hv
    exact ⟨c0, cs0, rfl, hv.1⟩

mutual
/-- Parsing the generated text of a well-formed node, followed by any
remainder that cannot extend a text run, recovers the node exactly. -/
theorem parseNode_gen :
    ∀ (n : JSXNode), wfNodeB n = true →
      ∀ (fuel : Nat) (rest : List Char), nodeFuel n ≤ fuel →
      (isTextNode n = true →
        rest = [] ∨ rest.head? = some '<' ∨ rest.head? = some braceL) →
      parseNode fuel ((genNode n).data ++ rest) = some (n, rest)
  | .text s, hwf, fuel, rest, hf, hb => by
    unfold wfNodeB textOkB at hwf
    simp only [Bool.and_eq_true, Bool.not_eq_true', List.all_eq_true] at hwf
    obtain ⟨hne, hall⟩ := hwf
    unfold nodeFuel at hf
    cases fuel with
    | zero => omega
    | succ f =>
      cases hsd : s.data with
      | nil => rw [hsd] at hne; simp at hne
      | cons c cs0 =>
        have hc := hall c (by rw [hsd]; simp)
        simp only [Bool.and_eq_true, decide_eq_true_eq] at hc
        have hrest : ∀ ch, rest.head? = some ch →
            (decide (ch ≠ '<') && decide (ch ≠ braceL)) = false := by
          intro ch hch
          rcases hb rfl with hnil | hlt | hbl
          · rw [hnil] at hch; simp at hch
          · have := Option.some.inj (hlt.symm.trans hch)
            subst this
            decide
          · have := Option.some.inj (hbl.symm.trans hch)
            subst this
            decide
        have hallb : ∀ a ∈ s.data,
            (decide (a ≠ '<') && decide (a ≠ braceL)) = true := by
          intro a ha
          rw [Bool.and_eq_true]
          exact ⟨(hall a ha).1, (hall a ha).2⟩
        rw [show genNode (.text s) = s from rfl, hsd]
        simp only [List.cons_append]
        unfold parseNode
        simp only []
        rw [if_neg hc.1, if_neg hc.2, ← List.cons_append, ← hsd,
          takeWhile_append_all _ _ _ hallb, dropWhile_append_all _ _ _ hallb,
          takeWhile_head_not _ _ hrest, dropWhile_head_not _ _ hrest]
        simp only [List.append_nil]
  | .exprContainer e, hwf, fuel, rest, hf, hb => by
    unfold wfNodeB at hwf
    unfold nodeFuel at hf
    cases fuel with
    | zero => omega
    | succ f =>
      rw [genNode_expr_data]
      simp only [List.cons_append, List.append_assoc, List.singleton_append,
        List.nil_append]
      unfold parseNode
      simp only []
      rw [if_neg (show ¬(braceL = '<') by decide)]
      simp only [if_true]
      rw [parseExpr_gen e hwf f rest (by omega)]
      simp only [if_true]
  | .fragment cs, hwf, fuel, rest, hf, hb => by
    unfold wfNodeB at hwf
    simp only [Bool.and_eq_true] at hwf
    obtain ⟨hD, hE⟩ := hwf
    unfold nodeFuel at hf
    cases fuel with
    | zero => omega
    | succ f =>
      cases f with
      | zero =>
        have := listFuel_pos cs
        omega
      | succ g =>
        rw [genNode_frag_data]
        simp only [List.cons_append, List.append_assoc, List.nil_append]
        unfold parseNode
        simp only [if_true]
        unfold parseTag
        simp only []
        rw [parseChildren_gen cs hD hE g ('>' :: rest) (by omega)]
        simp only []
        rw [JSXNodes.ofList_toList]
  | .element tg attrs true cl cs, hwf, fuel, rest, hf, hb => by
    unfold wfNodeB at hwf
    simp only [Bool.and_eq_true, decide_eq_true_eq] at hwf
    obtain ⟨⟨⟨⟨hvt, hwa⟩, hC⟩, hD⟩, hE⟩ := hwf
    simp only [if_true] at hC
    simp only [Bool.and_eq_true, decide_eq_true_eq] at hC
    obtain ⟨hcl, hcs⟩ := hC
    subst hcl
    subst hcs
    unfold nodeFuel at hf
    simp only [listFuel] at hf
    cases fuel with
    | zero => omega
    | succ f =>
      cases f with
      | zero =>
        have := attrsFuel_pos attrs
        omega
      | succ g =>
        rw [genNode_elem_sc_data]
        simp only [List.cons_append, List.append_assoc, List.nil_append]
        unfold parseNode
        simp only [if_true]
        unfold parseTag
        obtain ⟨c0, cs0, htd, hstart⟩ := validIdent_head tg hvt
        split
        · next heq =>
          rw [htd] at heq
          simp only [List.cons_append, List.cons.injEq] at heq
          exact absurd heq.1
            (charNe isIdentStart c0 '>' hstart (by decide))
        · rw [lexIdent_gen tg _ hvt
              (fun ch hch => (joinAttrs_head attrs '/' ('>' :: rest)
                (Or.inl rfl) ch hch).1)]
          simp only []
          rw [parseAttrs_gen attrs (List.all_eq_true.mp hwa) g '/'
            ('>' :: rest) (by omega) (Or.inl rfl)]
          rfl
  | .element tg attrs false cl cs, hwf, fuel, rest, hf, hb => by
    unfold wfNodeB at hwf
    simp only [Bool.and_eq_true, decide_eq_true_eq] at hwf
    obtain ⟨⟨⟨⟨hvt, hwa⟩, hC⟩, hD⟩, hE⟩ := hwf
    rw [if_neg (by decide)] at hC
    simp only [decide_eq_true_eq] at hC
    subst hC
    unfold nodeFuel at hf
    cases fuel with
    | zero => omega
    | succ f =>
      cases f with
      | zero =>
        have := attrsFuel_pos attrs
        have := listFuel_pos cs
        omega
      | succ g =>
        rw [genNode_elem_open_data]
        simp only [List.cons_append, List.append_assoc, List.nil_append,
          Option.getD_some]
        unfold parseNode
        simp only [if_true]
        unfold parseTag
        obtain ⟨c0, cs0, htd, hstart⟩ := validIdent_head tg hvt
        split
        · next heq =>
          rw [htd] at heq
          simp only [List.cons_append, List.cons.injEq] at heq
          exact absurd heq.1
            (charNe isIdentStart c0 '>' hstart (by decide))
        · rw [lexIdent_gen tg _ hvt
              (fun ch hch => (joinAttrs_head attrs '>'
                ((genList cs).data ++
                  '<' :: '/' :: (tg.data ++ '>' :: rest))
                (Or.inr rfl) ch hch).1)]
          simp only []
          rw [parseAttrs_gen attrs (List.all_eq_true.mp hwa) g '>'
            ((genList cs).data ++ '<' :: '/' :: (tg.data ++ '>' :: rest))
            (by have := listFuel_pos cs
                omega)
            (Or.inr rfl)]
          simp only []
          rw [parseChildren_gen cs hD hE g
            (tg.data ++ '>' :: rest)
            (by have := attrsFuel_pos attrs
                omega)]
          simp only []
          rw [lexIdent_gen tg ('>' :: rest) hvt
            (fun ch hch => by
              simp only [List.head?_cons, Option.some.injEq] at hch
              subst hch
              decide)]
          simp only [if_true]
          rw [JSXNodes.ofList_toList]
/-- Parsing the generated text of a well-formed children spine, followed
by a closing-tag opener, recovers the spine exactly and stops at the
opener. -/
theorem parseChildren_gen :
    ∀ (cs : JSXNodes), wfListB cs = true → noAdjTextB cs = true →
      ∀ (fuel : Nat) (r' : List Char), listFuel cs ≤ fuel →
      parseChildren fuel ((genList cs).data ++ '<' :: '/' :: r') =
        some (cs.toList, '<' :: '/' :: r')
  | .nil, hwf, hadj, fuel, r', hfl => by
    unfold listFuel at hfl
    cases fuel with
    | zero => omega
    | succ f =>
      rw [show (genList .nil).data = [] from rfl]
      simp only [List.nil_append]
      unfold parseChildren
      simp only []
      rfl
  | .cons c cs, hwf, hadj, fuel, r', hfl => by
    unfold wfListB at hwf
    simp only [Bool.and_eq_true] at hwf
    obtain ⟨hwc, hwcs⟩ := hwf
    unfold listFuel at hfl
    have hnf := nodeFuel_pos c
    have hlf := listFuel_pos cs
    cases fuel with
    | zero => omega
    | succ f =>
      have hadj' : noAdjTextB cs = true := by
        cases cs with
        | nil => rfl
        | cons b bs =>
          unfold noAdjTextB at hadj
          simp only [Bool.and_eq_true] at hadj
          exact hadj.2
      have hbc : isTextNode c = true →
          (genList cs).data ++ '<' :: '/' :: r' = [] ∨
          ((genList cs).data ++ '<' :: '/' :: r').head? = some '<' ∨
          ((genList cs).data ++ '<' :: '/' :: r').head? = some braceL := by
        intro htc
        cases cs with
        | nil =>
          right
          left
          rfl
        | cons b bs =>
          have hbnt : isTextNode b = false := by
            unfold noAdjTextB at hadj
            simp only [Bool.and_eq_true, Bool.not_eq_true',
              Bool.and_eq_false_iff] at hadj
            rcases hadj.1 with h1 | h1
            · rw [htc] at h1; exact absurd h1 (by simp)
            · exact h1
          rw [show (genList (.cons b bs)).data =
            (genNode b).data ++ (genList bs).data from by
              simp [genList, String.data_append]]
          simp only [List.append_assoc]
          rcases genNode_head_nontext b hbnt
            ((genList bs).data ++ '<' :: '/' :: r') with h | h
          · right; left; exact h
          · right; right; exact h
      rw [show (genList (.cons c cs)).data =
        (genNode c).data ++ (genList cs).data from by
          simp [genList, String.data_append]]
      simp only [List.append_assoc]
      unfold parseChildren
      split
      · next heq =>
        rw [List.append_eq_nil] at heq
        exact absurd heq.1 (genNode_ne_nil c hwc)
      · next heq =>
        exact absurd heq (by
          intro hcon
          exact genNode_no_close c hwc _ _ hcon)
      · rw [parseNode_gen c hwc f _ (by omega) hbc]
        simp only []
        rw [parseChildren_gen cs hwcs hadj' f r' (by omega)]
        rfl
end

/-- The head surviving a drop refutes the dropped predicate. -/
theorem dropWhile_head_false (p : Char → Bool) (l : List Char) :
    ∀ ch, (l.dropWhile p).head? = some ch → p ch = false := by
  induction l with
  | nil => intro ch h; simp at h
  | cons c cs ih =>
    intro ch h
    rw [List.dropWhile_cons] at h
    by_cases hp : p c
    · rw [if_pos hp] at h
      exact ih ch h
    · rw [if_neg hp] at h
      simp only [List.head?_cons, Option.some.injEq] at h
      subst h
      simpa using hp

/-- A lexed identifier is a valid identifier. -/
theorem lexIdent_wf (input : List Char) (name : String) (r : List Char)
    (h : lexIdent input = some (name, r)) : validIdent name = true := by
  cases input with
  | nil => simp [lexIdent] at h
  | cons c cs =>
    unfold lexIdent at h
    simp only [] at h
    by_cases hs : isIdentStart c
    · rw [if_pos hs] at h
      simp only [Option.some.injEq, Prod.mk.injEq] at h
      rw [← h.1]
      unfold validIdent
      simp only [Bool.and_eq_true, List.all_eq_true]
      exact ⟨hs, fun a ha => List.mem_takeWhile_imp ha⟩
    · rw [if_neg hs] at h
      simp at h

/-- A lexed quoted body avoids the quote character. -/
theorem lexQuoted_wf (q : Char) (input : List Char) (s : String)
    (r : List Char) (h : lexQuoted q input = some (s, r)) :
    s.data.all (fun c => decide (c ≠ q)) = true := by
  unfold lexQuoted at h
  split at h
  · next c rest heq =>
    by_cases hc : c = q
    · rw [if_pos hc] at h
      simp only [Option.some.injEq, Prod.mk.injEq] at h
      rw [← h.1]
      simp only [List.all_eq_true, decide_eq_true_eq]
      exact fun a ha => by simpa using List.mem_takeWhile_imp ha
    · rw [if_neg hc] at h
      simp at h
  · simp at h

/-- A well-formed member chain is a well-formed expression. -/
theorem wfMemberBase_wfExpr (e : Expr) (h : wfMemberBase e = true) :
    wfExprB e = true := by
  cases e <;> simp_all [wfMemberBase, wfExprB]

/-- Member-tail parsing preserves chain well-formedness. -/
theorem parseMemberTail_wf : ∀ (fuel : Nat) (acc : Expr)
    (input : List Char) (e : Expr) (r : List Char),
    wfMemberBase acc = true →
    parseMemberTail fuel acc input = some (e, r) →
    wfMemberBase e = true := by
  intro fuel
  induction fuel with
  | zero => intro acc input e r _ h; simp [parseMemberTail] at h
  | succ f ih =>
    intro acc input e r hacc h
    unfold parseMemberTail at h
    split at h
    · next rest =>
      cases hlex : lexIdent rest with
      | none => rw [hlex] at h; simp at h
      | some pr =>
        obtain ⟨name, r'⟩ := pr
        rw [hlex] at h
        simp only [] at h
        refine ih (.member acc name) r' e r ?_ h
        unfold wfMemberBase
        simp only [Bool.and_eq_true]
        exact ⟨hacc, lexIdent_wf rest name r' hlex⟩
    · simp only [Option.some.injEq, Prod.mk.injEq] at h
      rw [← h.1]
      exact hacc

/-- Every expression the slot parser produces is well-formed. -/
theorem parseExpr_wf (fuel : Nat) (input : List Char) (e : Expr)
    (r : List Char) (h : parseExpr fuel input = some (e, r)) :
    wfExprB e = true := by
  unfold parseExpr at h
  split at h
  · simp at h
  · next c rest =>
    by_cases hc : c = chSq
    · rw [if_pos hc] at h
      cases hq : lexQuoted chSq rest with
      | none => rw [hq] at h; simp at h
      | some pr =>
        rw [hq] at h
        simp only [Option.map_some', Option.some.injEq,
          Prod.mk.injEq] at h
        rw [← h.1]
        simp only [wfExprB]
        exact lexQuoted_wf chSq rest pr.1 pr.2 hq
    · rw [if_neg hc] at h
      by_cases hd : c.isDigit
      · rw [if_pos hd] at h
        cases hn : lexNat (c :: rest) with
        | none => rw [hn] at h; simp at h
        | some pr =>
          rw [hn] at h
          simp only [Option.map_some', Option.some.injEq,
            Prod.mk.injEq] at h
          rw [← h.1]
          simp [wfExprB]
      · rw [if_neg hd] at h
        cases hlex : lexIdent (c :: rest) with
        | none => rw [hlex] at h; simp at h
        | some pr =>
          obtain ⟨name, r1⟩ := pr
          rw [hlex] at h
          simp only [] at h
          by_cases ht : name = "true"
          · rw [if_pos ht] at h
            simp only [Option.some.injEq, Prod.mk.injEq] at h
            rw [← h.1]
            simp [wfExprB]
          · rw [if_neg ht] at h
            by_cases hfa : name = "false"
            · rw [if_pos hfa] at h
              simp only [Option.some.injEq, Prod.mk.injEq] at h
              rw [← h.1]
              simp [wfExprB]
            · rw [if_neg hfa] at h
              refine wfMemberBase_wfExpr e
                (parseMemberTail_wf fuel (.ident name) r1 e r ?_ h)
              unfold wfMemberBase
              simp only [Bool.and_eq_true, Bool.not_eq_true',
                decide_eq_false_iff_not]
              exact ⟨⟨lexIdent_wf _ name r1 hlex, ht⟩, hfa⟩

/-- Every attribute value the parser produces is well-formed. -/
theorem parseAttrValue_wf (fuel : Nat) (input : List Char) (v : AttrValue)
    (r : List Char) (h : parseAttrValue fuel input = some (v, r)) :
    (match v with
     | .str s => s.data.all (fun c => decide (c ≠ chDq))
     | .expr e => wfExprB e) = true := by
  unfold parseAttrValue at h
  split at h
  · next c rest =>
    simp only [] at h
    by_cases hc : c = chDq
    · rw [if_pos hc] at h
      cases hq : lexQuoted chDq rest with
      | none => rw [hq] at h; simp at h
      | some pr =>
        rw [hq] at h
        simp only [Option.map_some', Option.some.injEq,
          Prod.mk.injEq] at h
        obtain ⟨h1, h2⟩ := h
        subst h1
        simp only []
        exact lexQuoted_wf chDq rest pr.1 pr.2 hq
    · rw [if_neg hc] at h
      by_cases hb : c = braceL
      · rw [if_pos hb] at h
        cases hp : parseExpr fuel rest with
        | none => rw [hp] at h; simp at h
        | some pr =>
          obtain ⟨e, r0⟩ := pr
          rw [hp] at h
          simp only [] at h
          split at h
          · next c' r' =>
            by_cases hbr : c' = braceR
            · rw [if_pos hbr] at h
              simp only [Option.some.injEq, Prod.mk.injEq] at h
              obtain ⟨h1, h2⟩ := h
              subst h1
              simp only []
              exact parseExpr_wf fuel rest e _ hp
            · rw [if_neg hbr] at h
              simp at h
          · simp at h
      · rw [if_neg hb] at h
        simp at h
  · simp at h

/-- Children parsing rejects empty input at any fuel. -/
theorem parseChildren_nil_none : ∀ fuel, parseChildren fuel [] = none := by
  intro fuel
  cases fuel <;> rfl

/-- Every tree the modelled parser produces is well-formed, with the
auxiliary facts the induction needs: a text node is followed only by
markup or the end of input, children lists carry no adjacent text
nodes, and a node parsed at markup is not a text node. -/
theorem parseFns_wf : ∀ fuel : Nat,
    (∀ input n r, parseNode fuel input = some (n, r) →
      wfNodeB n = true ∧
      (isTextNode n = true →
        r = [] ∨ r.head? = some '<' ∨ r.head? = some braceL) ∧
      ((input.head? = some '<' ∨ input.head? = some braceL) →
        isTextNode n = false)) ∧
    (∀ input n r, parseTag fuel input = some (n, r) →
      wfNodeB n = true ∧ isTextNode n = false) ∧
    (∀ input l r, parseChildren fuel input = some (l, r) →
      wfListB (JSXNodes.ofList l) = true ∧
      noAdjTextB (JSXNodes.ofList l) = true ∧
      (∀ m ms, l = m :: ms →
        (input.head? = some '<' ∨ input.head? = some braceL) →
        isTextNode m = false)) ∧
    (∀ input as r, parseAttrs fuel input = some (as, r) →
      as.all wfAttrB = true) := by
  intro fuel
  induction fuel with
  | zero =>
    refine ⟨?_, ?_, ?_, ?_⟩ <;>
      (intro input a r h;
        simp [parseNode, parseTag, parseChildren, parseAttrs] at h)
  | succ f ih =>
    obtain ⟨ihN, ihT, ihC, ihA⟩ := ih
    refine ⟨?_, ?_, ?_, ?_⟩
    · intro input n r h
      unfold parseNode at h
      cases input with
      | nil => simp at h
      | cons c rest =>
        simp only [] at h
        by_cases hlt : c = '<'
        · rw [if_pos hlt] at h
          obtain ⟨hw, hnt⟩ := ihT rest n r h
          exact ⟨hw, fun htx => absurd htx (by simp [hnt]),
            fun _ => hnt⟩
        · rw [if_neg hlt] at h
          by_cases hbl : c = braceL
          · rw [if_pos hbl] at h
            cases hp : parseExpr f rest with
            | none => rw [hp] at h; simp at h
            | some pr =>
              obtain ⟨e, r0⟩ := pr
              rw [hp] at h
              simp only [] at h
              split at h
              · next c' r' =>
                by_cases hbr : c' = braceR
                · rw [if_pos hbr] at h
                  simp only [Option.some.injEq, Prod.mk.injEq] at h
                  obtain ⟨h1, h2⟩ := h
                  subst h1
                  refine ⟨?_, fun htx => by simp [isTextNode] at htx,
                    fun _ => by simp [isTextNode]⟩
                  simp only [wfNodeB]
                  exact parseExpr_wf f rest e _ hp
                · rw [if_neg hbr] at h
                  simp at h
              · simp at h
          · rw [if_neg hbl] at h
            simp only [Option.some.injEq, Prod.mk.injEq] at h
            obtain ⟨h1, h2⟩ := h
            subst h1
            subst h2
            refine ⟨?_, ?_, ?_⟩
            · simp only [wfNodeB, textOkB, Bool.and_eq_true,
                Bool.not_eq_true', List.all_eq_true]
              constructor
              · rw [List.takeWhile_cons, if_pos (by simp [hlt, hbl])]
                simp
              · intro a ha
                have h3 := List.mem_takeWhile_imp ha
                rw [Bool.and_eq_true] at h3
                exact h3
            · intro _
              cases hd : (c :: rest).dropWhile
                  (fun ch => decide (ch ≠ '<') && decide (ch ≠ braceL)) with
              | nil => exact Or.inl rfl
              | cons d ds =>
                have := dropWhile_head_false _ (c :: rest) d
                  (by rw [hd]; rfl)
                simp only [Bool.and_eq_false_iff,
                  decide_eq_false_iff_not, not_not] at this
                rcases this with h0 | h0
                · exact Or.inr (Or.inl (by rw [h0]; rfl))
                · exact Or.inr (Or.inr (by rw [h0]; rfl))
            · intro hin
              rcases hin with hin | hin <;>
                (simp only [List.head?_cons, Option.some.injEq] at hin;
                  exact absurd hin (by assumption))
    · intro input n r h
      unfold parseTag at h
      split at h
      · next rest =>
        cases hpc : parseChildren f rest with
        | none => rw [hpc] at h; simp at h
        | some pr =>
          obtain ⟨cs, r0⟩ := pr
          rw [hpc] at h
          simp only [] at h
          split at h
          · next r' =>
            simp only [Option.some.injEq, Prod.mk.injEq] at h
            obtain ⟨h1, h2⟩ := h
            subst h1
            obtain ⟨hw, hadj, _⟩ := ihC rest cs _ hpc
            refine ⟨?_, by simp [isTextNode]⟩
            simp only [wfNodeB, Bool.and_eq_true]
            exact ⟨hw, hadj⟩
          · simp at h
      · cases hlex : lexIdent input with
        | none => rw [hlex] at h; simp at h
        | some pr =>
          obtain ⟨name, r1⟩ := pr
          rw [hlex] at h
          simp only [] at h
          cases hpa : parseAttrs f r1 with
          | none => rw [hpa] at h; simp at h
          | some pr2 =>
            obtain ⟨attrs, r2⟩ := pr2
            rw [hpa] at h
            simp only [] at h
            split at h
            · next r3 =>
              simp only [Option.some.injEq, Prod.mk.injEq] at h
              obtain ⟨h1, h2⟩ := h
              subst h1
              refine ⟨?_, by simp [isTextNode]⟩
              simp [wfNodeB, wfListB, noAdjTextB,
                lexIdent_wf input name r1 hlex, ihA r1 attrs _ hpa]
            · next r3 =>
              cases hpc : parseChildren f r3 with
              | none => rw [hpc] at h; simp at h
              | some pr3 =>
                obtain ⟨cs, r4⟩ := pr3
                rw [hpc] at h
                simp only [] at h
                split at h
                · next r5 =>
                  cases hlex2 : lexIdent r5 with
                  | none => rw [hlex2] at h; simp at h
                  | some pr4 =>
                    obtain ⟨cname, r6⟩ := pr4
                    rw [hlex2] at h
                    simp only [] at h
                    split at h
                    · next r7 =>
                      by_cases hcn : cname = name
                      · rw [if_pos hcn] at h
                        simp only [Option.some.injEq, Prod.mk.injEq] at h
                        obtain ⟨h1, h2⟩ := h
                        subst h1
                        obtain ⟨hw, hadj, _⟩ := ihC r3 cs _ hpc
                        refine ⟨?_, by simp [isTextNode]⟩
                        simp [wfNodeB, hcn,
                          lexIdent_wf input name r1 hlex,
                          ihA r1 attrs _ hpa, hw, hadj]
                      · rw [if_neg hcn] at h
                        simp at h
                    · simp at h
                · simp at h
            · simp at h
    · intro input l r h
      unfold parseChildren at h
      split at h
      · simp at h
      · next t0 =>
        simp only [Option.some.injEq, Prod.mk.injEq] at h
        obtain ⟨h1, h2⟩ := h
        subst h1
        refine ⟨rfl, rfl, ?_⟩
        intro m ms hcontra
        exact absurd hcontra (by simp)
      · cases hpn : parseNode f input with
        | none => rw [hpn] at h; simp at h
        | some pr =>
          obtain ⟨n, r0⟩ := pr
          rw [hpn] at h
          simp only [] at h
          cases hpc : parseChildren f r0 with
          | none => rw [hpc] at h; simp at h
          | some pr2 =>
            obtain ⟨ns, r1⟩ := pr2
            rw [hpc] at h
            simp only [] at h
            simp only [Option.some.injEq, Prod.mk.injEq] at h
            obtain ⟨h1, h2⟩ := h
            subst h1
            subst h2
            obtain ⟨hwn, hbtxt, hctxt⟩ := ihN input n r0 hpn
            obtain ⟨hwns, hadjns, hheadns⟩ := ihC r0 ns r1 hpc
            refine ⟨?_, ?_, ?_⟩
            · simp only [JSXNodes.ofList, wfListB, Bool.and_eq_true]
              exact ⟨hwn, hwns⟩
            · cases hns : ns with
              | nil =>
                subst hns
                rfl
              | cons m ms =>
                subst hns
                have hnm : (isTextNode n && isTextNode m) = false := by
                  rw [Bool.and_eq_false_iff]
                  by_cases ht1 : isTextNode n = true
                  · right
                    rcases hbtxt ht1 with h0 | h0 | h0
                    · rw [h0, parseChildren_nil_none] at hpc
                      simp at hpc
                    · exact hheadns m ms rfl (Or.inl h0)
                    · exact hheadns m ms rfl (Or.inr h0)
                  · left
                    simpa using ht1
                simp only [JSXNodes.ofList, noAdjTextB, Bool.and_eq_true,
                  Bool.not_eq_true']
                exact ⟨hnm, hadjns⟩
            · intro m ms hl hhead
              injection hl with hm hms
              subst hm
              exact hctxt hhead
    · intro input as r h
      unfold parseAttrs at h
      cases hsw : skipWs input with
      | nil => rw [hsw] at h; simp at h
      | cons c rest =>
        rw [hsw] at h
        simp only [] at h
        cases hB : (decide (c = '/') || decide (c = '>')) with
        | true =>
          rw [hB] at h
          simp only [if_true] at h
          simp only [Option.some.injEq, Prod.mk.injEq] at h
          obtain ⟨h1, h2⟩ := h
          subst h1
          rfl
        | false =>
          rw [hB] at h
          simp only [Bool.false_eq_true, if_false] at h
          cases hlex : lexIdent (c :: rest) with
          | none => rw [hlex] at h; simp at h
          | some pr =>
            obtain ⟨name, r1⟩ := pr
            rw [hlex] at h
            simp only [] at h
            split at h
            · next r2 =>
              cases hpav : parseAttrValue f r2 with
              | none => rw [hpav] at h; simp at h
              | some prv =>
                obtain ⟨v, r3⟩ := prv
                rw [hpav] at h
                simp only [] at h
                cases hpa : parseAttrs f r3 with
                | none => rw [hpa] at h; simp at h
                | some pra =>
                  obtain ⟨attrs, r4⟩ := pra
                  rw [hpa] at h
                  simp only [] at h
                  simp only [Option.some.injEq, Prod.mk.injEq] at h
                  obtain ⟨h1, h2⟩ := h
                  subst h1
                  have hv := parseAttrValue_wf f r2 v r3 hpav
                  simp only [List.all_cons, Bool.and_eq_true]
                  refine ⟨?_, ihA r3 attrs r4 hpa⟩
                  cases v with
                  | str s =>
                    simp only [] at hv
                    simp only [wfAttrB, Bool.and_eq_true]
                    refine ⟨lexIdent_wf _ name _ hlex, ?_⟩
                    exact hv
                  | expr e =>
                    simp only [] at hv
                    simp [wfAttrB, lexIdent_wf _ name _ hlex, hv]
            · cases hpa : parseAttrs f r1 with
              | none => rw [hpa] at h; simp at h
              | some pra =>
                obtain ⟨attrs, r4⟩ := pra
                rw [hpa] at h
                simp only [] at h
                simp only [Option.some.injEq, Prod.mk.injEq] at h
                obtain ⟨h1, h2⟩ := h
                subst h1
                simp only [List.all_cons, Bool.and_eq_true]
                refine ⟨?_, ihA r1 attrs r4 hpa⟩
                simp [wfAttrB, lexIdent_wf _ name r1 hlex]

/-- Expression fuel is bounded by the generated length plus one. -/
theorem exprFuel_le (e : Expr) :
    exprFuel e ≤ (genExpr e).length + 1 := by
  induction e with
  | member o p iho =>
    simp only [exprFuel, genExpr, String.length_append]
    have hdot : ("." : String).length = 1 := rfl
    omega
  | ident n => simp [exprFuel]
  | stringLit s => simp [exprFuel]
  | numLit n => simp [exprFuel]
  | boolLit b => simp [exprFuel]
  | templateLit qs => simp [exprFuel]
  | objectExpr ps => simp [exprFuel]

/-- Attribute fuel is bounded by the serialized attribute length. -/
theorem attrFuel_le (a : JSXAttribute) :
    attrFuel a ≤ (genAttr a).length := by
  unfold attrFuel genAttr
  have hsp : (" " : String).length = 1 := rfl
  match hv : a.value with
  | none =>
    simp only [String.length_append]
    have h0 : ("" : String).length = 0 := rfl
    omega
  | some (.str s) =>
    simp only [String.length_append]
    have h1 : ("=" : String).length = 1 := rfl
    have h2 : (String.mk [chDq]).length = 1 := rfl
    omega
  | some (.expr e) =>
    have := exprFuel_le e
    simp only [String.length_append]
    have h1 : ("=" : String).length = 1 := rfl
    have h2 : (String.mk [braceL]).length = 1 := rfl
    have h3 : (String.mk [braceR]).length = 1 := rfl
    omega

/-- Attribute-list fuel is bounded by the serialized length plus one. -/
theorem attrsFuel_le (attrs : List JSXAttribute) :
    attrsFuel attrs ≤ (String.join (attrs.map genAttr)).length + 1 := by
  induction attrs with
  | nil => simp [attrsFuel]
  | cons a as ih =>
    have := attrFuel_le a
    unfold attrsFuel
    rw [List.map_cons, joinCons, String.length_append]
    omega

/-- String length is the length of the character data. -/
theorem strLen_data (s : String) : s.length = s.data.length := rfl

mutual
/-- Node fuel of a well-formed node is bounded by its generated
length. -/
theorem nodeFuel_le :
    ∀ (n : JSXNode), wfNodeB n = true → nodeFuel n ≤ (genNode n).length
  | .text s, hwf => by
    unfold wfNodeB textOkB at hwf
    simp only [Bool.and_eq_true, Bool.not_eq_true'] at hwf
    have hne := hwf.1
    rw [show genNode (.text s) = s from rfl]
    unfold nodeFuel
    rw [strLen_data]
    cases hsd : s.data with
    | nil => rw [hsd] at hne; simp at hne
    | cons c cs => simp
  | .exprContainer e, hwf => by
    have := exprFuel_le e
    unfold nodeFuel genNode
    simp only [String.length_append]
    have h2 : (String.mk [braceL]).length = 1 := rfl
    have h3 : (String.mk [braceR]).length = 1 := rfl
    omega
  | .fragment cs, hwf => by
    unfold wfNodeB at hwf
    simp only [Bool.and_eq_true] at hwf
    have := listFuel_le cs hwf.1
    unfold nodeFuel genNode
    simp only [String.length_append]
    have h1 : ("<>" : String).length = 2 := rfl
    have h2 : ("</>" : String).length = 3 := rfl
    omega
  | .element tg attrs sc cl cs, hwf => by
    unfold wfNodeB at hwf
    simp only [Bool.and_eq_true, decide_eq_true_eq] at hwf
    obtain ⟨⟨⟨⟨hvt, hwa⟩, hC⟩, hD⟩, hE⟩ := hwf
    have hal := attrsFuel_le attrs
    obtain ⟨c0, cs0, htd, _⟩ := validIdent_head tg hvt
    have htl : 1 ≤ tg.length := by
      rw [strLen_data, htd]
      simp
    cases sc with
    | true =>
      simp only [if_true] at hC
      simp only [Bool.and_eq_true, decide_eq_true_eq] at hC
      obtain ⟨hcl, hcs⟩ := hC
      subst hcs
      have hg : genNode (.element tg attrs true cl .nil) =
          "<" ++ tg ++ String.join (attrs.map genAttr) ++ "/>" := by
        simp [genNode]
      rw [hg]
      unfold nodeFuel
      simp only [String.length_append, listFuel]
      have h1 : ("<" : String).length = 1 := rfl
      have h2 : ("/>" : String).length = 2 := rfl
      omega
    | false =>
      have := listFuel_le cs hD
      have hg : genNode (.element tg attrs false cl cs) =
          "<" ++ tg ++ String.join (attrs.map genAttr) ++ ">" ++
            genList cs ++ "</" ++ cl.getD tg ++ ">" := by
        simp [genNode]
      rw [hg]
      unfold nodeFuel
      simp only [String.length_append]
      have h1 : ("<" : String).length = 1 := rfl
      have h2 : (">" : String).length = 1 := rfl
      have h3 : ("</" : String).length = 2 := rfl
      omega
/-- Children fuel of a well-formed spine is bounded by its generated
length plus one. -/
theorem listFuel_le :
    ∀ (cs : JSXNodes), wfListB cs = true →
      listFuel cs ≤ (genList cs).length + 1
  | .nil, hwf => by simp [listFuel, genList]
  | .cons c cs, hwf => by
    unfold wfListB at hwf
    simp only [Bool.and_eq_true] at hwf
    have h1 := nodeFuel_le c hwf.1
    have h2 := listFuel_le cs hwf.2
    unfold listFuel genList
    rw [String.length_append]
    omega
end

/-- Generating a well-formed tree and reparsing recovers it exactly. -/
theorem parse_gen (n : JSXNode) (hwf : wfNodeB n = true) :
    parse (genNode n) = some n := by
  unfold parse
  rw [show (genNode n).data = (genNode n).data ++ [] from
    (List.append_nil _).symm]
  rw [parseNode_gen n hwf ((genNode n).length + 1) []
    (by have := nodeFuel_le n hwf; omega) (fun _ => Or.inl rfl)]

/-- Every tree the parser accepts is well-formed. -/
theorem parse_wf (src : String) (T : JSXNode) (h : parse src = some T) :
    wfNodeB T = true := by
  unfold parse at h
  cases hp : parseNode (src.length + 1) src.data with
  | none => rw [hp] at h; simp at h
  | some pr =>
    obtain ⟨n, r⟩ := pr
    rw [hp] at h
    cases r with
    | nil =>
      simp only [Option.some.injEq] at h
      subst h
      exact ((parseFns_wf (src.length + 1)).1 src.data _ [] hp).1
    | cons c rest => simp at h

/-- C6: parse/generate round-trip stability — every tree obtained from
parsing (with no mutation applied) reparses from its generated code to
the same tree: same node kinds, tag names, attribute sets, text content
and child ordering (here literal equality, which subsumes structural
equivalence). -/
theorem c6_parse_generate_roundtrip (src : String) (T : JSXNode)
    (h : parse src = some T) :
    parse (generateCode ⟨some T⟩) = some T := by
  have hwf := parse_wf src T h
  unfold generateCode
  simp only []
  exact parse_gen T hwf

/-- Witness for C6 at a concrete source string: parsing, generating and
reparsing reproduces the parsed tree. -/
theorem c6_witness :
    parse c6Src = some (JSXNode.element "div"
      [⟨"data-editable", some (.str "t")⟩] false (some "div")
      (.cons (.text "Hi")
        (.cons (.element "span" [⟨"id", some (.str "s")⟩] true none .nil)
          .nil))) ∧
    parse (generateCode ⟨some (JSXNode.element "div"
      [⟨"data-editable", some (.str "t")⟩] false (some "div")
      (.cons (.text "Hi")
        (.cons (.element "span" [⟨"id", some (.str "s")⟩] true none .nil)
          .nil)))⟩) = some (JSXNode.element "div"
      [⟨"data-editable", some (.str "t")⟩] false (some "div")
      (.cons (.text "Hi")
        (.cons (.element "span" [⟨"id", some (.str "s")⟩] true none .nil)
          .nil))) :=
  ⟨by decide, c6_parse_generate_roundtrip c6Src _ (by decide)⟩
